import Mathlib

/-! http-loadbalance: a verification development.

Shallow embedding of the client-side HTTP load balancer (package `httplb`):
nodes, host clients (connection pools), the reconciler `updateClients`, the
penalty wrapper `lbClient`, and the selection strategies.

Conventions of the embedding
* Go pointers to heap objects are modelled by an explicit address (`ptr`); every
  allocation takes the next free address from a `heap` counter that is threaded
  through the allocating functions.
* Go machine integers are `Nat`/`Int` with explicit wrap-around (`% 2^w`).
* A Go panic is the `none` / `panic` result of the embedded function.
-/

namespace httplb

/-! ## node.go -/

/-- Node: one service endpoint (`IP`, `Port`, `Weight` are the exported fields, `name`
is the cache filled by `String`). `Port` and `Weight` are `uint16` in the source. -/
structure Node where
  IP : String
  Port : Nat
  Weight : Nat
  name : String := ""
deriving DecidableEq, Repr

/-- Addr: `fmt.Sprintf("%s:%d", i.IP, i.Port)`. -/
def Node.Addr (i : Node) : String :=
  i.IP ++ ":" ++ toString i.Port

/-- String: the canonical name `fmt.Sprintf("%s:%d_w%d", i.IP, i.Port, i.Weight)`, taken
from the cache `name` when that is non-empty. (The source stores the computed value in
`i.name`; the stored value is the returned one, see `Node.String_cached`.) -/
def Node.String (i : Node) : String :=
  if i.name = "" then i.IP ++ ":" ++ toString i.Port ++ "_w" ++ toString i.Weight
  else i.name

/-- The node as it is after a call of `String` (cache filled). -/
def Node.afterString (i : Node) : Node :=
  if i.name = "" then { i with name := i.String } else i

/-! ## config.go: Opts -/

/-- Opts: HTTP tuning of the pools (durations in nanoseconds). -/
structure Opts where
  MaxConns : Int := 0
  IsTLS : Bool := false
  ConnectTimeout : Int := 0
  ReadTimeout : Int := 0
  WriteTimeout : Int := 0
  MaxConnDuration : Int := 0
  MaxIdleConnDuration : Int := 0
  MaxCallAttempts : Int := 0
deriving DecidableEq, Repr

/-! ## hostclient.go -/

/-- HostClient: one connection pool. `ptr` is the address of the object (pointer
identity), `Name`/`Addr` and the tuning fields are those of the embedded
`fasthttp.HostClient`, `pending` is the pool's current number of pending requests. -/
structure HostClient where
  ptr : Nat
  Addr : String
  Name : String
  IsTLS : Bool
  MaxConns : Int
  MaxConnDuration : Int
  MaxIdleConnDuration : Int
  MaxIdemponentCallAttempts : Int
  ReadTimeout : Int
  WriteTimeout : Int
  node : Node
  pending : Int := 0
deriving DecidableEq, Repr

/-- Client: the interface of loadbalance.go; its only implementation handed to the
balancers is `*HostClient`. -/
abbrev Client := HostClient

/-- PendingRequests of the pool. -/
def HostClient.PendingRequests (c : HostClient) : Int := c.pending

/-- NewHostClient: allocates a pool for `node` at the next free address `heap`. -/
def NewHostClient (node : Node) (opts : Opts) (heap : Nat) : Client × Nat :=
  ({ ptr := heap
     Addr := node.Addr
     Name := node.String
     IsTLS := opts.IsTLS
     MaxConns := opts.MaxConns
     MaxConnDuration := opts.MaxConnDuration
     MaxIdleConnDuration := opts.MaxIdleConnDuration
     MaxIdemponentCallAttempts := opts.MaxCallAttempts
     ReadTimeout := opts.ReadTimeout
     WriteTimeout := opts.WriteTimeout
     node := node.afterString }, heap + 1)

/-! ## create_clients.go -/

/-- A Go `map[string]β` built by assignments: the newest binding of a key is first. -/
abbrev GoMap (β : Type) := List (String × β)

/-- Assignment `m[k] = v`. -/
def GoMap.set {β : Type} (m : GoMap β) (k : String) (v : β) : GoMap β := (k, v) :: m

/-- Lookup `m[k]` (`none` is the zero value of a missing key for interface values). -/
def GoMap.get {β : Type} (m : GoMap β) (k : String) : Option β := List.lookup k m

/-- The loop of `createClients`: one `NewHostClient` per node, appended in order. -/
def createClients.loop : List Node → Opts → Nat → List Client × Nat
  | [], _, heap => ([], heap)
  | node :: rest, opts, heap =>
    let (c, heap1) := NewHostClient node opts heap
    let (cs, heap2) := createClients.loop rest opts heap1
    (c :: cs, heap2)

/-- createClients: `nil` for no nodes, otherwise a fresh pool per node. -/
def createClients (nodes : List Node) (opts : Opts) (heap : Nat) : List Client × Nat :=
  if nodes.length = 0 then ([], heap) else createClients.loop nodes opts heap

/-- equals: same length, and every node's name is a key of the set of old names. -/
def equals (oldClients : List Client) (nodes : List Node) : Bool :=
  if oldClients.length ≠ nodes.length then false
  else
    let oldClientMap : GoMap Bool := oldClients.foldl (fun m c => m.set c.Name true) []
    nodes.all (fun n => (oldClientMap.get n.String).getD false)

/-- The second loop of `updateClients`: reuse the indexed pool or create one. -/
def updateClients.loop (oldClientMap : GoMap Client) : List Node → Opts → Nat → List Client × Nat
  | [], _, heap => ([], heap)
  | n :: rest, opts, heap =>
    match oldClientMap.get n.String with
    | some oc =>
      let (cs, heap1) := updateClients.loop oldClientMap rest opts heap
      (oc :: cs, heap1)
    | none =>
      let (c, heap1) := NewHostClient n opts heap
      let (cs, heap2) := updateClients.loop oldClientMap rest opts heap1
      (c :: cs, heap2)

/-- Result of `updateClients`: the pool list, the `changed` flag, the heap afterwards. -/
structure Update where
  clients : List Client
  changed : Bool
  heap : Nat
deriving DecidableEq, Repr

/-- updateClients: the reconciler. -/
def updateClients (oldClients : List Client) (nodes : List Node) (opts : Opts) (heap : Nat) :
    Update :=
  if nodes.length = 0 then ⟨oldClients, false, heap⟩
  else if oldClients.length = 0 then
    let (cs, heap1) := createClients nodes opts heap
    ⟨cs, true, heap1⟩
  else if equals oldClients nodes then ⟨oldClients, false, heap⟩
  else
    let oldClientMap : GoMap Client := oldClients.foldl (fun m c => m.set c.Name c) []
    let (cs, heap1) := updateClients.loop oldClientMap nodes opts heap
    ⟨cs, true, heap1⟩

/-! ## node.go: newNode -/

/-- The class `[\d.]` of nodeInfoReg. -/
def isDigitOrDot (c : Char) : Bool := c.isDigit || c == '.'

/-- The class `[\t ]` of nodeInfoReg. -/
def isBlank (c : Char) : Bool := c == '\t' || c == ' '

/-- Group 2 of nodeInfoReg at the text after the IP: the digits of `:(\d+)` and the
text after them, or the empty alternative. -/
def matchPort (rest : List Char) : List Char × List Char :=
  match rest with
  | ':' :: r =>
    if r.takeWhile Char.isDigit = [] then ([], rest)
    else (r.takeWhile Char.isDigit, r.dropWhile Char.isDigit)
  | _ => ([], rest)

/-- Group 3 of nodeInfoReg at the text after the port: the digits of
`[\t ]+weight[\t ]*=[\t ]*(\d+)`, or the empty alternative. -/
def matchWeight (rest : List Char) : List Char :=
  if rest.takeWhile isBlank = [] then []
  else
    let r1 := rest.dropWhile isBlank
    if "weight".toList.isPrefixOf r1 then
      match (r1.drop 6).dropWhile isBlank with
      | '=' :: r2 => (r2.dropWhile isBlank).takeWhile Char.isDigit
      | _ => []
    else []

/-- The submatches 1..3 of the only possible match of nodeInfoReg (it is anchored at the
start), `none` when the text does not match. -/
def nodeInfoReg (info : String) : Option (String × String × String) :=
  let cs := info.toList
  let ip := cs.takeWhile isDigitOrDot
  if ip = [] then none
  else
    let (port, rest) := matchPort (cs.dropWhile isDigitOrDot)
    some (String.mk ip, String.mk port, String.mk (matchWeight rest))

/-- Value of a string of decimal digits. -/
def digitsValue (ds : List Char) : Nat :=
  ds.foldl (fun v c => v * 10 + (c.toNat - '0'.toNat)) 0

/-- The call `strconv.ParseUint(s, 10, 16)` on a string of digits: an error (`none`) for the
empty string and for a value above 65535. -/
def parseUint16 (s : String) : Option Nat :=
  if s.toList = [] then none
  else if digitsValue s.toList > 65535 then none
  else some (digitsValue s.toList)

def defaultPort : Nat := 80

def defaultWeight : Nat := 1

/-- Go `error`: `none` is nil. -/
abbrev error := Option String

/-- newNode: parse `IP[:Port][ weight=N]`. -/
def newNode (info : String) : Option Node × error :=
  match nodeInfoReg info with
  | none => (none, some ("node info [" ++ info ++ "] with wrong format."))
  | some (ip, port, weight) =>
    let portInt := (parseUint16 port).getD defaultPort
    let weightInt := (parseUint16 weight).getD defaultWeight
    (some { IP := ip, Port := portInt % 65536, Weight := weightInt % 65536 }, none)

/-! ## libs/validate and the struct tags

`validate.Validator` is the go-playground validator with the extra tag `default`
(defaultFunc). The tags used by the package are `required` (the field is not the zero
value) and `default=v` (a zero field is set to `v`; the tag itself always passes for the
parameters used here). Every field of a struct is visited, so the defaults are applied
also when another field fails. -/

/-- The `default` tag on an unsigned field: defaultFunc. -/
def defaultUint (field param : Nat) : Nat := if field = 0 then param else field

/-- The `default` tag on a signed field: defaultFunc. -/
def defaultInt (field param : Int) : Int := if field = 0 then param else field

/-- The `default` tag on a string field: defaultFunc. -/
def defaultString (field param : String) : String := if field = "" then param else field

/-- Node.Validate: `IP` and `Port` required, `Weight` defaulted to 100. Returns the node
as left by the validator and the error. -/
def Node.Validate (i : Node) : Node × error :=
  ({ i with Weight := defaultUint i.Weight 100 },
   if i.IP = "" then some "IP required" else if i.Port = 0 then some "Port required" else none)

/-! ## config.go -/

/-- The function strings.ToLower, on ASCII letters (other characters are kept as they
are). -/
def toLower (s : String) : String := String.mk (s.toList.map Char.toLower)

/-- The function strings.ToUpper, on ASCII letters (other characters are kept as they
are). -/
def toUpper (s : String) : String := String.mk (s.toList.map Char.toUpper)

/-- DnsConfig (`Typ` is the field `Type` of the source, a reserved word here). -/
structure DnsConfig where
  Domain : String
  Typ : String := ""
  dnsType : Nat := 0
  Port : Nat := 0
  ResolvFile : String := ""
  DNSServer : String := ""
  dnsServerIP : String := ""
  dnsServerPort : String := ""
deriving DecidableEq, Repr

/-- ConsulConfig. -/
structure ConsulConfig where
  ConsulAgent : String := ""
  ServiceName : String
  TagName : String := ""
  Token : String := ""
deriving DecidableEq, Repr

/-- Config: the descriptor of one balanced service (`Typ` is the field `Type` of the
source). `Consul` and `DNS` are pointers that
the code tests against nil; `Opts` is a pointer the code dereferences without a test and
is taken as present. -/
structure Config where
  LBStrategy : Int := 0
  Typ : String
  Consul : Option ConsulConfig := none
  DNS : Option DnsConfig := none
  IPList : List String := []
  NodeList : List Node := []
  Opts : Opts := {}
deriving DecidableEq, Repr

def LBRoundRobin : Int := 1
def LBRandom : Int := 2
def LBWeightedRoundRobin : Int := 3
def LBLeastConnection : Int := 4

def TypeDNS : String := "dns"
def TypeConsul : String := "consul"
def TypeStatic : String := "static"

def DNSTypeA : String := "A"
def DNSTypeSRV : String := "SRV"

/-- The constants dns.TypeA and dns.TypeSRV of the DNS library. -/
def dnsTypeA : Nat := 1
def dnsTypeSRV : Nat := 33

/-- The loop of convertIPList: stops at the first entry newNode rejects. -/
def convertIPList.loop : List String → List Node → List Node × error
  | [], nodes => (nodes, none)
  | info :: rest, nodes =>
    match newNode info with
    | (some node, none) => convertIPList.loop rest (nodes ++ [node])
    | (_, err) => (nodes, err)

/-- convertIPList: fills `NodeList` from `IPList` when only the latter is given. -/
def Config.convertIPList (c : Config) : Config × error :=
  if c.IPList.length > 0 ∧ c.NodeList.length = 0 then
    match convertIPList.loop c.IPList [] with
    | (nodes, none) => ({ c with NodeList := nodes }, none)
    | (_, err) => (c, err)
  else (c, none)

/-- The regular expression dnsReg `^([\d.]+):([\d]+)$`: submatches 1 and 2. -/
def dnsReg (s : String) : Option (String × String) :=
  let cs := s.toList
  let ip := cs.takeWhile isDigitOrDot
  if ip = [] then none
  else
    match cs.dropWhile isDigitOrDot with
    | ':' :: r => if r ≠ [] ∧ r.all Char.isDigit then some (String.mk ip, String.mk r) else none
    | _ => none

/-- What the validator does on a DnsConfig: the defaults, and `Domain` required. -/
def DnsConfig.validatorStruct (dc : DnsConfig) : DnsConfig × error :=
  ({ dc with Typ := defaultString dc.Typ "A"
             Port := defaultUint dc.Port 80
             ResolvFile := defaultString dc.ResolvFile "/etc/resolv.conf" },
   if dc.Domain = "" then some "Domain required" else none)

/-- DnsConfig.Validate. `resolv` is the outcome of `dns.ClientConfigFromFile` on a path:
the servers and the port, or `none` for an error. The result is `none` when the code
panics (`config.Servers[0]` on an empty server list). -/
def DnsConfig.Validate (dc : DnsConfig) (resolv : String → Option (List String × String)) :
    Option (DnsConfig × error) :=
  match dc.validatorStruct with
  | (dc1, some e) => some (dc1, some e)
  | (dc1, none) =>
    let dc2 := { dc1 with dnsType := if toUpper dc1.Typ = "SRV" then dnsTypeSRV else dnsTypeA }
    if dc2.DNSServer ≠ "" then
      match dnsReg dc2.DNSServer with
      | none => some (dc2, some ("[" ++ dc2.Domain ++ "] dns_server with wrong format."))
      | some (ip, port) => some ({ dc2 with dnsServerIP := ip, dnsServerPort := port }, none)
    else
      match resolv dc2.ResolvFile with
      | none => some (dc2, some "resolv file error")
      | some ([], _) => none
      | some (server :: _, port) =>
        some ({ dc2 with dnsServerIP := server, dnsServerPort := port }, none)

/-- ConsulConfig.Validate: the validator on the struct (`ConsulAgent` defaulted,
`ServiceName` required). -/
def ConsulConfig.Validate (c : ConsulConfig) : ConsulConfig × error :=
  ({ c with ConsulAgent := defaultString c.ConsulAgent "127.0.0.1:8500" },
   if c.ServiceName = "" then some "ServiceName required" else none)

/-- What the validator does on an Opts: two defaults, no requirement. -/
def Opts.validatorStruct (o : Opts) : Opts :=
  { o with MaxConns := defaultInt o.MaxConns 2, MaxCallAttempts := defaultInt o.MaxCallAttempts 1 }

/-- The loop of Validate over the static nodes: stops at the first failing node. -/
def validateNodes : List Node → List Node × error
  | [] => ([], none)
  | node :: rest =>
    match node.Validate with
    | (node1, some e) => (node1 :: rest, some e)
    | (node1, none) =>
      let (rest1, err) := validateNodes rest
      (node1 :: rest1, err)

/-- The final `validate.Validator.Struct(c)`: `Type` required; the nested structs behind
non-nil pointers are validated with it (the slice `NodeList` is not entered). -/
def Config.validatorStruct (c : Config) : Config × error :=
  let consul := c.Consul.map ConsulConfig.Validate
  let dns := c.DNS.map DnsConfig.validatorStruct
  ({ c with Consul := consul.map Prod.fst, DNS := dns.map Prod.fst, Opts := c.Opts.validatorStruct },
   if c.Typ = "" then some "Type required"
   else if (consul.bind Prod.snd).isSome then consul.bind Prod.snd
   else if (dns.bind Prod.snd).isSome then dns.bind Prod.snd
   else none)

/-- The tail of Validate after the switch: default strategy, then the validator. -/
def Config.validateTail (c : Config) : Config × error :=
  Config.validatorStruct
    (if c.LBStrategy = 0 then { c with LBStrategy := LBLeastConnection } else c)

/-- Config.Validate. The result is `none` when the code panics (inside
DnsConfig.Validate), otherwise the config as left by the call and the returned error. -/
def Config.Validate (c : Config) (resolv : String → Option (List String × String)) :
    Option (Config × error) :=
  match c.convertIPList with
  | (c1, some e) => some (c1, some e)
  | (c1, none) =>
    if toLower c1.Typ = TypeStatic then
      if c1.NodeList.length = 0 then some (c1, some "type=statc static_ip_list cannot empty")
      else
        match validateNodes c1.NodeList with
        | (nodes, some e) => some ({ c1 with NodeList := nodes }, some e)
        | (nodes, none) => some (Config.validateTail { c1 with NodeList := nodes })
    else if toLower c1.Typ = TypeConsul then
      match c1.Consul with
      | none => some (c1, some "type=consul consul config cannot empty")
      | some consul =>
        match consul.Validate with
        | (consul1, some e) => some ({ c1 with Consul := some consul1 }, some e)
        | (consul1, none) => some (Config.validateTail { c1 with Consul := some consul1 })
    else if toLower c1.Typ = TypeDNS then
      match c1.DNS with
      | none => some (c1, some "type=dns dns config cannot empty")
      | some dc =>
        match dc.Validate resolv with
        | none => none
        | some (dc1, some e) => some ({ c1 with DNS := some dc1 }, some e)
        | some (dc1, none) => some (Config.validateTail { c1 with DNS := some dc1 })
    else some (Config.validateTail c1)

/-! ## Results of code that may panic or wait -/

/-- Outcome of a piece of code run on the inputs (or the number of loop iterations)
supplied to it: it finished with a value, it panicked, or it is still inside a loop
when the supply is used up. -/
inductive Run (α : Type) where
  | done (a : α)
  | panic
  | pending
deriving Repr

/-- Sequencing of outcomes. -/
def Run.bind {α β : Type} (r : Run α) (f : α → Run β) : Run β :=
  match r with
  | .done a => f a
  | .panic => .panic
  | .pending => .pending

/-- An optional value as an outcome: `none` is a panic. -/
def Run.ofOption {α : Type} : Option α → Run α
  | some a => .done a
  | none => .panic

/-! ## watcher.go -/

/-- A resource record of a DNS message, as far as the watcher looks at it: an A record
(owner name, address), an SRV record, or a record of any other type. -/
inductive DnsRR where
  | A (name : String) (ip : String)
  | SRV (name : String) (target : String) (port : Nat) (weight : Nat)
  | other (name : String)
deriving DecidableEq, Repr

/-- The fields of a `dns.Msg` response the watcher reads. -/
structure DnsMsg where
  Rcode : Nat
  Answer : List DnsRR
  Extra : List DnsRR := []
deriving DecidableEq, Repr

/-- The constant dns.RcodeSuccess. -/
def RcodeSuccess : Nat := 0

/-- One entry of a Consul health query, as far as the watcher reads it. -/
structure ServiceEntry where
  Address : String
  Port : Int
  Passing : Int
deriving DecidableEq, Repr

/-- What the outside world answers to one call of `watch`: the successive results of
`dnsClient.Exchange` (`none` is a nil response), and the result of the Consul health
query (`none` is an error, otherwise the entries and `meta.LastIndex`). -/
structure WatchInput where
  dns : List (Option DnsMsg) := []
  consul : Option (List ServiceEntry × Nat) := none
deriving DecidableEq, Repr

/-- The watcher (the API clients are left out; the Consul client is taken to be
constructible). -/
structure watcher where
  config : Config
  once : Bool := false
  consulFlag : Bool := false
  ConsulWaitIndex : Nat := 0
  first : Bool := false
  nodes : List Node
deriving DecidableEq, Repr

def newWatcher (cfg : Config) : watcher :=
  { config := cfg, nodes := cfg.NodeList }

/-- The method `sort.Strings`. -/
def sortStrings (l : List String) : List String := l.insertionSort (fun a b => a ≤ b)

/-- The method watcher.equals (`w.nodes[i]` is in range after the length test). -/
def watcher.equals (w : watcher) (nodes : List Node) : Bool :=
  if nodes.length = 0 then true
  else if nodes.length ≠ w.nodes.length then false
  else
    let sa := sortStrings (nodes.map Node.String)
    let sb := sortStrings ((w.nodes.take nodes.length).map Node.String)
    (List.zip sa sb).all (fun p => p.1 == p.2)

/-- The node loop of digA: `a.(*dns.A)` panics (`none`) on a record that is not an A
record. -/
def digA.nodes (port : Nat) : List DnsRR → Option (List Node)
  | [] => some []
  | DnsRR.A _ ip :: rest =>
    (digA.nodes port rest).map (fun l => { IP := ip, Port := port, Weight := 100 } :: l)
  | _ :: _ => none

/-- The method digA on the successive exchange results. -/
def watcher.digA (w : watcher) (dc : DnsConfig) : List (Option DnsMsg) → Run (List Node × watcher)
  | [] => .pending
  | none :: rest => watcher.digA w dc rest
  | some resp :: rest =>
    if RcodeSuccess ≠ resp.Rcode then watcher.digA w dc rest
    else
      match digA.nodes dc.Port resp.Answer with
      | none => .panic
      | some nodes =>
        if !w.equals nodes then .done (nodes, { w with nodes := nodes })
        else watcher.digA w dc rest

/-- The first loop of resolvSRVInvoker: the map from owner name to address. -/
def resolvSRVInvoker.targets : List DnsRR → GoMap String → GoMap String
  | [], m => m
  | DnsRR.A name ip :: rest, m => resolvSRVInvoker.targets rest (m.set name ip)
  | _ :: rest, m => resolvSRVInvoker.targets rest m

/-- resolvSRVInvoker. -/
def resolvSRVInvoker (msg : DnsMsg) : List Node :=
  let targetIPMap := resolvSRVInvoker.targets msg.Extra []
  msg.Answer.filterMap (fun ans =>
    match ans with
    | DnsRR.SRV _ target port weight =>
      some { IP := (targetIPMap.get target).getD "", Port := port, Weight := weight }
    | _ => none)

/-- The method digSRV on the successive exchange results. -/
def watcher.digSRV (w : watcher) : List (Option DnsMsg) → Run (List Node × watcher)
  | [] => .pending
  | none :: rest => watcher.digSRV w rest
  | some resp :: rest =>
    if RcodeSuccess ≠ resp.Rcode then watcher.digSRV w rest
    else
      if !w.equals (resolvSRVInvoker resp) then
        .done (resolvSRVInvoker resp, { w with nodes := resolvSRVInvoker resp })
      else watcher.digSRV w rest

/-- The method watchDns. A nil `DNS` is a nil dereference. -/
def watcher.watchDns (w : watcher) (input : WatchInput) : Run (List Node × watcher) :=
  match w.config.DNS with
  | none => .panic
  | some dc =>
    if toUpper dc.Typ = DNSTypeA then w.digA dc input.dns
    else if toUpper dc.Typ = DNSTypeSRV then w.digSRV input.dns
    else .done ([], w)

/-- Conversion `uint16(x)` of an int. -/
def toUint16 (x : Int) : Nat := (x % 65536).toNat

/-- The method watchConsul. A nil `Consul` is a nil dereference. -/
def watcher.watchConsul (w : watcher) (input : WatchInput) : Run (List Node × watcher) :=
  let w1 := if w.once then w else { w with once := true, consulFlag := true }
  match w1.config.Consul with
  | none => .panic
  | some _ =>
    match input.consul with
    | none => .done (w1.nodes, w1)
    | some (entrys, lastIndex) =>
      if entrys.length = 0 then .done (w1.nodes, w1)
      else
        let nodes := entrys.map (fun entry =>
          ({ IP := entry.Address, Port := toUint16 entry.Port, Weight := toUint16 entry.Passing } : Node))
        .done (nodes, { w1 with ConsulWaitIndex := lastIndex, nodes := nodes })

/-- The method watcher.watch. -/
def watcher.watch (w : watcher) (config : Config) (input : WatchInput) :
    Run (List Node × watcher) :=
  let w1 := { w with config := config }
  if config.Typ = TypeDNS then w1.watchDns input
  else if config.Typ = TypeConsul then w1.watchConsul input
  else .done (w1.nodes, w1)

/-! ## lbclient.go -/

/-- A request, as far as a health predicate may look at it. -/
structure Request where
  uri : String := ""
deriving DecidableEq, Repr

/-- A response, as far as a health predicate may look at it. -/
structure Response where
  statusCode : Nat := 0
deriving DecidableEq, Repr

/-- The type of the HealthCheck callbacks; `none` is a nil callback. -/
abbrev HealthCheck := Option (Request → Response → error → Bool)

/-- The struct lbClient. `penalty` is a `uint32`, `total` a `uint64`. -/
structure lbClient where
  c : Client
  healthCheck : HealthCheck := none
  penalty : Nat := 0
  total : Nat := 0

def maxPenalty : Nat := 300

/-- The method decPenalty: `atomic.AddUint32(&c.penalty, ^uint32(0))`. -/
def lbClient.decPenalty (c : lbClient) : lbClient :=
  { c with penalty := (c.penalty + (2 ^ 32 - 1)) % 2 ^ 32 }

/-- The method incPenalty: the result and the client afterwards. -/
def lbClient.incPenalty (c : lbClient) : Bool × lbClient :=
  let m := (c.penalty + 1) % 2 ^ 32
  let c1 := { c with penalty := m }
  if m > maxPenalty then (false, c1.decPenalty) else (true, c1)

/-- The method isHealthy. -/
def lbClient.isHealthy (c : lbClient) (req : Request) (resp : Response) (err : error) : Bool :=
  match c.healthCheck with
  | none => err.isNone
  | some f => f req resp err

/-- The method panalty (the post-processing of a call): the client afterwards and
whether a `decPenalty` timer was scheduled with `time.AfterFunc`. -/
def lbClient.panalty (c : lbClient) (req : Request) (resp : Response) (err : error) :
    lbClient × Bool :=
  if !c.isHealthy req resp err then
    match c.incPenalty with
    | (true, c1) => (c1, true)
    | (false, c1) => ({ c1 with total := (c1.total + 1) % 2 ^ 64 }, false)
  else ({ c with total := (c.total + 1) % 2 ^ 64 }, false)

/-- The method lbClient.PendingRequests: pool pending plus penalty (an `int32`-ranged count
plus a `uint32`, which a 64-bit `int` holds without wrap). -/
def lbClient.PendingRequests (c : lbClient) : Int :=
  c.c.PendingRequests + (c.penalty : Int)

/-- The pair a least-loaded selection compares, in lexicographic order: pool pending plus
penalty first, total second. -/
def lbClient.load (c : lbClient) : Lex (Int × Nat) := toLex (c.PendingRequests, c.total)

def lbClient.Name (c : lbClient) : String := c.c.Name

def lbClient.Node (c : lbClient) : Node := c.c.node

/-- The operation of the pool (`fasthttp.HostClient`) that a call on an LBClient invokes:
the untimed `Do`, `DoTimeout` with its timeout, or `DoDeadline` with its deadline
(times in nanoseconds). -/
inductive PoolCall where
  | Do (req : Request)
  | DoTimeout (req : Request) (timeout : Int)
  | DoDeadline (req : Request) (deadline : Int)
deriving DecidableEq, Repr

/-- The pools as the package sees them: what an operation on a pool answers (the response
written through `resp`, and the returned error). -/
abbrev Transport := Client → PoolCall → Response × error

/-- What a call on an LBClient did: the pool and the operation invoked on it, the returned
error, and the LBClient after the post-processing. -/
structure Called where
  pool : Client
  op : PoolCall
  err : error
  after : lbClient

/-- The method lbClient.Do: `c.c.Do(req, resp)`, then the post-processing. -/
def lbClient.Do (c : lbClient) (net : Transport) (req : Request) : Called :=
  let (resp, err) := net c.c (.Do req)
  { pool := c.c, op := .Do req, err := err, after := (c.panalty req resp err).1 }

/-- The method lbClient.DoTimeout: `c.c.DoTimeout(req, resp, timeout)`, then the
post-processing. -/
def lbClient.DoTimeout (c : lbClient) (net : Transport) (req : Request) (timeout : Int) :
    Called :=
  let (resp, err) := net c.c (.DoTimeout req timeout)
  { pool := c.c, op := .DoTimeout req timeout, err := err, after := (c.panalty req resp err).1 }

/-- The method lbClient.DoDeadline: `c.c.DoDeadline(req, resp, deadline)`, then the
post-processing. -/
def lbClient.DoDeadline (c : lbClient) (net : Transport) (req : Request) (deadline : Int) :
    Called :=
  let (resp, err) := net c.c (.DoDeadline req deadline)
  { pool := c.c, op := .DoDeadline req deadline, err := err,
    after := (c.panalty req resp err).1 }

/-- One LBClient with its scheduled `decPenalty` timers that have not fired yet. -/
structure PenaltySys where
  c : lbClient
  timers : Nat := 0

/-- What can happen to one LBClient: the post-processing of a call, or the firing of one
scheduled timer. -/
inductive PenaltyEvent where
  | call (req : Request) (resp : Response) (err : error)
  | fire

/-- One step; `none` when a timer is to fire although none is scheduled. -/
def PenaltySys.step (s : PenaltySys) : PenaltyEvent → Option PenaltySys
  | .call req resp err =>
    match s.c.panalty req resp err with
    | (c1, scheduled) => some { c := c1, timers := if scheduled then s.timers + 1 else s.timers }
  | .fire =>
    if s.timers = 0 then none else some { c := s.c.decPenalty, timers := s.timers - 1 }

/-- A sequence of steps. -/
def PenaltySys.run (s : PenaltySys) : List PenaltyEvent → Option PenaltySys
  | [] => some s
  | e :: rest => (s.step e).bind (fun s1 => s1.run rest)

/-! ## The balancers: shared parts -/

/-- The loop of every `init`: one new lbClient per pool, counters zero. -/
def initCs (clients : List Client) (hc : HealthCheck) : List lbClient :=
  clients.map (fun c => { c := c, healthCheck := hc })

/-- Conversion to `int32` (wrap-around of the atomic add). -/
def wrapInt32 (x : Int) : Int := (x + 2 ^ 31) % 2 ^ 32 - 2 ^ 31

/-! ## leastloadedlb.go -/

/-- LeastLoadedLB (the lock is left out: the embedding is sequential). `heap` is the next
free address of the allocator. -/
structure LeastLoadedLB where
  clients : List Client
  config : Config
  HealthCheck : HealthCheck := none
  Timeout : Int := 0
  cs : List lbClient := []
  watcher : watcher
  heap : Nat := 0

/-- The method LeastLoadedLB.init; `none` is the panic on an empty pool list. -/
def LeastLoadedLB.init (cc : LeastLoadedLB) : Option LeastLoadedLB :=
  if cc.clients.length = 0 then none
  else some { cc with cs := initCs cc.clients cc.HealthCheck }

/-- The method LeastLoadedLB.fetchOnce. -/
def LeastLoadedLB.fetchOnce (cc : LeastLoadedLB) (input : WatchInput) : Run LeastLoadedLB :=
  (cc.watcher.watch cc.config input).bind (fun (nodes, w) =>
    let u := updateClients cc.clients nodes cc.config.Opts cc.heap
    Run.ofOption (LeastLoadedLB.init { cc with watcher := w, clients := u.clients, heap := u.heap }))

/-- NewLeastLB without the start of the background task. -/
def NewLeastLB (config : Config) (input : WatchInput) (heap : Nat) : Run LeastLoadedLB :=
  let (clients, heap1) := createClients config.NodeList config.Opts heap
  let w := newWatcher config
  LeastLoadedLB.fetchOnce
    { watcher := w, config := config, clients := clients,
      Timeout := config.Opts.ReadTimeout * 2, heap := heap1 } input

/-- One round of the loop of LeastLoadedLB.watch after its sleep. -/
def LeastLoadedLB.watchStep (cc : LeastLoadedLB) (input : WatchInput) : Run LeastLoadedLB :=
  (cc.watcher.watch cc.config input).bind (fun (nodes, w) =>
    let u := updateClients cc.clients nodes cc.config.Opts cc.heap
    if !u.changed then .done { cc with watcher := w, heap := u.heap }
    else Run.ofOption (LeastLoadedLB.init { cc with watcher := w, clients := u.clients, heap := u.heap }))

/-- The scan of LeastLoadedLB.get over `cs[1:]`. -/
def LeastLoadedLB.get.loop : lbClient → Int → Nat → List lbClient → lbClient
  | minC, _, _, [] => minC
  | minC, minN, minT, c :: rest =>
    if c.PendingRequests < minN ∨ (c.PendingRequests = minN ∧ c.total < minT) then
      LeastLoadedLB.get.loop c c.PendingRequests c.total rest
    else LeastLoadedLB.get.loop minC minN minT rest

/-- The method LeastLoadedLB.get; `none` is the panic of `cs[0]` on an empty list. -/
def LeastLoadedLB.get (cc : LeastLoadedLB) : Option lbClient :=
  match cc.cs with
  | [] => none
  | minC :: rest => some (LeastLoadedLB.get.loop minC minC.PendingRequests minC.total rest)

/-- The method LeastLoadedLB.DoDeadline: `cc.get().DoDeadline(req, resp, deadline)`. -/
def LeastLoadedLB.DoDeadline (cc : LeastLoadedLB) (net : Transport) (req : Request)
    (deadline : Int) : Option Called :=
  (cc.get).map (fun c => c.DoDeadline net req deadline)

/-- The method LeastLoadedLB.DoTimeout: `cc.get().DoTimeout(req, resp, timeout)`. -/
def LeastLoadedLB.DoTimeout (cc : LeastLoadedLB) (net : Transport) (req : Request)
    (timeout : Int) : Option Called :=
  (cc.get).map (fun c => c.DoTimeout net req timeout)

/-- The method LeastLoadedLB.Do: `cc.get().Do(req, resp)`. -/
def LeastLoadedLB.Do (cc : LeastLoadedLB) (net : Transport) (req : Request) : Option Called :=
  (cc.get).map (fun c => c.Do net req)

/-! ## roundrobin.go -/

/-- RoundRobinLB. `index` is an `int32`; `once` tells whether `once.Do` has run. -/
structure RoundRobinLB where
  clients : List Client
  config : Config
  index : Int := 0
  HealthCheck : HealthCheck := none
  Timeout : Int := 0
  cs : List lbClient := []
  once : Bool := false
  watcher : watcher
  heap : Nat := 0

/-- The method RoundRobinLB.init; `none` is the panic on an empty pool list. -/
def RoundRobinLB.init (cc : RoundRobinLB) : Option RoundRobinLB :=
  if cc.clients.length = 0 then none
  else some { cc with cs := initCs cc.clients cc.HealthCheck }

/-- The method RoundRobinLB.fetchOnce. -/
def RoundRobinLB.fetchOnce (cc : RoundRobinLB) (input : WatchInput) : Run RoundRobinLB :=
  (cc.watcher.watch cc.config input).bind (fun (nodes, w) =>
    let u := updateClients cc.clients nodes cc.config.Opts cc.heap
    Run.ofOption (RoundRobinLB.init { cc with watcher := w, clients := u.clients, heap := u.heap }))

/-- NewRoundRobinLB without the start of the background task. -/
def NewRoundRobinLB (config : Config) (input : WatchInput) (heap : Nat) : Run RoundRobinLB :=
  let (clients, heap1) := createClients config.NodeList config.Opts heap
  let w := newWatcher config
  RoundRobinLB.fetchOnce { watcher := w, config := config, clients := clients, heap := heap1 } input

/-- One round of the loop of RoundRobinLB.watch after its sleep. -/
def RoundRobinLB.watchStep (cc : RoundRobinLB) (input : WatchInput) : Run RoundRobinLB :=
  (cc.watcher.watch cc.config input).bind (fun (nodes, w) =>
    let u := updateClients cc.clients nodes cc.config.Opts cc.heap
    if !u.changed then .done { cc with watcher := w, heap := u.heap }
    else Run.ofOption (RoundRobinLB.init { cc with watcher := w, clients := u.clients, heap := u.heap }))

/-- The method RoundRobinLB.get: the selected client and the balancer afterwards; `none` is a
panic (of `init`, of the division by `len(cc.cs)`, or of the indexing). The remainder
`%` of Go truncates towards zero. -/
def RoundRobinLB.get (cc : RoundRobinLB) : Option (lbClient × RoundRobinLB) :=
  (if cc.once then some cc else (cc.init).map (fun c1 => { c1 with once := true })).bind
    (fun cc1 =>
      let i := wrapInt32 (cc1.index + 1)
      let cc2 := { cc1 with index := i }
      if cc2.cs.length = 0 then none
      else
        let k := Int.tmod i cc2.cs.length
        if k < 0 then none
        else (cc2.cs[k.toNat]?).map (fun c => (c, cc2)))

/-- The results of `n` successive calls of Get, oldest first, and the balancer after
them. -/
def RoundRobinLB.gets : Nat → RoundRobinLB → Option (List lbClient × RoundRobinLB)
  | 0, cc => some ([], cc)
  | n + 1, cc =>
    (cc.get).bind (fun (c, cc1) =>
      (RoundRobinLB.gets n cc1).map (fun (l, cc2) => (c :: l, cc2)))

/-! ## weightrr.go -/

/-- WeightedRoundRobinLB. `cw`, `gcd`, `maxWeight` are `uint16`, `i` is an `int`. -/
structure WeightedRoundRobinLB where
  clients : List Client
  config : Config
  HealthCheck : HealthCheck := none
  Timeout : Int := 0
  cs : List lbClient := []
  once : Bool := false
  watcher : watcher
  i : Int := 0
  cw : Nat := 0
  gcd : Nat := 0
  maxWeight : Nat := 0
  heap : Nat := 0

/-- The inner loop of gcdx on `x`, `y`, run for at most `fuel` rounds: the final `y`.
`x % y` panics for `y = 0`. -/
def gcdx.inner : Nat → Nat → Nat → Run Nat
  | 0, _, _ => .pending
  | fuel + 1, x, y =>
    if y = 0 then .panic
    else if x % y > 0 then gcdx.inner fuel y (x % y) else .done y

/-- The outer loop of gcdx over `array[1:]`. The inner loop is given `y + 1` rounds, which
it never uses up (`y` decreases in every round but the last). -/
def gcdx.outer : Nat → List Nat → Run Nat
  | y, [] => .done y
  | y, x :: rest => (gcdx.inner (y + 1) x y).bind (fun y1 => gcdx.outer y1 rest)

/-- The function gcdx. -/
def gcdx (array : List Nat) : Run Nat :=
  match array with
  | [] => .done 0
  | y :: rest => gcdx.outer y rest

/-- The function getMaxWeight. -/
def getMaxWeight (nodes : List Node) : Nat :=
  nodes.foldl (fun max v => if v.Weight > max then v.Weight else max) 0

/-- The method WeightedRoundRobinLB.init; `none` is the panic on an empty pool list. -/
def WeightedRoundRobinLB.init (cc : WeightedRoundRobinLB) : Option WeightedRoundRobinLB :=
  if cc.clients.length = 0 then none
  else some { cc with cs := initCs cc.clients cc.HealthCheck }

/-- The method WeightedRoundRobinLB.fetchOnce. -/
def WeightedRoundRobinLB.fetchOnce (cc : WeightedRoundRobinLB) (input : WatchInput) :
    Run WeightedRoundRobinLB :=
  (cc.watcher.watch cc.config input).bind (fun (nodes, w) =>
    let u := updateClients cc.clients nodes cc.config.Opts cc.heap
    (gcdx (nodes.map Node.Weight)).bind (fun g =>
      Run.ofOption (WeightedRoundRobinLB.init
        { cc with watcher := w, heap := u.heap, i := -1, cw := 0, gcd := g,
                  maxWeight := getMaxWeight nodes, clients := u.clients })))

/-- NewWeightedRoundRobinLB without the start of the background task. -/
def NewWeightedRoundRobinLB (config : Config) (input : WatchInput) (heap : Nat) :
    Run WeightedRoundRobinLB :=
  let (clients, heap1) := createClients config.NodeList config.Opts heap
  let w := newWatcher config
  WeightedRoundRobinLB.fetchOnce
    { watcher := w, config := config, clients := clients, heap := heap1 } input

/-- One round of the loop of WeightedRoundRobinLB.watch after its sleep. -/
def WeightedRoundRobinLB.watchStep (cc : WeightedRoundRobinLB) (input : WatchInput) :
    Run WeightedRoundRobinLB :=
  (cc.watcher.watch cc.config input).bind (fun (nodes, w) =>
    let u := updateClients cc.clients nodes cc.config.Opts cc.heap
    if !u.changed then .done { cc with watcher := w, heap := u.heap }
    else Run.ofOption (WeightedRoundRobinLB.init
      { cc with watcher := w, clients := u.clients, heap := u.heap }))

/-- One round of the selection loop of WeightedRoundRobinLB.get: either the loop is left
(`inl`: with the returned client, `none` being nil, and the balancer afterwards, or with a
panic), or it goes on from the given state (`inr`). A panic is a division by
`len(cc.clients) = 0` or an index out of range. -/
def WeightedRoundRobinLB.get.body (cc : WeightedRoundRobinLB) :
    Run (Option lbClient × WeightedRoundRobinLB) ⊕ WeightedRoundRobinLB :=
  if cc.clients.length = 0 then .inl .panic
  else
    let i := Int.tmod (cc.i + 1) cc.clients.length
    let cw1 := if i = 0 then (cc.cw + 65536 - cc.gcd) % 65536 else cc.cw
    let cw2 := if i = 0 ∧ cw1 ≤ 0 then cc.maxWeight else cw1
    let cc1 := { cc with i := i, cw := cw2 }
    if i = 0 ∧ cw1 ≤ 0 ∧ cw2 = 0 then .inl (.done (none, cc1))
    else if i < 0 then .inl .panic
    else
      match cc1.clients[i.toNat]? with
      | none => .inl .panic
      | some c =>
        if c.node.Weight ≥ cc1.cw then
          match cc1.cs[i.toNat]? with
          | none => .inl .panic
          | some r => .inl (.done (some r, cc1))
        else .inr cc1

/-- The loop `for { ... }` of WeightedRoundRobinLB.get, run for at most `fuel` rounds. -/
def WeightedRoundRobinLB.get.loop : Nat → WeightedRoundRobinLB →
    Run (Option lbClient × WeightedRoundRobinLB)
  | 0, _ => .pending
  | fuel + 1, cc =>
    match WeightedRoundRobinLB.get.body cc with
    | .inl r => r
    | .inr cc1 => WeightedRoundRobinLB.get.loop fuel cc1

/-- The method WeightedRoundRobinLB.get, its loop run for at most `fuel` rounds. -/
def WeightedRoundRobinLB.get (fuel : Nat) (cc : WeightedRoundRobinLB) :
    Run (Option lbClient × WeightedRoundRobinLB) :=
  (Run.ofOption (if cc.once then some cc else (cc.init).map (fun c1 => { c1 with once := true }))).bind
    (fun cc1 => WeightedRoundRobinLB.get.loop fuel cc1)

/-- The results of `n` successive calls of Get (each loop run for at most `fuel` rounds),
oldest first, and the balancer after them. -/
def WeightedRoundRobinLB.gets (fuel : Nat) : Nat → WeightedRoundRobinLB →
    Run (List (Option lbClient) × WeightedRoundRobinLB)
  | 0, cc => .done ([], cc)
  | n + 1, cc =>
    (WeightedRoundRobinLB.get fuel cc).bind (fun (c, cc1) =>
      (WeightedRoundRobinLB.gets fuel n cc1).bind (fun (l, cc2) => .done (c :: l, cc2)))

/-! ## random.go -/

/-- RandomLB (the generator is left out; selection is not modelled). -/
structure RandomLB where
  clients : List Client
  config : Config
  HealthCheck : HealthCheck := none
  Timeout : Int := 0
  cs : List lbClient := []
  once : Bool := false
  watcher : watcher
  heap : Nat := 0

/-- The method RandomLB.init; `none` is the panic on an empty pool list. -/
def RandomLB.init (cc : RandomLB) : Option RandomLB :=
  if cc.clients.length = 0 then none
  else some { cc with cs := initCs cc.clients cc.HealthCheck }

/-- The method RandomLB.fetchOnce. -/
def RandomLB.fetchOnce (cc : RandomLB) (input : WatchInput) : Run RandomLB :=
  (cc.watcher.watch cc.config input).bind (fun (nodes, w) =>
    let u := updateClients cc.clients nodes cc.config.Opts cc.heap
    Run.ofOption (RandomLB.init { cc with watcher := w, clients := u.clients, heap := u.heap }))

/-- NewRandomLB without the start of the background task. -/
def NewRandomLB (config : Config) (input : WatchInput) (heap : Nat) : Run RandomLB :=
  let (clients, heap1) := createClients config.NodeList config.Opts heap
  let w := newWatcher config
  RandomLB.fetchOnce { watcher := w, config := config, clients := clients, heap := heap1 } input

/-- One round of the loop of RandomLB.watch after its sleep. -/
def RandomLB.watchStep (cc : RandomLB) (input : WatchInput) : Run RandomLB :=
  (cc.watcher.watch cc.config input).bind (fun (nodes, w) =>
    let u := updateClients cc.clients nodes cc.config.Opts cc.heap
    if !u.changed then .done { cc with watcher := w, heap := u.heap }
    else Run.ofOption (RandomLB.init { cc with watcher := w, clients := u.clients, heap := u.heap }))

/-! ## new.go -/

/-- The interface LoadBalancer with its four implementations. -/
inductive LoadBalancer where
  | random (lb : RandomLB)
  | roundRobin (lb : RoundRobinLB)
  | leastLoaded (lb : LeastLoadedLB)
  | weighted (lb : WeightedRoundRobinLB)

/-- The pool list of a balancer. -/
def LoadBalancer.clients : LoadBalancer → List Client
  | .random lb => lb.clients
  | .roundRobin lb => lb.clients
  | .leastLoaded lb => lb.clients
  | .weighted lb => lb.clients

/-- Mapping of outcomes. -/
def Run.map {α β : Type} (f : α → β) (r : Run α) : Run β := r.bind (fun a => .done (f a))

/-- New: construction of the balancer of the configured strategy. -/
def New (config : Config) (input : WatchInput) (heap : Nat) : Run LoadBalancer :=
  if config.LBStrategy = LBRandom then (NewRandomLB config input heap).map .random
  else if config.LBStrategy = LBRoundRobin then (NewRoundRobinLB config input heap).map .roundRobin
  else if config.LBStrategy = LBLeastConnection then (NewLeastLB config input heap).map .leastLoaded
  else if config.LBStrategy = LBWeightedRoundRobin then
    (NewWeightedRoundRobinLB config input heap).map .weighted
  else (NewLeastLB config input heap).map .leastLoaded

/-! ## Notions used in the statements, and concrete objects to evaluate the code on -/

/-- Options of the test configuration of httplb_test.go. -/
def exOpts : Opts :=
  { MaxConns := 1, ConnectTimeout := 10000000000, ReadTimeout := 10000000000,
    WriteTimeout := 10000000000, MaxConnDuration := 600000000000,
    MaxIdleConnDuration := 60000000000, MaxCallAttempts := 1 }

def exNodeA : Node := { IP := "10.0.0.1", Port := 80, Weight := 100 }

def exNodeB : Node := { IP := "10.0.0.2", Port := 80, Weight := 100 }

/-- The pool of `exNodeA`, allocated at address 0. -/
def exPoolA : Client := (NewHostClient exNodeA exOpts 0).1

/-- The pool of `exNodeB`, allocated at address 1. -/
def exPoolB : Client := (NewHostClient exNodeB exOpts 1).1

/-- A static configuration over the two example nodes. -/
def exConfig : Config :=
  { Typ := TypeStatic, NodeList := [exNodeA, exNodeB], Opts := exOpts,
    LBStrategy := LBLeastConnection }

/-- A least-loaded balancer holding the given LBClients. -/
def exLeastLB (cs : List lbClient) : LeastLoadedLB :=
  { clients := cs.map (fun c => c.c), config := exConfig, watcher := newWatcher exConfig,
    cs := cs, heap := 2 }

/-- Endpoint A with 5 requests pending in its pool. -/
def exLbA : lbClient := { c := { exPoolA with pending := 5 } }

/-- Endpoint B with 3 requests pending in its pool. -/
def exLbB : lbClient := { c := { exPoolB with pending := 3 } }

/-- An unhealthy call's post-processing on an LBClient (default health predicate, the call
returned an error). -/
def unhealthyCall (c : lbClient) : lbClient := (c.panalty {} {} (some "timeout")).1

/-- The three nodes of the round-robin scenario. -/
def exThreeNodes : List Node :=
  [{ IP := "127.0.0.1", Port := 7780, Weight := 1000 },
   { IP := "127.0.0.1", Port := 7781, Weight := 200 },
   { IP := "127.0.0.1", Port := 7780, Weight := 400 }]

/-- A static round-robin configuration over the three nodes. -/
def exThreeConfig : Config :=
  { Typ := TypeStatic, NodeList := exThreeNodes, Opts := exOpts, LBStrategy := LBRoundRobin }

/-- The balancer as it is once `once.Do(cc.init)` of Get has run (the first Get rebuilds the
LBClient list). -/
def RoundRobinLB.afterOnce (cc : RoundRobinLB) : RoundRobinLB :=
  if cc.once then cc else { cc with cs := initCs cc.clients cc.HealthCheck, once := true }

/-- The names returned by `n` successive Get calls on a freshly constructed balancer. -/
def RoundRobinLB.firstNames (config : Config) (n : Nat) : Option (List String) :=
  match NewRoundRobinLB config {} 0 with
  | .done lb => (lb.gets n).map (fun r => r.1.map lbClient.Name)
  | _ => none

/-- A Consul configuration without fallback nodes (no `ip_list`, no `node_list`). -/
def exConsulConfig : Config :=
  { Typ := TypeConsul, Consul := some { ServiceName := "flash-mock-http" }, Opts := exOpts }

/-- A Consul configuration whose fallback list is endpoint A. -/
def exConsulConfigA : Config :=
  { Typ := TypeConsul, Consul := some { ServiceName := "flash-mock-http" }, Opts := exOpts,
    NodeList := [exNodeA], LBStrategy := LBLeastConnection }

/-- A least-loaded balancer holding the pool of endpoint A, whose LBClient has penalty 3
and total 5. -/
def exLeastLBA : LeastLoadedLB :=
  { clients := [exPoolA], config := exConsulConfigA, watcher := newWatcher exConsulConfigA,
    cs := [{ c := exPoolA, penalty := 3, total := 5 }], heap := 1 }

/-- A Consul answer listing the endpoints A and B. -/
def exConsulAB : WatchInput :=
  { consul := some ([{ Address := "10.0.0.1", Port := 80, Passing := 100 },
                     { Address := "10.0.0.2", Port := 80, Passing := 100 }], 7) }

/-- Whether an outcome is a panic. -/
def Run.isPanic {α : Type} : Run α → Bool
  | .panic => true
  | _ => false

/-- The pool, penalty and total of the LBClients of a balancer. -/
def LeastLoadedLB.counters (cc : LeastLoadedLB) : List (Client × Nat × Nat) :=
  cc.cs.map (fun c => (c.c, c.penalty, c.total))

/-- The pool list and the LBClient counters after one round of the watch loop (`none` when
the round does not finish). -/
def LeastLoadedLB.afterWatch (cc : LeastLoadedLB) (input : WatchInput) :
    Option (List Client × List (Client × Nat × Nat)) :=
  match cc.watchStep input with
  | .done lb2 => some (lb2.clients, lb2.counters)
  | _ => none

/-- Validation of `config` with the given strategy, then construction from the config as
`Validate` leaves it: whether `Validate` returned nil, and whether `New` panics. (No
resolver file is readable; only DNS configurations without `dns_server` read one.) -/
def validateThenNew (config : Config) (strategy : Int) (input : WatchInput) : Bool × Bool :=
  match Config.Validate { config with LBStrategy := strategy } (fun _ => none) with
  | some (c, err) => (err.isNone, (New c input 0).isPanic)
  | none => (false, false)

/-! ## Weighted round robin: the passes of the selection loop -/

/-- The weights the weighted selection reads: `cc.clients[i].Node().Weight`. -/
def WeightedRoundRobinLB.weights (cc : WeightedRoundRobinLB) : List Nat :=
  cc.clients.map (fun c => c.node.Weight)

/-- The value of `cc.cw` after the block `if cc.i == 0` of the selection loop (16-bit
subtraction, then the reset to `maxWeight` at zero). -/
def WeightedRoundRobinLB.nextCw (cc : WeightedRoundRobinLB) : Nat :=
  if (cc.cw + 65536 - cc.gcd) % 65536 ≤ 0 then cc.maxWeight else (cc.cw + 65536 - cc.gcd) % 65536

/-- The indices `k, k+1, ...` of the weights in `ws` that are at least `c`, in order:
what one pass over the pools selects at current weight `c`. -/
def hitsFrom (c : Nat) : List Nat → Nat → List Nat
  | [], _ => []
  | w :: rest, k => if w ≥ c then k :: hitsFrom c rest (k + 1) else hitsFrom c rest (k + 1)

/-- The balancer with its selection state set to `i`, `cw`. -/
def WeightedRoundRobinLB.moved (cc : WeightedRoundRobinLB) (i : Int) (cw : Nat) :
    WeightedRoundRobinLB :=
  { cc with i := i, cw := cw }

/-- The current weight of the pass that follows a pass at current weight `c`. -/
def nextWeight (g mx c : Nat) : Nat :=
  if (c + 65536 - g) % 65536 ≤ 0 then mx else (c + 65536 - g) % 65536

/-- `m` successive Get calls on `cc` return `outs` and leave `cc2`, for every sufficient
bound on the rounds of the selection loop. -/
def WeightedRoundRobinLB.GetsTo (cc : WeightedRoundRobinLB) (m : Nat)
    (outs : List (Option lbClient)) (cc2 : WeightedRoundRobinLB) : Prop :=
  ∃ F, ∀ f, F ≤ f → WeightedRoundRobinLB.gets f m cc = Run.done (outs, cc2)

/-- The pools selected by `t` successive passes that follow a pass at current weight `c`,
as indices. -/
def passes (g mx : Nat) (ws : List Nat) : Nat → Nat → List Nat
  | 0, _ => []
  | t + 1, c => hitsFrom (nextWeight g mx c) ws 0 ++ passes g mx ws t (nextWeight g mx c)

/-- The current weight after `t` further passes. -/
def weightAfter (g mx : Nat) : Nat → Nat → Nat
  | 0, c => c
  | t + 1, c => weightAfter g mx t (nextWeight g mx c)

/-- The state `(k, c)` of a selection (next index `k`, current weight `c`) has no pool left
to select in the running pass: the balancer is fresh (`k = 0`), or no weight from index
`k` on reaches `c`. -/
def WeightedRoundRobinLB.Exhausted (cc : WeightedRoundRobinLB) (k c : Nat) : Prop :=
  k = 0 ∨ (1 ≤ k ∧ k ≤ cc.clients.length ∧ hitsFrom c (cc.weights.drop k) k = [])

/-- The LBClients at the given indices, as Get returns them. -/
def WeightedRoundRobinLB.outsOf (cc : WeightedRoundRobinLB) (idxs : List Nat) :
    List (Option lbClient) :=
  idxs.map (fun j => cc.cs[j]?)

/-- The weights `ws` with the stored `gcd` and `maxWeight` of a balancer: the step `g` is
positive and divides every weight, every weight is positive and at most `mx`, and `mx` is
one of the weights and a `uint16`. -/
def WeightsOk (g mx : Nat) (ws : List Nat) : Prop :=
  0 < g ∧ mx < 65536 ∧ mx ∈ ws ∧ ∀ w ∈ ws, g ∣ w ∧ 0 < w ∧ w ≤ mx

/-- The balancer NewWeightedRoundRobinLB returns for a static configuration (see
`NewWeightedRoundRobinLB_static`). -/
def freshWeighted (config : Config) (heap : Nat) : WeightedRoundRobinLB :=
  { clients := (createClients config.NodeList config.Opts heap).1
    config := config
    cs := initCs (createClients config.NodeList config.Opts heap).1 none
    watcher := { newWatcher config with config := config }
    i := -1
    cw := 0
    gcd := (config.NodeList.map Node.Weight).foldr Nat.gcd 0
    maxWeight := getMaxWeight config.NodeList
    heap := (createClients config.NodeList config.Opts heap).2 }

/-- The fresh balancer once `once.Do(cc.init)` of the first Get has run. -/
def readyWeighted (config : Config) (heap : Nat) : WeightedRoundRobinLB :=
  { freshWeighted config heap with once := true }

/-- The three nodes of the weighted scenario: A, B, C with weights 4, 2, 1. -/
def exWeightedNodes : List Node :=
  [{ IP := "10.0.0.1", Port := 80, Weight := 4 },
   { IP := "10.0.0.2", Port := 80, Weight := 2 },
   { IP := "10.0.0.3", Port := 80, Weight := 1 }]

/-- A static weighted-round-robin configuration over A, B, C. -/
def exWeightedConfig : Config :=
  { Typ := TypeStatic, NodeList := exWeightedNodes, Opts := exOpts,
    LBStrategy := LBWeightedRoundRobin }

/-- The names returned by the first `n` Get calls on the balancer freshly constructed from
`config` (each selection loop run for at most `fuel` rounds; `none` when construction or
a call does not finish). A nil result of Get is the name `none`. -/
def WeightedRoundRobinLB.firstNames (config : Config) (fuel n : Nat) :
    Option (List (Option String)) :=
  match NewWeightedRoundRobinLB config {} 0 with
  | .done lb =>
    match lb.gets fuel n with
    | .done (outs, _) => some (outs.map (Option.map lbClient.Name))
    | _ => none
  | _ => none

/-! ## Further concrete objects: validation, the watch loop, timed calls -/

/-- The configuration `cfg` of httplb_test.go. -/
def exTestConfig : Config :=
  { LBStrategy := LBRandom
    Typ := TypeStatic
    Consul := some { ConsulAgent := "127.0.0.1:8500", ServiceName := "flash-mock-http",
                     TagName := "" }
    DNS := some { Domain := "flash-mock-http.service.consul", Typ := DNSTypeSRV, Port := 7780,
                  DNSServer := "127.0.0.1:53" }
    IPList := ["127.0.0.1:7780 weight=1000", "127.0.0.1:7781 weight=200",
               "127.0.0.1:7780 weight=400"]
    Opts := exOpts }

/-- A static configuration whose second `IPList` entry does not start with an IP. -/
def exBadIPListConfig : Config :=
  { Typ := TypeStatic, IPList := ["127.0.0.1:7780 weight=1000", "localhost:7781"],
    Opts := exOpts }

/-- A static configuration whose only `IPList` entry has no `weight=N` clause. -/
def exNoWeightConfig : Config :=
  { Typ := TypeStatic, IPList := ["127.0.0.1:7780"], Opts := exOpts }

/-- A static configuration whose only node is a struct literal without weight. -/
def exZeroWeightConfig : Config :=
  { Typ := TypeStatic, NodeList := [{ IP := "127.0.0.1", Port := 7780, Weight := 0 }],
    Opts := exOpts }

/-- The config `exZeroWeightConfig` as Validate leaves it. -/
def exZeroWeightValidated : Config :=
  { exZeroWeightConfig with
    NodeList := [{ IP := "127.0.0.1", Port := 7780, Weight := 100 }]
    LBStrategy := LBLeastConnection }

/-- A Consul configuration for the weighted strategy whose fallback list is endpoint A
(weight 100, the default of a node given without weight). -/
def exConsulWeightedConfig : Config :=
  { Typ := TypeConsul, Consul := some { ServiceName := "flash-mock-http" }, Opts := exOpts,
    NodeList := [exNodeA], LBStrategy := LBWeightedRoundRobin }

/-- A Consul answer listing the endpoints A and B with passing weight 1. -/
def exConsulOnes : WatchInput :=
  { consul := some ([{ Address := "10.0.0.1", Port := 80, Passing := 1 },
                     { Address := "10.0.0.2", Port := 80, Passing := 1 }], 7) }

/-- The nodes of the answer `exConsulOnes`. -/
def exNodesOnes : List Node :=
  [{ IP := "10.0.0.1", Port := 80, Weight := 1 }, { IP := "10.0.0.2", Port := 80, Weight := 1 }]

/-- The weighted balancer constructed from `exConsulWeightedConfig` while the Consul query
fails, after one round of its watch loop that receives `exConsulOnes`. -/
def exStaleWeighted : Run WeightedRoundRobinLB :=
  (NewWeightedRoundRobinLB exConsulWeightedConfig { consul := none } 0).bind
    (fun lb => lb.watchStep exConsulOnes)

/-- The pool weights a weighted balancer selects by, with its stored `gcd` and
`maxWeight`. -/
def WeightedRoundRobinLB.weightState (cc : WeightedRoundRobinLB) : List Nat × Nat × Nat :=
  (cc.weights, cc.gcd, cc.maxWeight)

/-- The selection state of a weighted balancer: `i`, `cw`, and whether `once.Do` has
run. -/
def WeightedRoundRobinLB.selState (cc : WeightedRoundRobinLB) : Int × Nat × Bool :=
  (cc.i, cc.cw, cc.once)

/-- The value an outcome finished with. -/
def Run.value? {α : Type} : Run α → Option α
  | .done a => some a
  | _ => none

/-- A state of the weighted selection in which the stored `gcd` and `maxWeight` are 100
while both pools have weight 1: the current weight is a multiple of 4 and, once a pass has
started, at least 4. -/
def WeightedRoundRobinLB.Stale (cc : WeightedRoundRobinLB) : Prop :=
  (∃ c0 c1, cc.clients = [c0, c1] ∧ c0.node.Weight = 1 ∧ c1.node.Weight = 1) ∧
  cc.gcd = 100 ∧ cc.maxWeight = 100 ∧ cc.cw % 4 = 0 ∧ cc.cw < 65536 ∧
  (cc.i = -1 ∨ cc.i = 1 ∨ (cc.i = 0 ∧ 4 ≤ cc.cw))

/-- The least-loaded balancer constructed from the static configuration `exConfig`
(ReadTimeout 10 s, so that `Timeout` is 20 s). -/
def exTimedLeastLB : Run LeastLoadedLB := NewLeastLB exConfig {} 0

/-- Pools that answer every operation with status 200 and no error. -/
def exTransport : Transport := fun _ _ => ({ statusCode := 200 }, none)

/-! ## Further concrete objects: health predicates, DNS answers; the matched text of nodeInfoReg -/

/-- A health predicate that calls every response unhealthy. -/
def exAlwaysUnhealthy : Request → Response → error → Bool := fun _ _ _ => false

/-- The request of httplb_test.go. -/
def exRequest : Request := { uri := "http://test/api" }

/-- What the post-processing of one call through a least-loaded balancer leaves on the
LBClient it used (penalty, total), after `hc` has been assigned to the exported field
`HealthCheck` of the balancer. -/
def LeastLoadedLB.countersAfterDo (cc : LeastLoadedLB) (hc : httplb.HealthCheck)
    (net : Transport)
    (req : Request) : Option (Nat × Nat) :=
  (LeastLoadedLB.Do { cc with HealthCheck := hc } net req).map
    (fun r => (r.after.penalty, r.after.total))

/-- A DNS configuration of type SRV without fallback nodes. -/
def exSrvConfig : Config :=
  { Typ := TypeDNS, Opts := exOpts, LBStrategy := LBWeightedRoundRobin
    DNS := some { Domain := "flash-mock-http.service.consul", Typ := DNSTypeSRV,
                  DNSServer := "127.0.0.1:53", dnsType := dnsTypeSRV,
                  dnsServerIP := "127.0.0.1", dnsServerPort := "53", Port := 80,
                  ResolvFile := "/etc/resolv.conf" } }

/-- An SRV answer whose first record has weight 0 and whose second has weight 5. -/
def exSrvZeroFirst : WatchInput :=
  { dns := [some { Rcode := RcodeSuccess
                   Answer := [DnsRR.SRV "flash-mock-http.service.consul." "a.node." 7780 0,
                              DnsRR.SRV "flash-mock-http.service.consul." "b.node." 7780 5]
                   Extra := [DnsRR.A "a.node." "10.0.0.1", DnsRR.A "b.node." "10.0.0.2"] }] }

/-- A DNS configuration whose record type is neither A nor SRV, with endpoint A as
fallback. -/
def exCnameConfig : Config :=
  { Typ := TypeDNS, Opts := exOpts, NodeList := [exNodeA], LBStrategy := LBRoundRobin
    DNS := some { Domain := "flash-mock-http.service.consul", Typ := "CNAME",
                  DNSServer := "127.0.0.1:53" } }

/-- The config `exCnameConfig` as Validate leaves it. -/
def exCnameValidated : Config :=
  { exCnameConfig with
    DNS := some { Domain := "flash-mock-http.service.consul", Typ := "CNAME",
                  DNSServer := "127.0.0.1:53", dnsType := dnsTypeA,
                  dnsServerIP := "127.0.0.1", dnsServerPort := "53", Port := 80,
                  ResolvFile := "/etc/resolv.conf" } }

/-- An answer to an A query that starts with a CNAME record. -/
def exCnameAnswer : DnsMsg :=
  { Rcode := RcodeSuccess
    Answer := [DnsRR.other "www.example.com.", DnsRR.A "host.example.com." "10.0.0.1"] }

/-- The text matched by the third alternative
`[\t ]+weight[\t ]*=[\t ]*(\d+)` of nodeInfoReg at the text after the port, empty when the
empty alternative is taken. -/
def matchWeight.text (rest : List Char) : List Char :=
  if rest.takeWhile isBlank = [] then []
  else
    let r1 := rest.dropWhile isBlank
    if "weight".toList.isPrefixOf r1 then
      match (r1.drop 6).dropWhile isBlank with
      | '=' :: r2 =>
        if (r2.dropWhile isBlank).takeWhile Char.isDigit = [] then []
        else
          rest.takeWhile isBlank ++ "weight".toList ++ (r1.drop 6).takeWhile isBlank
            ++ '=' :: (r2.takeWhile isBlank ++ (r2.dropWhile isBlank).takeWhile Char.isDigit)
      | _ => []
    else []

/-- Submatch 0 of the match of nodeInfoReg: the whole matched text `IP[:PORT][ weight=N]`,
`none` when the text does not match. -/
def nodeInfoReg.whole (info : String) : Option String :=
  let cs := info.toList
  let ip := cs.takeWhile isDigitOrDot
  if ip = [] then none
  else
    let (port, rest) := matchPort (cs.dropWhile isDigitOrDot)
    some (String.mk (ip ++ (if port = [] then [] else ':' :: port) ++ matchWeight.text rest))

/-! ## The stepping algorithm of the specification for weighted round robin

Second definition of the weighted selection, written after the words of the
specification: index `i` initialised to -1, current weight `cw` initialised to 0,
`gcd` the greatest common divisor of all weights, `max_weight` the largest weight, all
over unbounded integers. -/

/-- State `(i, cw)` of the stepping algorithm of the specification. -/
structure SmoothWrr where
  i : Int := -1
  cw : Int := 0
deriving DecidableEq, Repr

/-- The `gcd` of the specification: the greatest common divisor of all weights. -/
def SmoothWrr.gcd (weights : List Nat) : Int := ((weights.foldr Nat.gcd 0 : Nat) : Int)

/-- The `max_weight` of the specification: the largest weight. -/
def SmoothWrr.maxWeight (weights : List Nat) : Int := ((weights.foldr max 0 : Nat) : Int)

/-- One round of `repeat`: `i ← (i + 1) mod N`; at `i == 0`, `cw ← cw − gcd` and, when
`cw ≤ 0`, `cw ← max_weight` with `return nil` at `cw == 0`; then `return cs[i]` when
`weights[i] ≥ cw`. The result is the returned index (`none` for nil) with the state
(`inl`), or the state to go on from (`inr`). -/
def SmoothWrr.step (weights : List Nat) (s : SmoothWrr) :
    Run (Option Nat × SmoothWrr) ⊕ SmoothWrr :=
  if weights.length = 0 then .inl .panic
  else
    let i := (s.i + 1) % (weights.length : Int)
    let cw1 := if i = 0 then s.cw - SmoothWrr.gcd weights else s.cw
    let cw2 := if i = 0 ∧ cw1 ≤ 0 then SmoothWrr.maxWeight weights else cw1
    if i = 0 ∧ cw1 ≤ 0 ∧ cw2 = 0 then .inl (.done (none, { i := i, cw := cw2 }))
    else
      match weights[i.toNat]? with
      | none => .inl .panic
      | some w =>
        if (w : Int) ≥ cw2 then .inl (.done (some i.toNat, { i := i, cw := cw2 }))
        else .inr { i := i, cw := cw2 }

/-- The loop `repeat`, run for at most `fuel` rounds. -/
def SmoothWrr.select (weights : List Nat) : Nat → SmoothWrr → Run (Option Nat × SmoothWrr)
  | 0, _ => .pending
  | fuel + 1, s =>
    match SmoothWrr.step weights s with
    | .inl r => r
    | .inr s1 => SmoothWrr.select weights fuel s1

/-- The indices returned by `n` successive selections, oldest first, and the state after
them. -/
def SmoothWrr.selects (weights : List Nat) (fuel : Nat) :
    Nat → SmoothWrr → Run (List (Option Nat) × SmoothWrr)
  | 0, s => .done ([], s)
  | n + 1, s =>
    (SmoothWrr.select weights fuel s).bind (fun (o, s1) =>
      (SmoothWrr.selects weights fuel n s1).bind (fun (l, s2) => .done (o :: l, s2)))

/-- The pools selected by `t` successive passes at the current weights `m * g`,
`(m - 1) * g`, ..., as indices. -/
def levelPasses (g : Nat) (ws : List Nat) : Nat → Nat → List Nat
  | 0, _ => []
  | t + 1, m => hitsFrom (m * g) ws 0 ++ levelPasses g ws t (m - 1)

/-- The list `l` written `B` times in a row. -/
def repeatList (l : List Nat) : Nat → List Nat
  | 0 => []
  | B + 1 => l ++ repeatList l B

/-- The endpoints a list of selected indices stands for (`none` is the nil result). -/
def WeightedRoundRobinLB.endpoints (cc : WeightedRoundRobinLB) (idxs : List (Option Nat)) :
    List (Option lbClient) :=
  idxs.map (fun o => o.bind (fun j => cc.cs[j]?))

/-- The current weights of the stepping algorithm (`cS`) and of the selection loop (`c`)
that go together at a state whose next index is `k mod N`: the same multiple of `g`
between `g` and `mx`, or, before the first round, 0 and `g`. -/
def SmoothWrr.Rel (g mx k : Nat) (cS : Int) (c : Nat) : Prop :=
  (cS = (c : Int) ∧ g ≤ c ∧ c ≤ mx ∧ g ∣ c) ∨ (cS = 0 ∧ c = g ∧ k = 0)

/-- The config `exTestConfig` as Validate leaves it. -/
def exTestValidated : Config :=
  { exTestConfig with
    NodeList := [{ IP := "127.0.0.1", Port := 7780, Weight := 1000 },
                 { IP := "127.0.0.1", Port := 7781, Weight := 200 },
                 { IP := "127.0.0.1", Port := 7780, Weight := 400 }]
    DNS := some { Domain := "flash-mock-http.service.consul", Typ := DNSTypeSRV, Port := 7780,
                  DNSServer := "127.0.0.1:53", ResolvFile := "/etc/resolv.conf" } }

/-! ## Further concrete objects: a Consul answer with a repeated endpoint -/

/-- A Consul configuration for the weighted strategy, in the form Validate leaves it, whose
fallback list is endpoint A with weight 100 and endpoint B with weight 50. -/
def exConsulPairConfig : Config :=
  { Typ := TypeConsul
    Consul := some { ConsulAgent := "127.0.0.1:8500", ServiceName := "flash-mock-http" }
    Opts := exOpts
    NodeList := [exNodeA, { IP := "10.0.0.2", Port := 80, Weight := 50 }]
    LBStrategy := LBWeightedRoundRobin }

/-- A Consul answer that lists endpoint A twice, with passing weight 100. -/
def exConsulTwiceA : WatchInput :=
  { consul := some ([{ Address := "10.0.0.1", Port := 80, Passing := 100 },
                     { Address := "10.0.0.1", Port := 80, Passing := 100 }], 7) }

/-- The validated DNS configuration `exCnameValidated` (record type `CNAME`, fallback
endpoint A) with the weighted strategy. -/
def exCnameWeighted : Config := { exCnameValidated with LBStrategy := LBWeightedRoundRobin }

/-- The names of the endpoints in a list of Get results (`none` is nil). -/
def lbClient.names (outs : List (Option lbClient)) : List (Option String) :=
  outs.map (Option.map lbClient.Name)

/-! # Theorems -/

/-! ## Reconciler -/

theorem Node.String_afterString (i : Node) : i.afterString.String = i.String := by
  by_cases h : i.name = ""
  · simp only [Node.afterString, h, if_true, Node.String]
    split <;> rfl
  · simp [Node.afterString, h]

theorem NewHostClient_Name (n : Node) (opts : Opts) (h : Nat) :
    (NewHostClient n opts h).1.Name = n.String := rfl

theorem NewHostClient_ptr (n : Node) (opts : Opts) (h : Nat) :
    (NewHostClient n opts h).1.ptr = h := rfl

theorem NewHostClient_heap (n : Node) (opts : Opts) (h : Nat) :
    (NewHostClient n opts h).2 = h + 1 := rfl

/-- The index of old pools by name, as an association list. -/
theorem index_foldl (old : List Client) (acc : GoMap Client) :
    old.foldl (fun m c => m.set c.Name c) acc
      = (old.map (fun c => (c.Name, c))).reverse ++ acc := by
  induction old generalizing acc with
  | nil => simp
  | cons c rest ih =>
    simp only [List.foldl_cons, List.map_cons, List.reverse_cons, List.append_assoc]
    rw [ih]
    simp [GoMap.set]

theorem nameSet_foldl (old : List Client) (acc : GoMap Bool) :
    old.foldl (fun m c => m.set c.Name true) acc
      = (old.map (fun c => (c.Name, true))).reverse ++ acc := by
  induction old generalizing acc with
  | nil => simp
  | cons c rest ih =>
    simp only [List.foldl_cons, List.map_cons, List.reverse_cons, List.append_assoc]
    rw [ih]
    simp [GoMap.set]

theorem lookup_map_some (l : List Client) (k : String) (c : Client)
    (h : List.lookup k (l.map (fun c => (c.Name, c))) = some c) : c ∈ l ∧ c.Name = k := by
  induction l with
  | nil => simp at h
  | cons a rest ih =>
    simp only [List.map, List.lookup] at h
    by_cases hk : k = a.Name
    · simp [hk] at h
      subst h
      exact ⟨by simp, hk.symm⟩
    · have : (k == a.Name) = false := by simpa using hk
      simp [this] at h
      have := ih h
      exact ⟨List.mem_cons_of_mem _ this.1, this.2⟩

theorem lookup_map_none (l : List Client) (k : String)
    (h : List.lookup k (l.map (fun c => (c.Name, c))) = none) : ∀ o ∈ l, o.Name ≠ k := by
  induction l with
  | nil => simp
  | cons a rest ih =>
    rw [List.map_cons, List.lookup_cons] at h
    by_cases hk : k = a.Name
    · simp [hk] at h
    · have hb : (k == a.Name) = false := by simpa using hk
      rw [hb] at h
      intro o ho
      rcases List.mem_cons.mp ho with rfl | ho
      · exact fun e => hk e.symm
      · exact ih h o ho

/-- A hit in the index of old pools is a pool of the old list with the key as its name. -/
theorem index_get_some (old : List Client) (k : String) (c : Client)
    (h : GoMap.get (old.foldl (fun m c => m.set c.Name c) []) k = some c) :
    c ∈ old ∧ c.Name = k := by
  rw [index_foldl, List.append_nil, ← List.map_reverse] at h
  have := lookup_map_some old.reverse k c h
  exact ⟨List.mem_reverse.mp this.1, this.2⟩

/-- A miss in the index of old pools: no old pool has the key as its name. -/
theorem index_get_none (old : List Client) (k : String)
    (h : GoMap.get (old.foldl (fun m c => m.set c.Name c) []) k = none) :
    ∀ o ∈ old, o.Name ≠ k := by
  rw [index_foldl, List.append_nil, ← List.map_reverse] at h
  intro o ho
  exact lookup_map_none old.reverse k h o (List.mem_reverse.mpr ho)

theorem createClients_loop_spec (nodes : List Node) (opts : Opts) (heap : Nat) :
    (createClients.loop nodes opts heap).1.length = nodes.length ∧
    (createClients.loop nodes opts heap).2 = heap + nodes.length ∧
    ∀ i (hi : i < nodes.length),
      (createClients.loop nodes opts heap).1[i]? = some (NewHostClient nodes[i] opts (heap + i)).1 := by
  induction nodes generalizing heap with
  | nil => simp [createClients.loop]
  | cons n rest ih =>
    obtain ⟨h1, h2, h3⟩ := ih (heap + 1)
    simp only [createClients.loop, NewHostClient_heap]
    refine ⟨by simp [h1], by simp [h2]; omega, ?_⟩
    intro i hi
    cases i with
    | zero => simp
    | succ j =>
      have hj : j < rest.length := by simpa using hi
      have := h3 j hj
      simp only [List.getElem?_cons_succ, List.getElem_cons_succ]
      rw [this]
      congr 3
      omega

theorem updateClients_loop_spec (m : GoMap Client) (nodes : List Node) (opts : Opts) (heap : Nat) :
    (updateClients.loop m nodes opts heap).1.length = nodes.length ∧
    heap ≤ (updateClients.loop m nodes opts heap).2 ∧
    ∀ i (hi : i < nodes.length), ∃ c,
      (updateClients.loop m nodes opts heap).1[i]? = some c ∧
      (m.get nodes[i].String = some c ∨
        (m.get nodes[i].String = none ∧ ∃ h, heap ≤ h ∧ c = (NewHostClient nodes[i] opts h).1)) := by
  induction nodes generalizing heap with
  | nil => simp [updateClients.loop]
  | cons n rest ih =>
    unfold updateClients.loop
    cases hget : m.get n.String with
    | some oc =>
      obtain ⟨h1, h2, h3⟩ := ih heap
      refine ⟨by simp [h1], by simpa using h2, ?_⟩
      intro i hi
      cases i with
      | zero => exact ⟨oc, by simp, Or.inl (by simpa using hget)⟩
      | succ j =>
        have hj : j < rest.length := by simpa using hi
        obtain ⟨c, hc1, hc2⟩ := h3 j hj
        exact ⟨c, by simpa using hc1, by simpa using hc2⟩
    | none =>
      obtain ⟨h1, h2, h3⟩ := ih (heap + 1)
      simp only [NewHostClient_heap]
      refine ⟨by simp [h1], by omega, ?_⟩
      intro i hi
      cases i with
      | zero => exact ⟨(NewHostClient n opts heap).1, by simp, Or.inr ⟨by simpa using hget, heap, le_refl _, rfl⟩⟩
      | succ j =>
        have hj : j < rest.length := by simpa using hi
        obtain ⟨c, hc1, hc2⟩ := h3 j hj
        refine ⟨c, by simpa using hc1, ?_⟩
        rcases hc2 with hc2 | ⟨hc2, h, hh, hc⟩
        · exact Or.inl (by simpa using hc2)
        · exact Or.inr ⟨by simpa using hc2, h, by omega, by simpa using hc⟩

/-- What updateClients returns when it reports a change for a non-empty node list. -/
theorem updateClients_spec_of_changed (old : List Client) (nodes : List Node) (opts : Opts)
    (heap : Nat) (hne : nodes ≠ [])
    (hch : (updateClients old nodes opts heap).changed = true) :
    (updateClients old nodes opts heap).clients.length = nodes.length ∧
    ∀ i (hi : i < nodes.length), ∃ c,
      (updateClients old nodes opts heap).clients[i]? = some c ∧
      c.Name = nodes[i].String ∧
      ((∃ o ∈ old, o.Name = nodes[i].String) → c ∈ old) ∧
      ((¬ ∃ o ∈ old, o.Name = nodes[i].String) →
        ∃ h, heap ≤ h ∧ c = (NewHostClient nodes[i] opts h).1) := by
  have hlen : nodes.length ≠ 0 := by
    intro h; exact hne (List.length_eq_zero.mp h)
  unfold updateClients at hch ⊢
  simp only [hlen, if_false] at hch ⊢
  by_cases hold : old.length = 0
  · have hnil : old = [] := List.length_eq_zero.mp hold
    simp only [hold, if_true, createClients, hlen, if_false]
    obtain ⟨h1, _, h3⟩ := createClients_loop_spec nodes opts heap
    refine ⟨h1, ?_⟩
    intro i hi
    refine ⟨_, h3 i hi, rfl, ?_, ?_⟩
    · rintro ⟨o, ho, _⟩
      simp [hnil] at ho
    · intro _
      exact ⟨heap + i, by omega, rfl⟩
  · simp only [hold, if_false] at hch ⊢
    by_cases heq : equals old nodes = true
    · simp [heq] at hch
    · simp only [heq, if_false]
      obtain ⟨h1, _, h3⟩ :=
        updateClients_loop_spec (old.foldl (fun m c => m.set c.Name c) []) nodes opts heap
      refine ⟨h1, ?_⟩
      intro i hi
      obtain ⟨c, hc1, hc2⟩ := h3 i hi
      refine ⟨c, hc1, ?_⟩
      rcases hc2 with hc2 | ⟨hc2, h, hh, hc⟩
      · have := index_get_some old _ c hc2
        exact ⟨this.2, fun _ => this.1, fun hno => absurd ⟨c, this.1, this.2⟩ hno⟩
      · have := index_get_none old _ hc2
        refine ⟨by rw [hc]; rfl, ?_, fun _ => ⟨h, hh, hc⟩⟩
        rintro ⟨o, ho, hname⟩
        exact absurd hname (this o ho)

/-- C1: when updateClients reports a change for a non-empty node list, the returned list
has one entry per node, in node order; entry `i` carries the canonical name of node `i`;
it is a pool of the old list whenever some old pool has that name, and otherwise a pool
newly created for node `i` (at an address not below the heap pointer of the call). -/
theorem updateClients_changed_entries (old : List Client) (nodes : List Node) (opts : Opts)
    (heap : Nat) (hne : nodes ≠ [])
    (hch : (updateClients old nodes opts heap).changed = true) :
    (updateClients old nodes opts heap).clients.length = nodes.length ∧
    ∀ i (hi : i < nodes.length), ∃ c,
      (updateClients old nodes opts heap).clients[i]? = some c ∧
      c.Name = nodes[i].String ∧
      ((∃ o ∈ old, o.Name = nodes[i].String) → c ∈ old) ∧
      ((¬ ∃ o ∈ old, o.Name = nodes[i].String) →
        ∃ h, heap ≤ h ∧ c = (NewHostClient nodes[i] opts h).1) :=
  updateClients_spec_of_changed old nodes opts heap hne hch

/-- Witness of C1: old pool list `[A]`, nodes `[A, B]`. -/
theorem updateClients_changed_entries_witness :
    (updateClients [exPoolA] [exNodeA, exNodeB] exOpts 1).clients.length = 2 ∧
    ∀ i (hi : i < [exNodeA, exNodeB].length), ∃ c,
      (updateClients [exPoolA] [exNodeA, exNodeB] exOpts 1).clients[i]? = some c ∧
      c.Name = [exNodeA, exNodeB][i].String ∧
      ((∃ o ∈ [exPoolA], o.Name = [exNodeA, exNodeB][i].String) → c ∈ [exPoolA]) ∧
      ((¬ ∃ o ∈ [exPoolA], o.Name = [exNodeA, exNodeB][i].String) →
        ∃ h, 1 ≤ h ∧ c = (NewHostClient [exNodeA, exNodeB][i] exOpts h).1) :=
  updateClients_changed_entries [exPoolA] [exNodeA, exNodeB] exOpts 1 (by decide) (by decide)

/-- What `equals` computes: equal lengths, and every node name is the name of some old
pool. -/
theorem equals_iff (old : List Client) (nodes : List Node) :
    equals old nodes = true ↔
      old.length = nodes.length ∧ ∀ n ∈ nodes, ∃ o ∈ old, o.Name = n.String := by
  unfold equals
  by_cases hlen : old.length = nodes.length
  · simp only [hlen, ne_eq, not_true_eq_false, if_false, true_and, List.all_eq_true]
    rw [nameSet_foldl, List.append_nil, ← List.map_reverse]
    have key : ∀ (l : List Client) (k : String),
        ((GoMap.get (l.map (fun c => (c.Name, true))) k).getD false = true) ↔
          ∃ o ∈ l, o.Name = k := by
      intro l k
      induction l with
      | nil => simp [GoMap.get]
      | cons a rest ih =>
        simp only [GoMap.get] at ih ⊢
        rw [List.map_cons, List.lookup_cons]
        by_cases hk : k = a.Name
        · simp [hk]
        · have hb : (k == a.Name) = false := by simpa using hk
          rw [hb]
          simp only [ih, List.mem_cons, exists_eq_or_imp]
          constructor
          · intro h; exact Or.inr h
          · rintro (h | h)
            · exact absurd h.symm hk
            · exact h
    constructor
    · intro h n hn
      obtain ⟨o, ho, hname⟩ := (key old.reverse n.String).mp (h n hn)
      exact ⟨o, List.mem_reverse.mp ho, hname⟩
    · intro h n hn
      obtain ⟨o, ho, hname⟩ := h n hn
      exact (key old.reverse n.String).mpr ⟨o, List.mem_reverse.mpr ho, hname⟩
  · simp [hlen]

/-- When the names of the old pools and the canonical names of the nodes are the same
multiset, updateClients returns the old list unchanged (at the same heap). -/
theorem updateClients_same_multiset (old : List Client) (nodes : List Node) (opts : Opts)
    (heap : Nat)
    (hperm : (old.map HostClient.Name).Perm (nodes.map Node.String)) :
    updateClients old nodes opts heap = ⟨old, false, heap⟩ := by
  have hlen : old.length = nodes.length := by simpa using hperm.length_eq
  unfold updateClients
  by_cases hn : nodes.length = 0
  · simp [hn]
  · have ho : old.length ≠ 0 := by omega
    have heq : equals old nodes = true := by
      rw [equals_iff]
      refine ⟨hlen, ?_⟩
      intro n hn
      have : n.String ∈ old.map HostClient.Name :=
        hperm.symm.subset (List.mem_map_of_mem _ hn)
      obtain ⟨o, ho1, ho2⟩ := List.mem_map.mp this
      exact ⟨o, ho1, ho2⟩
    simp [hn, ho, heq]

/-- C2, the code at a node list with a repeated name: old pools named `A`, `B` and nodes
`A`, `A` have different name multisets, yet updateClients reports no change and keeps
the pool of `B`. -/
theorem updateClients_repeated_name_unchanged :
    ¬ ([exPoolA, exPoolB].map HostClient.Name).Perm ([exNodeA, exNodeA].map Node.String) ∧
    updateClients [exPoolA, exPoolB] [exNodeA, exNodeA] exOpts 2
      = ⟨[exPoolA, exPoolB], false, 2⟩ := by
  refine ⟨?_, by decide⟩
  intro h
  have hb : exPoolB.Name ∈ [exNodeA, exNodeA].map Node.String :=
    h.subset (by simp)
  revert hb
  decide

/-! ## Least-loaded selection -/

theorem lbClient.beats_iff (c minC : lbClient) :
    (c.PendingRequests < minC.PendingRequests ∨
      (c.PendingRequests = minC.PendingRequests ∧ c.total < minC.total)) ↔ c.load < minC.load := by
  unfold lbClient.load
  rw [Prod.Lex.lt_iff]

/-- Invariant of the scan: `minC` is the first minimal client of the scanned part `pre`;
the result is the first minimal client of the whole list. -/
theorem LeastLoadedLB.get_loop_spec (rest : List lbClient) :
    ∀ (pre : List lbClient) (minC : lbClient) (j : Nat),
      pre[j]? = some minC →
      (∀ (k : Nat) (c : lbClient), pre[k]? = some c → minC.load ≤ c.load) →
      (∀ (k : Nat) (c : lbClient), k < j → pre[k]? = some c → minC.load < c.load) →
      ∃ j2, (pre ++ rest)[j2]?
          = some (LeastLoadedLB.get.loop minC minC.PendingRequests minC.total rest) ∧
        (∀ (k : Nat) (c : lbClient), (pre ++ rest)[k]? = some c →
          (LeastLoadedLB.get.loop minC minC.PendingRequests minC.total rest).load ≤ c.load) ∧
        (∀ (k : Nat) (c : lbClient), k < j2 → (pre ++ rest)[k]? = some c →
          (LeastLoadedLB.get.loop minC minC.PendingRequests minC.total rest).load < c.load) := by
  induction rest with
  | nil =>
    intro pre minC j hj hmin hfirst
    exact ⟨j, by simpa [LeastLoadedLB.get.loop] using hj,
      by simpa [LeastLoadedLB.get.loop] using hmin,
      by simpa [LeastLoadedLB.get.loop] using hfirst⟩
  | cons c rest ih =>
    intro pre minC j hj hmin hfirst
    have hjlt : j < pre.length := by
      by_contra hcon
      rw [List.getElem?_eq_none (by omega)] at hj
      exact Option.noConfusion hj
    have happ : pre ++ c :: rest = (pre ++ [c]) ++ rest := by simp
    have hsplit : ∀ k x, (pre ++ [c])[k]? = some x → (k < pre.length ∧ pre[k]? = some x) ∨
        (k = pre.length ∧ x = c) := by
      intro k x hx
      by_cases hk : k < pre.length
      · left
        rw [List.getElem?_append_left hk] at hx
        exact ⟨hk, hx⟩
      · right
        have hk2 : pre.length ≤ k := by omega
        rw [List.getElem?_append_right hk2] at hx
        have hk3 : k - pre.length = 0 := by
          by_contra h0
          rw [List.getElem?_eq_none (by simp; omega)] at hx
          exact Option.noConfusion hx
        rw [hk3] at hx
        simp at hx
        exact ⟨by omega, hx.symm⟩
    unfold LeastLoadedLB.get.loop
    rw [happ]
    by_cases hb : c.load < minC.load
    · rw [if_pos ((lbClient.beats_iff c minC).mpr hb)]
      apply ih (pre ++ [c]) c pre.length
      · simp
      · intro k x hx
        rcases hsplit k x hx with ⟨_, h⟩ | ⟨_, h⟩
        · exact le_of_lt (lt_of_lt_of_le hb (hmin k x h))
        · rw [h]
      · intro k x hk hx
        rcases hsplit k x hx with ⟨_, h⟩ | ⟨h, _⟩
        · exact lt_of_lt_of_le hb (hmin k x h)
        · omega
    · rw [if_neg (fun h => hb ((lbClient.beats_iff c minC).mp h))]
      apply ih (pre ++ [c]) minC j
      · rw [List.getElem?_append_left hjlt]
        exact hj
      · intro k x hx
        rcases hsplit k x hx with ⟨_, h⟩ | ⟨_, h⟩
        · exact hmin k x h
        · rw [h]
          exact not_lt.mp hb
      · intro k x hk hx
        rcases hsplit k x hx with ⟨_, h⟩ | ⟨h, _⟩
        · exact hfirst k x hk h
        · omega

/-- C3: on a non-empty LBClient list LeastLoadedLB.get returns `cs[j]` for the smallest index
`j` whose pair (pool pending + penalty, total) is minimal in the lexicographic order:
no client has a smaller pair, and every client before `j` has a strictly larger one.
Scenarios: A with 5 pending against B with pool pending 3 and penalty 3 (after three
unhealthy calls) selects A; A with 5 pending against B with 3 pending selects B. -/
theorem LeastLoadedLB_get_lexmin :
    (∀ cc : LeastLoadedLB, cc.cs ≠ [] →
      ∃ j, ∃ hj : j < cc.cs.length,
        cc.get = some cc.cs[j] ∧
        (∀ k (hk : k < cc.cs.length), cc.cs[j].load ≤ cc.cs[k].load) ∧
        (∀ k (hk : k < j), cc.cs[j].load < cc.cs[k].load)) ∧
    ((unhealthyCall (unhealthyCall (unhealthyCall exLbB))).penalty = 3 ∧
      (exLeastLB [exLbA, unhealthyCall (unhealthyCall (unhealthyCall exLbB))]).get = some exLbA) ∧
    (exLeastLB [exLbA, exLbB]).get = some exLbB := by
  refine ⟨?_, ⟨by decide, rfl⟩, rfl⟩
  intro cc hne
  cases hcs : cc.cs with
  | nil => exact absurd hcs hne
  | cons minC rest =>
    obtain ⟨j, h1, h2, h3⟩ := LeastLoadedLB.get_loop_spec rest [minC] minC 0 (by simp)
      (by
        intro k c hk
        cases k with
        | zero => simp at hk; rw [hk]
        | succ n => simp at hk)
      (by intro k c hk; omega)
    have hjlt : j < (minC :: rest).length := by
      by_contra hcon
      rw [List.getElem?_eq_none (by simpa using hcon)] at h1
      exact Option.noConfusion h1
    have hget : (minC :: rest)[j] = LeastLoadedLB.get.loop minC minC.PendingRequests minC.total rest := by
      have := List.getElem?_eq_getElem hjlt
      rw [List.singleton_append] at h1
      rw [this] at h1
      exact Option.some.inj h1
    refine ⟨j, hjlt, ?_, ?_, ?_⟩
    · simp only [LeastLoadedLB.get, hcs]
      rw [hget]
    · intro k hk
      rw [hget]
      exact h2 k _ (by rw [List.singleton_append]; exact List.getElem?_eq_getElem hk)
    · intro k hk
      rw [hget]
      exact h3 k _ hk (by rw [List.singleton_append]; exact List.getElem?_eq_getElem (by omega))

/-- Witness of C3: the scenario list `[A, B]`. -/
theorem LeastLoadedLB_get_lexmin_witness :
    ∃ j, ∃ hj : j < (exLeastLB [exLbA, exLbB]).cs.length,
      (exLeastLB [exLbA, exLbB]).get = some (exLeastLB [exLbA, exLbB]).cs[j] ∧
      (∀ k (hk : k < (exLeastLB [exLbA, exLbB]).cs.length),
        (exLeastLB [exLbA, exLbB]).cs[j].load ≤ (exLeastLB [exLbA, exLbB]).cs[k].load) ∧
      (∀ k (hk : k < j),
        (exLeastLB [exLbA, exLbB]).cs[j].load < (exLeastLB [exLbA, exLbB]).cs[k].load) :=
  LeastLoadedLB_get_lexmin.1 (exLeastLB [exLbA, exLbB]) (by simp [exLeastLB])

/-! ## Penalty -/

theorem lbClient.decPenalty_penalty (c : lbClient) (h : 0 < c.penalty) (hb : c.penalty < 2 ^ 32) :
    c.decPenalty.penalty = c.penalty - 1 := by
  simp only [lbClient.decPenalty]
  omega

/-- The post-processing of one call, case by case (for a penalty within its bound). -/
theorem lbClient.panalty_cases (c : lbClient) (req : Request) (resp : Response) (err : error)
    (hp : c.penalty ≤ maxPenalty) :
    (c.isHealthy req resp err = true →
      c.panalty req resp err = ({ c with total := (c.total + 1) % 2 ^ 64 }, false)) ∧
    (c.isHealthy req resp err = false → c.penalty < maxPenalty →
      c.panalty req resp err = ({ c with penalty := c.penalty + 1 }, true)) ∧
    (c.isHealthy req resp err = false → c.penalty = maxPenalty →
      c.panalty req resp err = ({ c with total := (c.total + 1) % 2 ^ 64 }, false)) := by
  unfold maxPenalty at hp
  refine ⟨?_, ?_, ?_⟩
  · intro h
    simp [lbClient.panalty, h]
  · intro h hlt
    unfold maxPenalty at hlt
    have h1 : (c.penalty + 1) % 4294967296 = c.penalty + 1 := by omega
    have h2 : ¬ (maxPenalty < c.penalty + 1) := by unfold maxPenalty; omega
    simp [lbClient.panalty, h, lbClient.incPenalty, h1, h2]
  · intro h heq
    unfold maxPenalty at heq
    have h1 : (c.penalty + 1) % 4294967296 = c.penalty + 1 := by omega
    have h2 : maxPenalty < c.penalty + 1 := by unfold maxPenalty; omega
    have h3 : (c.penalty + 1 + 4294967295) % 4294967296 = c.penalty := by omega
    simp [lbClient.panalty, h, lbClient.incPenalty, h1, h2, lbClient.decPenalty, h3]

/-- The invariant of one LBClient and its timers. -/
theorem PenaltySys.step_inv (s s2 : PenaltySys) (e : PenaltyEvent)
    (hinv : s.c.penalty = s.timers ∧ s.c.penalty ≤ maxPenalty) (hstep : s.step e = some s2) :
    s2.c.penalty = s2.timers ∧ s2.c.penalty ≤ maxPenalty := by
  obtain ⟨heq, hle⟩ := hinv
  cases e with
  | call req resp err =>
    obtain ⟨hA, hB, hC⟩ := lbClient.panalty_cases s.c req resp err hle
    simp only [PenaltySys.step] at hstep
    cases hh : s.c.isHealthy req resp err with
    | true =>
      rw [hA hh] at hstep
      simp at hstep
      subst hstep
      exact ⟨heq, hle⟩
    | false =>
      rcases Nat.lt_or_ge s.c.penalty maxPenalty with hlt | hge
      · rw [hB hh hlt] at hstep
        simp at hstep
        subst hstep
        simp only
        exact ⟨by omega, hlt⟩
      · rw [hC hh (le_antisymm hle hge)] at hstep
        simp at hstep
        subst hstep
        exact ⟨heq, hle⟩
  | fire =>
    simp only [PenaltySys.step] at hstep
    by_cases ht : s.timers = 0
    · simp [ht] at hstep
    · simp only [ht, if_false, Option.some.injEq] at hstep
      subst hstep
      unfold maxPenalty at hle ⊢
      have := lbClient.decPenalty_penalty s.c (by omega) (by omega)
      simp only
      omega

theorem PenaltySys.run_inv (evs : List PenaltyEvent) :
    ∀ (s s2 : PenaltySys), (s.c.penalty = s.timers ∧ s.c.penalty ≤ maxPenalty) →
      s.run evs = some s2 → s2.c.penalty = s2.timers ∧ s2.c.penalty ≤ maxPenalty := by
  induction evs with
  | nil =>
    intro s s2 hinv hrun
    simp only [PenaltySys.run, Option.some.injEq] at hrun
    subst hrun
    exact hinv
  | cons e rest ih =>
    intro s s2 hinv hrun
    simp only [PenaltySys.run] at hrun
    cases hs : s.step e with
    | none => simp [hs] at hrun
    | some s1 =>
      rw [hs] at hrun
      exact ih s1 s2 (PenaltySys.step_inv s s1 e hinv hs) hrun

/-- C4: from a fresh LBClient (penalty 0, no timer), after any sequence of call
post-processings and timer firings in which a timer fires only when one is scheduled and
not yet fired, the penalty lies in `[0, 300]` and equals the number of scheduled timers
that have not fired; a timer firing in such a state lowers the 32-bit counter by exactly
one, so the counter never wraps below zero. -/
theorem penalty_bounded (c0 : lbClient) (h0 : c0.penalty = 0) (evs : List PenaltyEvent)
    (s : PenaltySys) (hrun : PenaltySys.run { c := c0, timers := 0 } evs = some s) :
    0 ≤ s.c.penalty ∧ s.c.penalty ≤ 300 ∧ s.c.penalty = s.timers ∧
    (∀ s2, s.step PenaltyEvent.fire = some s2 → s2.c.penalty + 1 = s.c.penalty) := by
  have hinv := PenaltySys.run_inv evs { c := c0, timers := 0 } s
    (by simp [h0]) hrun
  refine ⟨Nat.zero_le _, hinv.2, hinv.1, ?_⟩
  intro s2 hstep
  simp only [PenaltySys.step] at hstep
  by_cases ht : s.timers = 0
  · simp [ht] at hstep
  · simp only [ht, if_false, Option.some.injEq] at hstep
    subst hstep
    have hle := hinv.2
    unfold maxPenalty at hle
    have := lbClient.decPenalty_penalty s.c (by omega) (by omega)
    simp only
    omega

/-- Witness of C4: two unhealthy calls, one timer firing, one healthy call. -/
theorem penalty_bounded_witness :
    0 ≤ (1 : Nat) ∧ (1 : Nat) ≤ 300 ∧
    (PenaltySys.run { c := exLbA, timers := 0 }
      [PenaltyEvent.call {} {} (some "timeout"), PenaltyEvent.call {} {} (some "timeout"),
       PenaltyEvent.fire, PenaltyEvent.call {} {} none]).map (fun s => (s.c.penalty, s.timers, s.c.total))
      = some (1, 1, 1) := by
  have h := penalty_bounded exLbA rfl
    [PenaltyEvent.call {} {} (some "timeout"), PenaltyEvent.call {} {} (some "timeout"),
     PenaltyEvent.fire, PenaltyEvent.call {} {} none]
    { c := { exLbA with penalty := 1, total := 1 }, timers := 1 } rfl
  exact ⟨h.1, h.2.1, rfl⟩

/-- C5: one call's post-processing on an LBClient with penalty `p ≤ 300` and total `t`.
A healthy call gives `(p, t+1)` and no timer; an unhealthy call with `p < 300` gives
`(p+1, t)` and one timer; an unhealthy call with `p = 300` gives `(300, t+1)` and no timer.
Healthy is the client's predicate when set, `err == nil` otherwise. The total is a 64-bit
counter: `t+1` is taken modulo `2^64`, which is `t+1` itself below the last value. -/
theorem panalty_post (c : lbClient) (req : Request) (resp : Response) (err : error)
    (hp : c.penalty ≤ 300) :
    (c.isHealthy req resp err = true →
      c.panalty req resp err = ({ c with total := (c.total + 1) % 2 ^ 64 }, false)) ∧
    (c.isHealthy req resp err = false → c.penalty < 300 →
      c.panalty req resp err = ({ c with penalty := c.penalty + 1 }, true)) ∧
    (c.isHealthy req resp err = false → c.penalty = 300 →
      c.panalty req resp err = ({ c with total := (c.total + 1) % 2 ^ 64 }, false)) ∧
    (c.total + 1 < 2 ^ 64 → (c.total + 1) % 2 ^ 64 = c.total + 1) ∧
    (c.isHealthy req resp err =
      match c.healthCheck with
      | some f => f req resp err
      | none => decide (err = none)) := by
  obtain ⟨hA, hB, hC⟩ := lbClient.panalty_cases c req resp err hp
  refine ⟨hA, hB, hC, fun h => Nat.mod_eq_of_lt h, ?_⟩
  unfold lbClient.isHealthy
  cases c.healthCheck with
  | none => cases err <;> rfl
  | some f => rfl

/-- Witness of C5: an unhealthy call on endpoint A. -/
theorem panalty_post_witness :
    (exLbA.panalty {} {} (some "timeout")).1.penalty = 1 ∧
    (exLbA.panalty {} {} (some "timeout")).1.total = 0 ∧
    (exLbA.panalty {} {} (some "timeout")).2 = true := by
  have h := (panalty_post exLbA {} {} (some "timeout") (by decide)).2.1 rfl (by decide)
  rw [h]
  exact ⟨rfl, rfl, rfl⟩

/-! ## Round robin -/

theorem window_residue (N s j : Nat) (hN : 1 ≤ N) (hj : j < N) :
    ∃! m, s ≤ m ∧ m < s + N ∧ m % N = j := by
  have hr : s % N < N := Nat.mod_lt _ (by omega)
  have hs : N * (s / N) + s % N = s := Nat.div_add_mod s N
  have hex : ∃ m, s ≤ m ∧ m < s + N ∧ m % N = j := by
    by_cases hle : s % N ≤ j
    · refine ⟨N * (s / N) + j, by omega, by omega, ?_⟩
      rw [Nat.mul_add_mod, Nat.mod_eq_of_lt hj]
    · refine ⟨N * (s / N + 1) + j, ?_, ?_, ?_⟩
      · rw [Nat.mul_add, Nat.mul_one]; omega
      · rw [Nat.mul_add, Nat.mul_one]; omega
      · rw [Nat.mul_add_mod, Nat.mod_eq_of_lt hj]
  obtain ⟨m, hm1, hm2, hm3⟩ := hex
  refine ⟨m, ⟨hm1, hm2, hm3⟩, ?_⟩
  rintro m2 ⟨h1, h2, h3⟩
  have e1 : N * (m / N) + m % N = m := Nat.div_add_mod m N
  have e2 : N * (m2 / N) + m2 % N = m2 := Nat.div_add_mod m2 N
  rw [hm3] at e1
  rw [h3] at e2
  have : m / N = m2 / N := by
    rcases Nat.lt_trichotomy (m / N) (m2 / N) with h | h | h
    · exfalso
      have : N * (m / N + 1) ≤ N * (m2 / N) := Nat.mul_le_mul_left _ h
      rw [Nat.mul_add, Nat.mul_one] at this
      omega
    · exact h
    · exfalso
      have : N * (m2 / N + 1) ≤ N * (m / N) := Nat.mul_le_mul_left _ h
      rw [Nat.mul_add, Nat.mul_one] at this
      omega
  rw [← e1, ← e2, this]

theorem wrapInt32_small (a : Nat) (ha : a < 2 ^ 31) : wrapInt32 (a : Int) = (a : Int) := by
  unfold wrapInt32
  omega

theorem RoundRobinLB.get_once (lb : RoundRobinLB) (a N : Nat) (honce : lb.once = true)
    (hidx : lb.index = (a : Int)) (ha : a + 1 < 2 ^ 31) (hN : lb.cs.length = N) (hpos : 0 < N) :
    ∃ c, lb.cs[(a + 1) % N]? = some c ∧
      lb.get = some (c, { lb with index := ((a + 1 : Nat) : Int) }) := by
  have hlt : (a + 1) % N < lb.cs.length := by rw [hN]; exact Nat.mod_lt _ hpos
  refine ⟨lb.cs[(a + 1) % N], List.getElem?_eq_getElem hlt, ?_⟩
  have hw : wrapInt32 (lb.index + 1) = ((a + 1 : Nat) : Int) := by
    rw [hidx]
    have := wrapInt32_small (a + 1) ha
    simpa using this
  have ht : Int.tmod ((a + 1 : Nat) : Int) (lb.cs.length : Int) = (((a + 1) % N : Nat) : Int) := by
    rw [hN]
    exact (Int.ofNat_tmod _ _).symm
  have hne : lb.cs.length ≠ 0 := by omega
  simp only [RoundRobinLB.get, honce, if_true, Option.some_bind, hw, hne, if_false, ht]
  have hnn : ¬ ((((a + 1) % N : Nat) : Int) < 0) := by omega
  simp only [hnn, if_false, Int.toNat_ofNat, List.getElem?_eq_getElem hlt, Option.map_some']

theorem RoundRobinLB.gets_once (n : Nat) :
    ∀ (lb : RoundRobinLB) (a N : Nat), lb.once = true → lb.index = (a : Int) →
      a + n < 2 ^ 31 → lb.cs.length = N → 0 < N →
      ∃ l, lb.gets n = some (l, { lb with index := ((a + n : Nat) : Int) }) ∧ l.length = n ∧
        ∀ m, m < n → ∃ c, l[m]? = some c ∧ lb.cs[(a + 1 + m) % N]? = some c := by
  induction n with
  | zero =>
    intro lb a N honce hidx _ _ _
    refine ⟨[], ?_, rfl, by intro m hm; omega⟩
    simp only [RoundRobinLB.gets, Nat.add_zero, ← hidx]
  | succ n ih =>
    intro lb a N honce hidx ha hN hpos
    obtain ⟨c, hc, hget⟩ := RoundRobinLB.get_once lb a N honce hidx (by omega) hN hpos
    obtain ⟨l, hl, hlen, hall⟩ := ih { lb with index := ((a + 1 : Nat) : Int) } (a + 1) N
      honce rfl (by omega) hN hpos
    refine ⟨c :: l, ?_, by simp [hlen], ?_⟩
    · simp only [RoundRobinLB.gets, hget, Option.some_bind, hl, Option.map_some']
      have : a + 1 + n = a + (n + 1) := by omega
      rw [this]
    · intro m hm
      cases m with
      | zero => exact ⟨c, by simp, by simpa using hc⟩
      | succ j =>
        obtain ⟨d, hd1, hd2⟩ := hall j (by omega)
        refine ⟨d, by simpa using hd1, ?_⟩
        have : a + 1 + (j + 1) = a + 1 + 1 + j := by omega
        rw [this]
        exact hd2

theorem RoundRobinLB.get_afterOnce (lb : RoundRobinLB) (hne : lb.clients.length ≠ 0) :
    lb.get = lb.afterOnce.get := by
  by_cases h : lb.once = true
  · simp [RoundRobinLB.afterOnce, h]
  · simp [RoundRobinLB.afterOnce, h, RoundRobinLB.get, RoundRobinLB.init, hne]

/-- C6: a round-robin balancer holding `N ≥ 1` pools, counter at its initial value 0:
`k` successive Get calls (`1 ≤ k < 2^31`) all return, the `m`-th of them the LBClient at
index `m mod N` (so the first selection is index `1 mod N`); in every window of `N`
consecutive call numbers each index is hit by exactly one call; and for the three-node
list twelve calls return the three canonical names in rotation, four times each. -/
theorem RoundRobinLB_get_rotation :
    (∀ (lb : RoundRobinLB) (N k : Nat), lb.index = 0 → lb.clients.length = N →
      lb.cs.length = N → 1 ≤ N → 1 ≤ k → k < 2 ^ 31 →
      ∃ l lb2, lb.gets k = some (l, lb2) ∧ l.length = k ∧
        ∀ m, 1 ≤ m → m ≤ k → ∃ c, l[m - 1]? = some c ∧ lb.afterOnce.cs[m % N]? = some c) ∧
    (∀ N s j : Nat, 1 ≤ N → j < N → ∃! m, s ≤ m ∧ m < s + N ∧ m % N = j) ∧
    RoundRobinLB.firstNames exThreeConfig 12 =
      some ["127.0.0.1:7781_w200", "127.0.0.1:7780_w400", "127.0.0.1:7780_w1000",
            "127.0.0.1:7781_w200", "127.0.0.1:7780_w400", "127.0.0.1:7780_w1000",
            "127.0.0.1:7781_w200", "127.0.0.1:7780_w400", "127.0.0.1:7780_w1000",
            "127.0.0.1:7781_w200", "127.0.0.1:7780_w400", "127.0.0.1:7780_w1000"] := by
  refine ⟨?_, fun N s j hN hj => window_residue N s j hN hj, by decide⟩
  intro lb N k hidx hcl hcs hN hk1 hk2
  have hne : lb.clients.length ≠ 0 := by omega
  have honce : lb.afterOnce.once = true := by
    unfold RoundRobinLB.afterOnce
    by_cases h : lb.once = true <;> simp [h]
  have hidx2 : lb.afterOnce.index = ((0 : Nat) : Int) := by
    unfold RoundRobinLB.afterOnce
    by_cases h : lb.once = true <;> simp [h, hidx]
  have hlen2 : lb.afterOnce.cs.length = N := by
    unfold RoundRobinLB.afterOnce
    by_cases h : lb.once = true <;> simp [h, hcs, initCs, hcl]
  obtain ⟨l, hl, hlen, hall⟩ := RoundRobinLB.gets_once k lb.afterOnce 0 N honce hidx2
    (by omega) hlen2 (by omega)
  have hgets : lb.gets k = lb.afterOnce.gets k := by
    cases k with
    | zero => omega
    | succ n => simp only [RoundRobinLB.gets, RoundRobinLB.get_afterOnce lb hne]
  refine ⟨l, _, by rw [hgets]; exact hl, hlen, ?_⟩
  intro m hm1 hm2
  obtain ⟨c, hc1, hc2⟩ := hall (m - 1) (by omega)
  refine ⟨c, hc1, ?_⟩
  have : 0 + 1 + (m - 1) = m := by omega
  rw [this] at hc2
  exact hc2

/-- Witness of C6: the balancer constructed from the three-node configuration, three
calls. -/
theorem RoundRobinLB_get_rotation_witness :
    ∃ l lb2, (RoundRobinLB.mk (createClients exThreeNodes exOpts 0).1 exThreeConfig 0 none 0
        (initCs (createClients exThreeNodes exOpts 0).1 none) false (newWatcher exThreeConfig) 3).gets 3
          = some (l, lb2) ∧ l.length = 3 ∧
      ∀ m, 1 ≤ m → m ≤ 3 → ∃ c, l[m - 1]? = some c ∧
        (RoundRobinLB.mk (createClients exThreeNodes exOpts 0).1 exThreeConfig 0 none 0
          (initCs (createClients exThreeNodes exOpts 0).1 none) false
          (newWatcher exThreeConfig) 3).afterOnce.cs[m % 3]? = some c :=
  RoundRobinLB_get_rotation.1 _ 3 3 rfl (by decide) (by decide) (by decide) (by decide) (by decide)

/-! ## Reconciliation inside a balancer -/

theorem updateClients_changed_nonempty (old : List Client) (nodes : List Node) (opts : Opts)
    (heap : Nat) (hch : (updateClients old nodes opts heap).changed = true) : nodes ≠ [] := by
  intro h
  subst h
  simp [updateClients] at hch

/-- C9, the code at a concrete swap: endpoint A is in the old and in the new pool set and
keeps its pool instance, but its counters (penalty 3, total 5 right before the swap) are
0 and 0 right after it. -/
theorem watchStep_resets_counters :
    exLeastLBA.clients = [exPoolA] ∧
    exLeastLBA.counters = [(exPoolA, 3, 5)] ∧
    exLeastLBA.afterWatch exConsulAB
      = some ([exPoolA, exPoolB], [(exPoolA, 0, 0), (exPoolB, 0, 0)]) ∧
    ¬ (exLeastLBA.afterWatch exConsulAB).map (fun r => r.2.head?)
      = some (exLeastLBA.counters.head?) := by
  decide

/-- C9 as the code has it: when a round of the watch loop changes the pool set, the new
pool list follows the node list; an endpoint whose canonical name was the name of an old
pool keeps a pool instance of the old list, and every LBClient is created anew by `init`,
with penalty 0 and total 0. -/
theorem watchStep_changed_keeps_pools (cc : LeastLoadedLB) (input : WatchInput)
    (nodes : List Node) (w : watcher)
    (hw : cc.watcher.watch cc.config input = Run.done (nodes, w))
    (hch : (updateClients cc.clients nodes cc.config.Opts cc.heap).changed = true) :
    ∃ lb2, cc.watchStep input = Run.done lb2 ∧ lb2.clients.length = nodes.length ∧
      ∀ i (hi : i < nodes.length), ∃ c,
        lb2.clients[i]? = some c ∧ c.Name = nodes[i].String ∧
        ((∃ o ∈ cc.clients, o.Name = nodes[i].String) → c ∈ cc.clients) ∧
        lb2.cs[i]? = some { c := c, healthCheck := cc.HealthCheck, penalty := 0, total := 0 } := by
  have hne := updateClients_changed_nonempty _ _ _ _ hch
  obtain ⟨hlen, hall⟩ := updateClients_spec_of_changed cc.clients nodes cc.config.Opts cc.heap hne hch
  have hpos : nodes.length ≠ 0 := fun h => hne (List.length_eq_zero.mp h)
  refine ⟨{ cc with
             watcher := w
             clients := (updateClients cc.clients nodes cc.config.Opts cc.heap).clients
             heap := (updateClients cc.clients nodes cc.config.Opts cc.heap).heap
             cs := initCs (updateClients cc.clients nodes cc.config.Opts cc.heap).clients
                     cc.HealthCheck }, ?_, ?_, ?_⟩
  · simp only [LeastLoadedLB.watchStep, hw, Run.bind, hch, Bool.not_true, Bool.false_eq_true,
      if_false, LeastLoadedLB.init, hlen, hpos, Run.ofOption]
  · exact hlen
  · intro i hi
    obtain ⟨c, hc1, hc2, hc3, _⟩ := hall i hi
    refine ⟨c, hc1, hc2, hc3, ?_⟩
    simp only [initCs, List.getElem?_map, hc1, Option.map_some']

/-- Witness of C9 as amended: the swap from `[A]` to `[A, B]`. -/
theorem watchStep_changed_keeps_pools_witness :
    ∃ lb2, exLeastLBA.watchStep exConsulAB = Run.done lb2 ∧ lb2.clients.length = 2 ∧
      ∀ i (hi : i < [exNodeA, exNodeB].length), ∃ c,
        lb2.clients[i]? = some c ∧ c.Name = [exNodeA, exNodeB][i].String ∧
        ((∃ o ∈ exLeastLBA.clients, o.Name = [exNodeA, exNodeB][i].String) →
          c ∈ exLeastLBA.clients) ∧
        lb2.cs[i]? = some { c := c, healthCheck := exLeastLBA.HealthCheck, penalty := 0, total := 0 } :=
  watchStep_changed_keeps_pools exLeastLBA exConsulAB [exNodeA, exNodeB]
    { exLeastLBA.watcher with once := true, consulFlag := true, ConsulWaitIndex := 7,
                              nodes := [exNodeA, exNodeB] } rfl (by decide)

/-! ## Construction -/

/-- C10, the code on a Consul configuration without fallback nodes: `Validate` returns nil,
and when the first Consul query fails (or answers with no entry) the watcher returns the
previously known, empty node set and `New` panics in `init`, whatever the strategy. -/
theorem New_panics_without_fallback :
    [LBRoundRobin, LBRandom, LBWeightedRoundRobin, LBLeastConnection].all (fun strategy =>
      validateThenNew exConsulConfig strategy { consul := none } == (true, true) &&
      validateThenNew exConsulConfig strategy { consul := some ([], 3) } == (true, true))
      = true := by
  decide

/-! ## Weighted round robin -/

theorem WeightedRoundRobinLB.loop_succ (f : Nat) (cc : WeightedRoundRobinLB) :
    WeightedRoundRobinLB.get.loop (f + 1) cc
      = match WeightedRoundRobinLB.get.body cc with
        | .inl r => r
        | .inr cc1 => WeightedRoundRobinLB.get.loop f cc1 := rfl

theorem WeightedRoundRobinLB.loop_hit (cc : WeightedRoundRobinLB) (fuel k : Nat)
    (hn : 0 < cc.clients.length) (hk : cc.i = (k : Int) - 1) (hmx : 0 < cc.maxWeight)
    (c : Client) (r : lbClient)
    (hc : cc.clients[k % cc.clients.length]? = some c)
    (hr : cc.cs[k % cc.clients.length]? = some r)
    (hge : c.node.Weight ≥ (if k % cc.clients.length = 0 then cc.nextCw else cc.cw)) :
    WeightedRoundRobinLB.get.loop (fuel + 1) cc
      = Run.done (some r, { cc with i := ((k % cc.clients.length : Nat) : Int),
                                    cw := if k % cc.clients.length = 0 then cc.nextCw else cc.cw }) := by
  have hne : cc.clients.length ≠ 0 := by omega
  have hi : Int.tmod (cc.i + 1) (cc.clients.length : Int) = ((k % cc.clients.length : Nat) : Int) := by
    rw [hk, sub_add_cancel]
    exact (Int.ofNat_tmod _ _).symm
  rw [WeightedRoundRobinLB.loop_succ]
  unfold WeightedRoundRobinLB.get.body
  simp only [hne, if_false, hi]
  by_cases h0 : k % cc.clients.length = 0
  · simp only [h0, Nat.cast_zero, if_true, true_and, WeightedRoundRobinLB.nextCw] at hge hc hr ⊢
    by_cases hz : (cc.cw + 65536 - cc.gcd) % 65536 ≤ 0
    · have hmx2 : ¬ cc.maxWeight = 0 := by omega
      simp only [hz, if_true, hmx2, and_false, if_false, lt_self_iff_false, Int.toNat_zero, hc,
        true_and] at hge ⊢
      simp only [hge, if_true, hr, ge_iff_le]
    · simp only [hz, if_false, false_and, lt_self_iff_false, Int.toNat_zero, hc] at hge ⊢
      simp only [hge, if_true, hr, ge_iff_le]
  · have h0i : ¬ (((k % cc.clients.length : Nat) : Int) = 0) := by omega
    have hneg : ¬ (((k % cc.clients.length : Nat) : Int) < 0) := by omega
    simp only [h0, h0i, if_false, false_and, hneg, Int.toNat_ofNat, hc] at hge ⊢
    simp only [hge, if_true, hr, ge_iff_le]

theorem WeightedRoundRobinLB.loop_miss (cc : WeightedRoundRobinLB) (fuel k : Nat)
    (hn : 0 < cc.clients.length) (hk : cc.i = (k : Int) - 1) (hmx : 0 < cc.maxWeight)
    (c : Client)
    (hc : cc.clients[k % cc.clients.length]? = some c)
    (hlt : c.node.Weight < (if k % cc.clients.length = 0 then cc.nextCw else cc.cw)) :
    WeightedRoundRobinLB.get.loop (fuel + 1) cc
      = WeightedRoundRobinLB.get.loop fuel
          { cc with i := ((k % cc.clients.length : Nat) : Int),
                    cw := if k % cc.clients.length = 0 then cc.nextCw else cc.cw } := by
  have hne : cc.clients.length ≠ 0 := by omega
  have hi : Int.tmod (cc.i + 1) (cc.clients.length : Int) = ((k % cc.clients.length : Nat) : Int) := by
    rw [hk, sub_add_cancel]
    exact (Int.ofNat_tmod _ _).symm
  rw [WeightedRoundRobinLB.loop_succ]
  unfold WeightedRoundRobinLB.get.body
  simp only [hne, if_false, hi]
  by_cases h0 : k % cc.clients.length = 0
  · simp only [h0, Nat.cast_zero, if_true, true_and, WeightedRoundRobinLB.nextCw] at hlt hc ⊢
    by_cases hz : (cc.cw + 65536 - cc.gcd) % 65536 ≤ 0
    · have hmx2 : ¬ cc.maxWeight = 0 := by omega
      simp only [hz, if_true, hmx2, and_false, if_false, lt_self_iff_false, Int.toNat_zero, hc,
        true_and] at hlt ⊢
      have : ¬ (c.node.Weight ≥ cc.maxWeight) := by omega
      simp only [this, if_false]
    · simp only [hz, if_false, false_and, lt_self_iff_false, Int.toNat_zero, hc] at hlt ⊢
      have : ¬ (c.node.Weight ≥ (cc.cw + 65536 - cc.gcd) % 65536) := by omega
      simp only [this, if_false]
  · have h0i : ¬ (((k % cc.clients.length : Nat) : Int) = 0) := by omega
    have hneg : ¬ (((k % cc.clients.length : Nat) : Int) < 0) := by omega
    simp only [h0, h0i, if_false, false_and, hneg, Int.toNat_ofNat, hc] at hlt ⊢
    have : ¬ (c.node.Weight ≥ cc.cw) := by omega
    simp only [this, if_false]

theorem WeightedRoundRobinLB.moved_moved (cc : WeightedRoundRobinLB) (i j : Int) (c d : Nat) :
    (cc.moved i c).moved j d = cc.moved j d := rfl

theorem WeightedRoundRobinLB.nextCw_moved (cc : WeightedRoundRobinLB) (i : Int) (c : Nat) :
    (cc.moved i c).nextCw = nextWeight cc.gcd cc.maxWeight c := rfl

theorem hitsFrom_drop (c : Nat) (ws : List Nat) (k : Nat) (hk : k < ws.length) :
    hitsFrom c (ws.drop k) k
      = if ws[k] ≥ c then k :: hitsFrom c (ws.drop (k + 1)) (k + 1)
        else hitsFrom c (ws.drop (k + 1)) (k + 1) := by
  rw [List.drop_eq_getElem_cons hk]
  rfl

theorem WeightedRoundRobinLB.weights_getElem (cc : WeightedRoundRobinLB) (k : Nat)
    (hk : k < cc.clients.length) :
    ∃ c, cc.clients[k]? = some c ∧
      ∃ hk2 : k < cc.weights.length, cc.weights[k] = c.node.Weight := by
  refine ⟨cc.clients[k], List.getElem?_eq_getElem hk, by simpa [WeightedRoundRobinLB.weights] using hk, ?_⟩
  simp [WeightedRoundRobinLB.weights]

/-- Scanning the rest of a pass in which no pool is selected. -/
theorem WeightedRoundRobinLB.scan_miss (cc : WeightedRoundRobinLB)
    (hn : 0 < cc.clients.length) (hmx : 0 < cc.maxWeight) :
    ∀ (d k c : Nat), k + d = cc.clients.length → 1 ≤ k →
      hitsFrom c (cc.weights.drop k) k = [] →
      ∀ f, WeightedRoundRobinLB.get.loop (f + d) (cc.moved ((k : Int) - 1) c)
        = WeightedRoundRobinLB.get.loop f (cc.moved ((cc.clients.length : Int) - 1) c) := by
  intro d
  induction d with
  | zero =>
    intro k c hkd _ _ f
    have : k = cc.clients.length := by omega
    rw [this]
    rfl
  | succ d ih =>
    intro k c hkd hk1 hh f
    have hkn : k < cc.clients.length := by omega
    obtain ⟨cl, hcl, hk2, hw⟩ := cc.weights_getElem k hkn
    rw [hitsFrom_drop c cc.weights k hk2] at hh
    have hmod : k % cc.clients.length = k := Nat.mod_eq_of_lt hkn
    have hk0 : ¬ k = 0 := by omega
    by_cases hge : cc.weights[k] ≥ c
    · simp [hge] at hh
    · simp only [hge, if_false] at hh
      have hstep := WeightedRoundRobinLB.loop_miss (cc.moved ((k : Int) - 1) c) (f + d) k
        hn rfl hmx cl (by simpa [WeightedRoundRobinLB.moved, hmod] using hcl)
        (by
          have : (cc.moved ((k : Int) - 1) c).clients.length = cc.clients.length := rfl
          rw [this, hmod]
          simp only [hk0, if_false]
          show cl.node.Weight < c
          omega)
      have hlen : (cc.moved ((k : Int) - 1) c).clients.length = cc.clients.length := rfl
      rw [hlen, hmod] at hstep
      simp only [hk0, if_false] at hstep
      have hst : ({ cc.moved ((k : Int) - 1) c with i := (k : Int), cw := (cc.moved ((k : Int) - 1) c).cw } :
          WeightedRoundRobinLB) = cc.moved (((k + 1 : Nat) : Int) - 1) c := by
        have : (((k + 1 : Nat) : Int) - 1) = (k : Int) := by push_cast; ring
        rw [this]
        rfl
      rw [hst] at hstep
      have := ih (k + 1) c (by omega) (by omega) hh f
      rw [← this, ← hstep]
      rfl

/-- Scanning the rest of a pass up to the next selected pool. -/
theorem WeightedRoundRobinLB.scan_hit (cc : WeightedRoundRobinLB)
    (hn : 0 < cc.clients.length) (hmx : 0 < cc.maxWeight)
    (hcs : cc.cs.length = cc.clients.length) :
    ∀ (d k c j : Nat) (rest : List Nat), k + d = cc.clients.length → 1 ≤ k →
      hitsFrom c (cc.weights.drop k) k = j :: rest →
      k ≤ j ∧ j < cc.clients.length ∧ rest = hitsFrom c (cc.weights.drop (j + 1)) (j + 1) ∧
      ∃ r, cc.cs[j]? = some r ∧
        ∀ f, WeightedRoundRobinLB.get.loop (f + (j - k) + 1) (cc.moved ((k : Int) - 1) c)
          = Run.done (some r, cc.moved (j : Int) c) := by
  intro d
  induction d with
  | zero =>
    intro k c j rest hkd _ hh
    have : cc.weights.drop k = [] := by
      apply List.drop_eq_nil_of_le
      simp [WeightedRoundRobinLB.weights]
      omega
    rw [this] at hh
    simp [hitsFrom] at hh
  | succ d ih =>
    intro k c j rest hkd hk1 hh
    have hkn : k < cc.clients.length := by omega
    obtain ⟨cl, hcl, hk2, hw⟩ := cc.weights_getElem k hkn
    rw [hitsFrom_drop c cc.weights k hk2] at hh
    have hmod : k % cc.clients.length = k := Nat.mod_eq_of_lt hkn
    have hk0 : ¬ k = 0 := by omega
    have hlen : (cc.moved ((k : Int) - 1) c).clients.length = cc.clients.length := rfl
    by_cases hge : cc.weights[k] ≥ c
    · simp only [hge, if_true, List.cons.injEq] at hh
      obtain ⟨hj, hrest⟩ := hh
      subst hj
      have hkc : k < cc.cs.length := by omega
      obtain ⟨r, hr⟩ : ∃ r, cc.cs[k]? = some r := ⟨cc.cs[k], List.getElem?_eq_getElem hkc⟩
      refine ⟨le_refl _, hkn, hrest.symm, r, hr, ?_⟩
      intro f
      have hstep := WeightedRoundRobinLB.loop_hit (cc.moved ((k : Int) - 1) c) (f + (k - k)) k
        hn rfl hmx cl r (by simpa [WeightedRoundRobinLB.moved, hmod] using hcl)
        (by simpa [WeightedRoundRobinLB.moved, hmod] using hr)
        (by
          rw [hlen, hmod]
          simp only [hk0, if_false]
          show cl.node.Weight ≥ c
          omega)
      rw [hlen, hmod] at hstep
      simp only [hk0, if_false] at hstep
      rw [hstep]
      rfl
    · simp only [hge, if_false] at hh
      obtain ⟨h1, h2, h3, r, hr, hloop⟩ := ih (k + 1) c j rest (by omega) (by omega) hh
      refine ⟨by omega, h2, h3, r, hr, ?_⟩
      intro f
      have hstep := WeightedRoundRobinLB.loop_miss (cc.moved ((k : Int) - 1) c) (f + (j - (k + 1)) + 1) k
        hn rfl hmx cl (by simpa [WeightedRoundRobinLB.moved, hmod] using hcl)
        (by
          rw [hlen, hmod]
          simp only [hk0, if_false]
          show cl.node.Weight < c
          omega)
      rw [hlen, hmod] at hstep
      simp only [hk0, if_false] at hstep
      have hst : ({ cc.moved ((k : Int) - 1) c with i := (k : Int), cw := (cc.moved ((k : Int) - 1) c).cw } :
          WeightedRoundRobinLB) = cc.moved (((k + 1 : Nat) : Int) - 1) c := by
        have : (((k + 1 : Nat) : Int) - 1) = (k : Int) := by push_cast; ring
        rw [this]
        rfl
      rw [hst] at hstep
      have hf : f + (j - k) + 1 = f + (j - (k + 1)) + 1 + 1 := by omega
      rw [hf, hstep]
      exact hloop f

theorem WeightedRoundRobinLB.start_mod (cc : WeightedRoundRobinLB) (k : Nat)
    (hk : k = 0 ∨ k = cc.clients.length) : k % cc.clients.length = 0 := by
  rcases hk with h | h
  · rw [h]; exact Nat.zero_mod _
  · rw [h]; exact Nat.mod_self _

/-- A whole pass in which no pool is selected. -/
theorem WeightedRoundRobinLB.pass_miss (cc : WeightedRoundRobinLB)
    (hn : 0 < cc.clients.length) (hmx : 0 < cc.maxWeight) (k c : Nat)
    (hk : k = 0 ∨ k = cc.clients.length)
    (hh : hitsFrom (nextWeight cc.gcd cc.maxWeight c) cc.weights 0 = []) :
    ∀ f, WeightedRoundRobinLB.get.loop (f + cc.clients.length) (cc.moved ((k : Int) - 1) c)
      = WeightedRoundRobinLB.get.loop f
          (cc.moved ((cc.clients.length : Int) - 1) (nextWeight cc.gcd cc.maxWeight c)) := by
  intro f
  have hmod := cc.start_mod k hk
  obtain ⟨cl, hcl, hk2, hw⟩ := cc.weights_getElem 0 hn
  have hd := hitsFrom_drop (nextWeight cc.gcd cc.maxWeight c) cc.weights 0 hk2
  rw [List.drop_zero] at hd
  rw [hd] at hh
  have hlen : (cc.moved ((k : Int) - 1) c).clients.length = cc.clients.length := rfl
  by_cases hge : cc.weights[0] ≥ nextWeight cc.gcd cc.maxWeight c
  · simp [hge] at hh
  · simp only [hge, if_false] at hh
    have hstep := WeightedRoundRobinLB.loop_miss (cc.moved ((k : Int) - 1) c)
      (f + (cc.clients.length - 1)) k hn rfl hmx cl
      (by simpa [WeightedRoundRobinLB.moved, hmod] using hcl)
      (by
        rw [hlen, hmod]
        simp only [if_true, WeightedRoundRobinLB.nextCw_moved]
        omega)
    rw [hlen, hmod] at hstep
    simp only [if_true, WeightedRoundRobinLB.nextCw_moved] at hstep
    have hst : ({ cc.moved ((k : Int) - 1) c with
          i := ((0 : Nat) : Int), cw := nextWeight cc.gcd cc.maxWeight c } : WeightedRoundRobinLB)
        = cc.moved (((1 : Nat) : Int) - 1) (nextWeight cc.gcd cc.maxWeight c) := rfl
    rw [hst] at hstep
    have hf : f + cc.clients.length = f + (cc.clients.length - 1) + 1 := by omega
    rw [hf, hstep]
    exact WeightedRoundRobinLB.scan_miss cc hn hmx (cc.clients.length - 1) 1 _ (by omega)
      (le_refl _) hh f

/-- A pass up to its first selected pool. -/
theorem WeightedRoundRobinLB.pass_hit (cc : WeightedRoundRobinLB)
    (hn : 0 < cc.clients.length) (hmx : 0 < cc.maxWeight)
    (hcs : cc.cs.length = cc.clients.length) (k c j : Nat) (rest : List Nat)
    (hk : k = 0 ∨ k = cc.clients.length)
    (hh : hitsFrom (nextWeight cc.gcd cc.maxWeight c) cc.weights 0 = j :: rest) :
    j < cc.clients.length ∧
    rest = hitsFrom (nextWeight cc.gcd cc.maxWeight c) (cc.weights.drop (j + 1)) (j + 1) ∧
    ∃ r, cc.cs[j]? = some r ∧
      ∀ f, WeightedRoundRobinLB.get.loop (f + j + 1) (cc.moved ((k : Int) - 1) c)
        = Run.done (some r, cc.moved (j : Int) (nextWeight cc.gcd cc.maxWeight c)) := by
  have hmod := cc.start_mod k hk
  obtain ⟨cl, hcl, hk2, hw⟩ := cc.weights_getElem 0 hn
  have hd := hitsFrom_drop (nextWeight cc.gcd cc.maxWeight c) cc.weights 0 hk2
  rw [List.drop_zero] at hd
  rw [hd] at hh
  have hlen : (cc.moved ((k : Int) - 1) c).clients.length = cc.clients.length := rfl
  by_cases hge : cc.weights[0] ≥ nextWeight cc.gcd cc.maxWeight c
  · simp only [hge, if_true, List.cons.injEq] at hh
    obtain ⟨hj, hrest⟩ := hh
    subst hj
    have hkc : 0 < cc.cs.length := by omega
    obtain ⟨r, hr⟩ : ∃ r, cc.cs[0]? = some r := ⟨cc.cs[0], List.getElem?_eq_getElem hkc⟩
    refine ⟨hn, hrest.symm, r, hr, ?_⟩
    intro f
    have hstep := WeightedRoundRobinLB.loop_hit (cc.moved ((k : Int) - 1) c) (f + 0) k
      hn rfl hmx cl r (by simpa [WeightedRoundRobinLB.moved, hmod] using hcl)
      (by simpa [WeightedRoundRobinLB.moved, hmod] using hr)
      (by
        rw [hlen, hmod]
        simp only [if_true, WeightedRoundRobinLB.nextCw_moved]
        omega)
    rw [hlen, hmod] at hstep
    simp only [if_true, WeightedRoundRobinLB.nextCw_moved] at hstep
    rw [hstep]
    rfl
  · simp only [hge, if_false] at hh
    obtain ⟨h1, h2, h3, r, hr, hloop⟩ := WeightedRoundRobinLB.scan_hit cc hn hmx hcs
      (cc.clients.length - 1) 1 _ j rest (by omega) (le_refl _) hh
    refine ⟨h2, h3, r, hr, ?_⟩
    intro f
    have hstep := WeightedRoundRobinLB.loop_miss (cc.moved ((k : Int) - 1) c)
      (f + (j - 1) + 1) k hn rfl hmx cl
      (by simpa [WeightedRoundRobinLB.moved, hmod] using hcl)
      (by
        rw [hlen, hmod]
        simp only [if_true, WeightedRoundRobinLB.nextCw_moved]
        omega)
    rw [hlen, hmod] at hstep
    simp only [if_true, WeightedRoundRobinLB.nextCw_moved] at hstep
    have hst : ({ cc.moved ((k : Int) - 1) c with
          i := ((0 : Nat) : Int), cw := nextWeight cc.gcd cc.maxWeight c } : WeightedRoundRobinLB)
        = cc.moved (((1 : Nat) : Int) - 1) (nextWeight cc.gcd cc.maxWeight c) := rfl
    rw [hst] at hstep
    have hf : f + j + 1 = f + (j - 1) + 1 + 1 := by omega
    rw [hf, hstep]
    exact hloop f

theorem WeightedRoundRobinLB.get_eq_loop (cc : WeightedRoundRobinLB) (f : Nat)
    (honce : cc.once = true) :
    WeightedRoundRobinLB.get f cc = WeightedRoundRobinLB.get.loop f cc := by
  simp [WeightedRoundRobinLB.get, honce, Run.ofOption, Run.bind]

theorem WeightedRoundRobinLB.gets_add (f m1 : Nat) :
    ∀ (m2 : Nat) (cc : WeightedRoundRobinLB),
      WeightedRoundRobinLB.gets f (m1 + m2) cc
        = (WeightedRoundRobinLB.gets f m1 cc).bind (fun p =>
            (WeightedRoundRobinLB.gets f m2 p.2).bind (fun q => Run.done (p.1 ++ q.1, q.2))) := by
  induction m1 with
  | zero =>
    intro m2 cc
    simp only [Nat.zero_add, WeightedRoundRobinLB.gets, Run.bind, List.nil_append]
    cases WeightedRoundRobinLB.gets f m2 cc <;> rfl
  | succ m1 ih =>
    intro m2 cc
    have : m1 + 1 + m2 = (m1 + m2) + 1 := by omega
    rw [this]
    simp only [WeightedRoundRobinLB.gets]
    cases hg : WeightedRoundRobinLB.get f cc with
    | panic => rfl
    | pending => rfl
    | done a =>
      obtain ⟨c, cc1⟩ := a
      simp only [Run.bind]
      rw [ih m2 cc1]
      cases h1 : WeightedRoundRobinLB.gets f m1 cc1 with
      | panic => rfl
      | pending => rfl
      | done b =>
        obtain ⟨l, cc2⟩ := b
        simp only [Run.bind]
        cases h2 : WeightedRoundRobinLB.gets f m2 cc2 with
        | panic => rfl
        | pending => rfl
        | done q => rfl

theorem WeightedRoundRobinLB.GetsTo.zero (cc : WeightedRoundRobinLB) : cc.GetsTo 0 [] cc :=
  ⟨0, fun _ _ => rfl⟩

theorem WeightedRoundRobinLB.GetsTo.trans {a b c : WeightedRoundRobinLB} {m1 m2 : Nat}
    {o1 o2 : List (Option lbClient)} (h1 : a.GetsTo m1 o1 b) (h2 : b.GetsTo m2 o2 c) :
    a.GetsTo (m1 + m2) (o1 ++ o2) c := by
  obtain ⟨F1, hF1⟩ := h1
  obtain ⟨F2, hF2⟩ := h2
  refine ⟨max F1 F2, ?_⟩
  intro f hf
  rw [WeightedRoundRobinLB.gets_add, hF1 f (le_trans (le_max_left _ _) hf)]
  simp only [Run.bind]
  rw [hF2 f (le_trans (le_max_right _ _) hf)]

theorem WeightedRoundRobinLB.GetsTo.one (a b : WeightedRoundRobinLB) (r : lbClient) (d : Nat)
    (honce : a.once = true)
    (h : ∀ f, WeightedRoundRobinLB.get.loop (f + d) a = Run.done (some r, b)) :
    a.GetsTo 1 [some r] b := by
  refine ⟨d, ?_⟩
  intro f hf
  have hfd : f = (f - d) + d := by omega
  simp only [WeightedRoundRobinLB.gets, WeightedRoundRobinLB.get_eq_loop a f honce]
  rw [hfd, h (f - d)]
  rfl

theorem WeightedRoundRobinLB.loop_mono (f : Nat) :
    ∀ (cc : WeightedRoundRobinLB) (r : Option lbClient × WeightedRoundRobinLB),
      WeightedRoundRobinLB.get.loop f cc = Run.done r →
      ∀ e, WeightedRoundRobinLB.get.loop (f + e) cc = Run.done r := by
  induction f with
  | zero =>
    intro cc r h
    simp [WeightedRoundRobinLB.get.loop] at h
  | succ f ih =>
    intro cc r h e
    have hfe : f + 1 + e = (f + e) + 1 := by omega
    rw [hfe, WeightedRoundRobinLB.loop_succ]
    rw [WeightedRoundRobinLB.loop_succ] at h
    cases hb : WeightedRoundRobinLB.get.body cc with
    | inl x => rw [hb] at h; exact h
    | inr cc1 => rw [hb] at h; exact ih cc1 r h e

theorem WeightedRoundRobinLB.GetsTo.skip (a a1 b : WeightedRoundRobinLB) (m d : Nat)
    (outs : List (Option lbClient)) (honce : a.once = true) (honce1 : a1.once = true)
    (h : ∀ f, WeightedRoundRobinLB.get.loop (f + d) a = WeightedRoundRobinLB.get.loop f a1)
    (hg : a1.GetsTo (m + 1) outs b) : a.GetsTo (m + 1) outs b := by
  obtain ⟨F, hF⟩ := hg
  refine ⟨F + d, ?_⟩
  intro f hf
  have hfd : f = (f - d) + d := by omega
  have h1 := hF (f - d) (by omega)
  have h2 := hF f (by omega)
  simp only [WeightedRoundRobinLB.gets, WeightedRoundRobinLB.get_eq_loop a1 _ honce1] at h1 h2
  simp only [WeightedRoundRobinLB.gets, WeightedRoundRobinLB.get_eq_loop a f honce]
  have hl : WeightedRoundRobinLB.get.loop f a = WeightedRoundRobinLB.get.loop (f - d) a1 := by
    conv_lhs => rw [hfd]
    exact h (f - d)
  rw [hl]
  cases hloop : WeightedRoundRobinLB.get.loop (f - d) a1 with
  | panic => rw [hloop] at h1; simp [Run.bind] at h1
  | pending => rw [hloop] at h1; simp [Run.bind] at h1
  | done r =>
    have hm := WeightedRoundRobinLB.loop_mono (f - d) a1 r hloop d
    rw [← hfd] at hm
    rw [hm] at h2
    exact h2

theorem cast_succ_sub_one (j : Nat) : (((j + 1 : Nat) : Int) - 1) = (j : Int) := by
  push_cast
  ring

/-- The Get calls that finish a pass from index `k ≥ 1` on. -/
theorem WeightedRoundRobinLB.gets_scan (cc : WeightedRoundRobinLB)
    (hn : 0 < cc.clients.length) (hmx : 0 < cc.maxWeight)
    (hcs : cc.cs.length = cc.clients.length) (honce : cc.once = true) (c : Nat) :
    ∀ (H : List Nat) (k : Nat), 1 ≤ k → k ≤ cc.clients.length →
      hitsFrom c (cc.weights.drop k) k = H → H ≠ [] →
      ∃ last, H.getLast? = some last ∧ last < cc.clients.length ∧
        (cc.moved ((k : Int) - 1) c).GetsTo H.length (cc.outsOf H) (cc.moved (last : Int) c) ∧
        hitsFrom c (cc.weights.drop (last + 1)) (last + 1) = [] := by
  intro H
  induction H with
  | nil => intro k _ _ _ h; exact absurd rfl h
  | cons j rest ih =>
    intro k hk1 hkn hh _
    obtain ⟨h1, h2, h3, r, hr, hloop⟩ := WeightedRoundRobinLB.scan_hit cc hn hmx hcs
      (cc.clients.length - k) k c j rest (by omega) hk1 hh
    have hone : (cc.moved ((k : Int) - 1) c).GetsTo 1 [some r] (cc.moved (j : Int) c) :=
      WeightedRoundRobinLB.GetsTo.one _ _ r ((j - k) + 1) honce
        (by intro f; rw [← Nat.add_assoc]; exact hloop f)
    by_cases hrest : rest = []
    · subst hrest
      refine ⟨j, rfl, h2, ?_, h3.symm⟩
      simpa [WeightedRoundRobinLB.outsOf, hr] using hone
    · obtain ⟨last, hl1, hl2, hl3, hl4⟩ := ih (j + 1) (by omega) (by omega) h3.symm hrest
      rw [cast_succ_sub_one] at hl3
      refine ⟨last, ?_, hl2, ?_, hl4⟩
      · obtain ⟨a, t, hat⟩ := List.exists_cons_of_ne_nil hrest
        rw [hat, List.getLast?_cons_cons, ← hat]
        exact hl1
      · have := WeightedRoundRobinLB.GetsTo.trans hone hl3
        have hlen : (j :: rest).length = 1 + rest.length := by simp; omega
        rw [hlen]
        simpa [WeightedRoundRobinLB.outsOf, hr] using this

/-- The Get calls of a whole pass that selects at least one pool. -/
theorem WeightedRoundRobinLB.gets_pass (cc : WeightedRoundRobinLB)
    (hn : 0 < cc.clients.length) (hmx : 0 < cc.maxWeight)
    (hcs : cc.cs.length = cc.clients.length) (honce : cc.once = true) (k c : Nat)
    (hk : k = 0 ∨ k = cc.clients.length) (H : List Nat)
    (hh : hitsFrom (nextWeight cc.gcd cc.maxWeight c) cc.weights 0 = H) (hne : H ≠ []) :
    ∃ last, H.getLast? = some last ∧ last < cc.clients.length ∧
      (cc.moved ((k : Int) - 1) c).GetsTo H.length (cc.outsOf H)
        (cc.moved (last : Int) (nextWeight cc.gcd cc.maxWeight c)) ∧
      hitsFrom (nextWeight cc.gcd cc.maxWeight c) (cc.weights.drop (last + 1)) (last + 1) = [] := by
  cases H with
  | nil => exact absurd rfl hne
  | cons j rest =>
    obtain ⟨h2, h3, r, hr, hloop⟩ := WeightedRoundRobinLB.pass_hit cc hn hmx hcs k c j rest hk hh
    have hone : (cc.moved ((k : Int) - 1) c).GetsTo 1 [some r]
        (cc.moved (j : Int) (nextWeight cc.gcd cc.maxWeight c)) :=
      WeightedRoundRobinLB.GetsTo.one _ _ r (j + 1) honce
        (by intro f; rw [← Nat.add_assoc]; exact hloop f)
    by_cases hrest : rest = []
    · subst hrest
      refine ⟨j, rfl, h2, ?_, h3.symm⟩
      simpa [WeightedRoundRobinLB.outsOf, hr] using hone
    · obtain ⟨last, hl1, hl2, hl3, hl4⟩ := WeightedRoundRobinLB.gets_scan cc hn hmx hcs honce
        (nextWeight cc.gcd cc.maxWeight c) rest (j + 1) (by omega) (by omega) h3.symm hrest
      rw [cast_succ_sub_one] at hl3
      refine ⟨last, ?_, hl2, ?_, hl4⟩
      · obtain ⟨a, t, hat⟩ := List.exists_cons_of_ne_nil hrest
        rw [hat, List.getLast?_cons_cons, ← hat]
        exact hl1
      · have := WeightedRoundRobinLB.GetsTo.trans hone hl3
        have hlen : (j :: rest).length = 1 + rest.length := by simp; omega
        rw [hlen]
        simpa [WeightedRoundRobinLB.outsOf, hr] using this

theorem WeightedRoundRobinLB.moved_once (cc : WeightedRoundRobinLB) (i : Int) (c : Nat) :
    (cc.moved i c).once = cc.once := rfl

/-- A pass that selects at least one pool, started from a state with nothing left in the
running pass. -/
theorem WeightedRoundRobinLB.productive_pass (cc : WeightedRoundRobinLB)
    (hn : 0 < cc.clients.length) (hmx : 0 < cc.maxWeight)
    (hcs : cc.cs.length = cc.clients.length) (honce : cc.once = true) (k c : Nat)
    (hex : cc.Exhausted k c)
    (hne : hitsFrom (nextWeight cc.gcd cc.maxWeight c) cc.weights 0 ≠ []) :
    ∃ last, last < cc.clients.length ∧
      (cc.moved ((k : Int) - 1) c).GetsTo
        (hitsFrom (nextWeight cc.gcd cc.maxWeight c) cc.weights 0).length
        (cc.outsOf (hitsFrom (nextWeight cc.gcd cc.maxWeight c) cc.weights 0))
        (cc.moved (((last + 1 : Nat) : Int) - 1) (nextWeight cc.gcd cc.maxWeight c)) ∧
      cc.Exhausted (last + 1) (nextWeight cc.gcd cc.maxWeight c) := by
  rcases hex with hk0 | ⟨hk1, hkn, hnil⟩
  · obtain ⟨last, _, hl2, hl3, hl4⟩ := WeightedRoundRobinLB.gets_pass cc hn hmx hcs honce k c
      (Or.inl hk0) _ rfl hne
    refine ⟨last, hl2, ?_, Or.inr ⟨by omega, by omega, hl4⟩⟩
    rw [cast_succ_sub_one]
    exact hl3
  · obtain ⟨last, _, hl2, hl3, hl4⟩ := WeightedRoundRobinLB.gets_pass cc hn hmx hcs honce
      cc.clients.length c (Or.inr rfl) _ rfl hne
    refine ⟨last, hl2, ?_, Or.inr ⟨by omega, by omega, hl4⟩⟩
    rw [cast_succ_sub_one]
    obtain ⟨m, hm⟩ : ∃ m, (hitsFrom (nextWeight cc.gcd cc.maxWeight c) cc.weights 0).length = m + 1 := by
      cases hH : hitsFrom (nextWeight cc.gcd cc.maxWeight c) cc.weights 0 with
      | nil => exact absurd hH hne
      | cons a t => exact ⟨t.length, rfl⟩
    rw [hm] at hl3 ⊢
    exact WeightedRoundRobinLB.GetsTo.skip (cc.moved ((k : Int) - 1) c)
      (cc.moved ((cc.clients.length : Int) - 1) c) _ m (cc.clients.length - k) _ honce honce
      (WeightedRoundRobinLB.scan_miss cc hn hmx (cc.clients.length - k) k c (by omega) hk1 hnil) hl3

/-- A pass that selects no pool, started from a state with nothing left in the running
pass. -/
theorem WeightedRoundRobinLB.idle_pass (cc : WeightedRoundRobinLB)
    (hn : 0 < cc.clients.length) (hmx : 0 < cc.maxWeight) (k c : Nat)
    (hex : cc.Exhausted k c)
    (hnil : hitsFrom (nextWeight cc.gcd cc.maxWeight c) cc.weights 0 = []) :
    (∃ d, ∀ f, WeightedRoundRobinLB.get.loop (f + d) (cc.moved ((k : Int) - 1) c)
      = WeightedRoundRobinLB.get.loop f
          (cc.moved ((cc.clients.length : Int) - 1) (nextWeight cc.gcd cc.maxWeight c))) ∧
    cc.Exhausted cc.clients.length (nextWeight cc.gcd cc.maxWeight c) := by
  have hex2 : cc.Exhausted cc.clients.length (nextWeight cc.gcd cc.maxWeight c) := by
    refine Or.inr ⟨hn, le_refl _, ?_⟩
    have : cc.weights.drop cc.clients.length = [] := by
      apply List.drop_eq_nil_of_le
      simp [WeightedRoundRobinLB.weights]
    rw [this]
    rfl
  refine ⟨?_, hex2⟩
  rcases hex with hk0 | ⟨hk1, hkn, hnil2⟩
  · exact ⟨cc.clients.length, WeightedRoundRobinLB.pass_miss cc hn hmx k c (Or.inl hk0) hnil⟩
  · refine ⟨cc.clients.length + (cc.clients.length - k), ?_⟩
    intro f
    rw [← Nat.add_assoc,
      WeightedRoundRobinLB.scan_miss cc hn hmx (cc.clients.length - k) k c (by omega) hk1 hnil2]
    exact WeightedRoundRobinLB.pass_miss cc hn hmx cc.clients.length c (Or.inr rfl) hnil f

theorem passes_ne_nil (g mx : Nat) (ws : List Nat) (t : Nat) :
    ∀ c, hitsFrom (weightAfter g mx (t + 1) c) ws 0 ≠ [] → passes g mx ws (t + 1) c ≠ [] := by
  induction t with
  | zero =>
    intro c h
    simp only [passes, weightAfter] at h ⊢
    simpa using h
  | succ t ih =>
    intro c h
    have := ih (nextWeight g mx c) h
    intro hcon
    rw [passes, List.append_eq_nil] at hcon
    exact this hcon.2

theorem WeightedRoundRobinLB.outsOf_append (cc : WeightedRoundRobinLB) (a b : List Nat) :
    cc.outsOf (a ++ b) = cc.outsOf a ++ cc.outsOf b := by
  simp [WeightedRoundRobinLB.outsOf]

/-- The Get calls of `t + 1` successive passes, the last of which selects a pool. -/
theorem WeightedRoundRobinLB.gets_passes (cc : WeightedRoundRobinLB)
    (hn : 0 < cc.clients.length) (hmx : 0 < cc.maxWeight)
    (hcs : cc.cs.length = cc.clients.length) (honce : cc.once = true) (t : Nat) :
    ∀ (k c : Nat), cc.Exhausted k c →
      hitsFrom (weightAfter cc.gcd cc.maxWeight (t + 1) c) cc.weights 0 ≠ [] →
      ∃ last, last < cc.clients.length ∧
        (cc.moved ((k : Int) - 1) c).GetsTo
          (passes cc.gcd cc.maxWeight cc.weights (t + 1) c).length
          (cc.outsOf (passes cc.gcd cc.maxWeight cc.weights (t + 1) c))
          (cc.moved (((last + 1 : Nat) : Int) - 1) (weightAfter cc.gcd cc.maxWeight (t + 1) c)) ∧
        cc.Exhausted (last + 1) (weightAfter cc.gcd cc.maxWeight (t + 1) c) := by
  induction t with
  | zero =>
    intro k c hex hne
    simp only [passes, weightAfter, List.append_nil] at hne ⊢
    exact WeightedRoundRobinLB.productive_pass cc hn hmx hcs honce k c hex hne
  | succ t ih =>
    intro k c hex hne
    have hw : weightAfter cc.gcd cc.maxWeight (t + 1 + 1) c
        = weightAfter cc.gcd cc.maxWeight (t + 1) (nextWeight cc.gcd cc.maxWeight c) := rfl
    have hp : passes cc.gcd cc.maxWeight cc.weights (t + 1 + 1) c
        = hitsFrom (nextWeight cc.gcd cc.maxWeight c) cc.weights 0
          ++ passes cc.gcd cc.maxWeight cc.weights (t + 1) (nextWeight cc.gcd cc.maxWeight c) := rfl
    rw [hw] at hne ⊢
    rw [hp]
    by_cases hH : hitsFrom (nextWeight cc.gcd cc.maxWeight c) cc.weights 0 = []
    · obtain ⟨⟨d, hd⟩, hex2⟩ := WeightedRoundRobinLB.idle_pass cc hn hmx k c hex hH
      obtain ⟨last, hl1, hl2, hl3⟩ := ih cc.clients.length _ hex2 hne
      refine ⟨last, hl1, ?_, hl3⟩
      rw [hH, List.nil_append]
      obtain ⟨m, hm⟩ : ∃ m, (passes cc.gcd cc.maxWeight cc.weights (t + 1)
          (nextWeight cc.gcd cc.maxWeight c)).length = m + 1 := by
        have := passes_ne_nil cc.gcd cc.maxWeight cc.weights t _ hne
        cases hP : passes cc.gcd cc.maxWeight cc.weights (t + 1) (nextWeight cc.gcd cc.maxWeight c) with
        | nil => exact absurd hP this
        | cons a l => exact ⟨l.length, rfl⟩
      rw [hm] at hl2 ⊢
      exact WeightedRoundRobinLB.GetsTo.skip (cc.moved ((k : Int) - 1) c)
        (cc.moved ((cc.clients.length : Int) - 1) (nextWeight cc.gcd cc.maxWeight c)) _ m d _
        honce honce hd hl2
    · obtain ⟨last1, _, hg1, hex1⟩ :=
        WeightedRoundRobinLB.productive_pass cc hn hmx hcs honce k c hex hH
      obtain ⟨last, hl1, hl2, hl3⟩ := ih (last1 + 1) _ hex1 hne
      refine ⟨last, hl1, ?_, hl3⟩
      rw [List.length_append, WeightedRoundRobinLB.outsOf_append]
      exact WeightedRoundRobinLB.GetsTo.trans hg1 hl2

/-! ### The passes of one cycle, as lists of indices -/

theorem hitsFrom_count (c : Nat) (hc : 0 < c) (ws : List Nat) :
    ∀ (k j : Nat), (hitsFrom c ws k).count j
      = if k ≤ j ∧ c ≤ (ws[j - k]?).getD 0 then 1 else 0 := by
  induction ws with
  | nil =>
    intro k j
    have : ¬ (k ≤ j ∧ c ≤ ((([] : List Nat)[j - k]?).getD 0)) := by
      rw [List.getElem?_nil]
      show ¬ (k ≤ j ∧ c ≤ 0)
      omega
    rw [if_neg this]
    rfl
  | cons w rest ih =>
    intro k j
    have hrec := ih (k + 1) j
    unfold hitsFrom
    rcases Nat.lt_trichotomy j k with hjk | hjk | hjk
    · have h1 : ¬ (k ≤ j ∧ c ≤ ((w :: rest)[j - k]?).getD 0) := by omega
      have h2 : ¬ (k + 1 ≤ j ∧ c ≤ (rest[j - (k + 1)]?).getD 0) := by omega
      rw [if_neg h1]
      rw [if_neg h2] at hrec
      by_cases hw : w ≥ c
      · rw [if_pos hw, List.count_cons_of_ne (by omega), hrec]
      · rw [if_neg hw, hrec]
    · subst hjk
      have h2 : ¬ (j + 1 ≤ j ∧ c ≤ (rest[j - (j + 1)]?).getD 0) := by omega
      rw [if_neg h2] at hrec
      have hget : ((w :: rest)[j - j]?).getD 0 = w := by
        rw [Nat.sub_self, List.getElem?_cons_zero]
        rfl
      rw [hget]
      by_cases hw : w ≥ c
      · rw [if_pos hw, List.count_cons_self, hrec, if_pos ⟨le_refl _, hw⟩]
      · rw [if_neg hw, hrec, if_neg (fun h => hw h.2)]
    · have hidx : j - k = (j - (k + 1)) + 1 := by omega
      have hget : ((w :: rest)[j - k]?).getD 0 = (rest[j - (k + 1)]?).getD 0 := by
        rw [hidx, List.getElem?_cons_succ]
      rw [hget]
      have hcnt : List.count j (if w ≥ c then k :: hitsFrom c rest (k + 1)
          else hitsFrom c rest (k + 1)) = List.count j (hitsFrom c rest (k + 1)) := by
        by_cases hw : w ≥ c
        · rw [if_pos hw, List.count_cons_of_ne (by omega)]
        · rw [if_neg hw]
      rw [hcnt, hrec]
      by_cases hcond : c ≤ (rest[j - (k + 1)]?).getD 0
      · rw [if_pos ⟨by omega, hcond⟩, if_pos ⟨by omega, hcond⟩]
      · rw [if_neg (fun h => hcond h.2), if_neg (fun h => hcond h.2)]

theorem hitsFrom_mem (c : Nat) (ws : List Nat) :
    ∀ (k x : Nat), x ∈ hitsFrom c ws k → k ≤ x ∧ x < k + ws.length := by
  induction ws with
  | nil => intro k x h; simp [hitsFrom] at h
  | cons w rest ih =>
    intro k x h
    unfold hitsFrom at h
    split_ifs at h
    · rcases List.mem_cons.mp h with h | h
      · subst h
        simp only [List.length_cons]
        omega
      · have := ih (k + 1) x h
        simp only [List.length_cons]
        omega
    · have := ih (k + 1) x h
      simp only [List.length_cons]
      omega

theorem hitsFrom_nil_of_lt (c : Nat) (ws : List Nat) (h : ∀ w ∈ ws, w < c) :
    ∀ k, hitsFrom c ws k = [] := by
  induction ws with
  | nil => intro k; rfl
  | cons w rest ih =>
    intro k
    unfold hitsFrom
    have hw : ¬ (w ≥ c) := by
      have := h w (by simp)
      omega
    simp only [hw, if_false]
    exact ih (fun x hx => h x (List.mem_cons_of_mem _ hx)) (k + 1)

theorem hitsFrom_ne_nil_of_le (c : Nat) (ws : List Nat) (hne : ws ≠ [])
    (h : ∀ w ∈ ws, c ≤ w) : hitsFrom c ws 0 ≠ [] := by
  cases ws with
  | nil => exact absurd rfl hne
  | cons w rest =>
    unfold hitsFrom
    have := h w (by simp)
    simp [this]

theorem nextWeight_sub (g mx c : Nat) (hg : g < c) (hc : c < 65536) :
    nextWeight g mx c = c - g := by
  unfold nextWeight
  have : (c + 65536 - g) % 65536 = c - g := by omega
  rw [this]
  have : ¬ (c - g ≤ 0) := by omega
  simp [this]

theorem nextWeight_self (g mx : Nat) : nextWeight g mx g = mx := by
  unfold nextWeight
  have : (g + 65536 - g) % 65536 = 0 := by omega
  rw [this]
  simp

theorem nextWeight_wrap (g mx c : Nat) (hc : c < g) (hg : g < 65536) :
    nextWeight g mx c = c + 65536 - g := by
  unfold nextWeight
  have : (c + 65536 - g) % 65536 = c + 65536 - g := by omega
  rw [this]
  have : ¬ (c + 65536 - g ≤ 0) := by omega
  simp [this]

theorem passes_add (g mx : Nat) (ws : List Nat) (t1 : Nat) :
    ∀ (t2 c : Nat), passes g mx ws (t1 + t2) c
      = passes g mx ws t1 c ++ passes g mx ws t2 (weightAfter g mx t1 c) := by
  induction t1 with
  | zero => intro t2 c; simp [passes, weightAfter]
  | succ t1 ih =>
    intro t2 c
    have : t1 + 1 + t2 = (t1 + t2) + 1 := by omega
    rw [this]
    simp only [passes, weightAfter, ih, List.append_assoc]

theorem weightAfter_add (g mx : Nat) (t1 : Nat) :
    ∀ (t2 c : Nat), weightAfter g mx (t1 + t2) c
      = weightAfter g mx t2 (weightAfter g mx t1 c) := by
  induction t1 with
  | zero => intro t2 c; simp [weightAfter]
  | succ t1 ih =>
    intro t2 c
    have : t1 + 1 + t2 = (t1 + t2) + 1 := by omega
    rw [this]
    simp only [weightAfter, ih]

theorem passes_mem (g mx : Nat) (ws : List Nat) (t : Nat) :
    ∀ (c x : Nat), x ∈ passes g mx ws t c → x < ws.length := by
  induction t with
  | zero => intro c x h; simp [passes] at h
  | succ t ih =>
    intro c x h
    rw [passes, List.mem_append] at h
    rcases h with h | h
    · have := hitsFrom_mem _ ws 0 x h
      omega
    · exact ih _ x h

/-- Passes above the largest weight select nothing; the current weight comes down in
steps of `g` until it is within `g` of the largest weight. -/
theorem passes_descent (g mx : Nat) (ws : List Nat) (hok : WeightsOk g mx ws) :
    ∀ c, mx < c → c < 65536 →
      ∃ T ct, weightAfter g mx (T + 1) c = ct ∧ mx < ct + g ∧ ct ≤ mx ∧ 0 < ct ∧
        passes g mx ws (T + 1) c = hitsFrom ct ws 0 := by
  obtain ⟨hg, hmx, hmem, hall⟩ := hok
  have hgmx : g ≤ mx := Nat.le_of_dvd (hall mx hmem).2.1 (hall mx hmem).1
  intro c
  induction c using Nat.strong_induction_on with
  | _ c ih =>
    intro hc1 hc2
    have hnext : nextWeight g mx c = c - g := nextWeight_sub g mx c (by omega) hc2
    by_cases htop : c - g ≤ mx
    · refine ⟨0, c - g, ?_, by omega, htop, by omega, ?_⟩
      · simp only [weightAfter, hnext]
      · simp only [passes, hnext, List.append_nil]
    · obtain ⟨T, ct, h1, h2, h3, h4, h5⟩ := ih (c - g) (by omega) (by omega) (by omega)
      refine ⟨T + 1, ct, ?_, h2, h3, h4, ?_⟩
      · rw [weightAfter, hnext]
        exact h1
      · rw [passes, hnext, h5]
        rw [hitsFrom_nil_of_lt (c - g) ws (fun w hw => by have := (hall w hw).2.2; omega) 0]
        rfl

/-- From the end of a cycle (current weight at most `g`) the passes select nothing until
the current weight is within `g` of the largest weight. -/
theorem passes_top (g mx : Nat) (ws : List Nat) (hok : WeightsOk g mx ws) (c : Nat)
    (hc : c ≤ g) :
    ∃ T ct, weightAfter g mx (T + 1) c = ct ∧ mx < ct + g ∧ ct ≤ mx ∧ 0 < ct ∧
      passes g mx ws (T + 1) c = hitsFrom ct ws 0 := by
  have hok2 := hok
  obtain ⟨hg, hmx, hmem, hall⟩ := hok
  have hgmx : g ≤ mx := Nat.le_of_dvd (hall mx hmem).2.1 (hall mx hmem).1
  rcases Nat.eq_or_lt_of_le hc with heq | hlt
  · subst heq
    refine ⟨0, mx, ?_, by omega, le_refl _, by omega, ?_⟩
    · simp only [weightAfter, nextWeight_self]
    · simp only [passes, nextWeight_self, List.append_nil]
  · have hnext : nextWeight g mx c = c + 65536 - g := nextWeight_wrap g mx c hlt (by omega)
    by_cases htop : c + 65536 - g ≤ mx
    · refine ⟨0, c + 65536 - g, ?_, by omega, htop, by omega, ?_⟩
      · simp only [weightAfter, hnext]
      · simp only [passes, hnext, List.append_nil]
    · obtain ⟨T, ct, h1, h2, h3, h4, h5⟩ :=
        passes_descent g mx ws hok2 (c + 65536 - g) (by omega) (by omega)
      refine ⟨T + 1, ct, ?_, h2, h3, h4, ?_⟩
      · rw [weightAfter, hnext]
        exact h1
      · rw [passes, hnext, h5]
        rw [hitsFrom_nil_of_lt (c + 65536 - g) ws
          (fun w hw => by have := (hall w hw).2.2; omega) 0]
        rfl

/-- A current weight at level `m` (within `g` below `m * g`) is reached by exactly the
weights `q * g` with `m ≤ q`. -/
theorem level_iff (g m c q : Nat) (h1 : c ≤ m * g) (h2 : m * g < c + g) :
    c ≤ q * g ↔ m ≤ q := by
  constructor
  · intro h
    by_contra hcon
    have hq : q + 1 ≤ m := by omega
    have := Nat.mul_le_mul_right g hq
    rw [Nat.add_mul, Nat.one_mul] at this
    omega
  · intro h
    have := Nat.mul_le_mul_right g h
    omega

/-- The passes below the top level: the current weight goes down by `g` per pass, and a
pool of weight `w` is selected in the passes at the levels not above `w / g`. -/
theorem passes_levels (g mx : Nat) (ws : List Nat) (hok : WeightsOk g mx ws) (t : Nat) :
    ∀ (m c : Nat), c ≤ m * g → m * g < c + g → t + 1 ≤ m → c < 65536 →
      weightAfter g mx t c + t * g = c ∧
      ∀ j w, ws[j]? = some w →
        (passes g mx ws t c).count j = min (w / g) (m - 1) - min (w / g) (m - 1 - t) := by
  obtain ⟨hg, hmx, hmem, hall⟩ := hok
  induction t with
  | zero =>
    intro m c _ _ _ _
    refine ⟨by simp [weightAfter], ?_⟩
    intro j w _
    simp [passes]
  | succ t ih =>
    intro m c h1 h2 ht hc
    obtain ⟨m2, hm2⟩ : ∃ m2, m = m2 + 1 := ⟨m - 1, by omega⟩
    subst hm2
    have hmul : (m2 + 1) * g = m2 * g + g := by rw [Nat.add_mul, Nat.one_mul]
    have hm2g : g ≤ m2 * g := Nat.le_mul_of_pos_left g (by omega)
    rw [hmul] at h1 h2
    have hnext : nextWeight g mx c = c - g := nextWeight_sub g mx c (by omega) hc
    obtain ⟨ih1, ih2⟩ := ih m2 (c - g) (by omega) (by omega) (by omega) (by omega)
    refine ⟨?_, ?_⟩
    · rw [weightAfter, hnext, Nat.add_mul, Nat.one_mul]
      omega
    · intro j w hw
      have hwmem : w ∈ ws := List.getElem?_mem hw
      obtain ⟨hdvd, hwpos, _⟩ := hall w hwmem
      have hwq : w / g * g = w := Nat.div_mul_cancel hdvd
      rw [passes, hnext, List.count_append, ih2 j w hw,
        hitsFrom_count (c - g) (by omega) ws 0 j]
      have hget : (ws[j - 0]?).getD 0 = w := by
        rw [Nat.sub_zero, hw]
        rfl
      rw [hget]
      have hlev := level_iff g m2 (c - g) (w / g) (by omega) (by omega)
      rw [hwq] at hlev
      by_cases hcw : c - g ≤ w
      · have := hlev.mp hcw
        rw [if_pos ⟨Nat.zero_le _, hcw⟩]
        simp only [Nat.add_sub_cancel]
        omega
      · have : ¬ (m2 ≤ w / g) := fun h => hcw (hlev.mpr h)
        rw [if_neg (fun h => hcw h.2)]
        simp only [Nat.add_sub_cancel]
        omega

/-- One cycle: from a current weight of at most `g`, after some number of passes the
current weight is again at most `g` (and positive), the last of these passes selects a
pool, and altogether the pool at index `j` with weight `w` is selected `w / g` times. -/
theorem cycle_passes (g mx : Nat) (ws : List Nat) (hok : WeightsOk g mx ws) (c : Nat)
    (hc : c ≤ g) :
    ∃ T, 0 < weightAfter g mx (T + 1) c ∧ weightAfter g mx (T + 1) c ≤ g ∧
      hitsFrom (weightAfter g mx (T + 1) c) ws 0 ≠ [] ∧
      ∀ j w, ws[j]? = some w → (passes g mx ws (T + 1) c).count j = w / g := by
  obtain ⟨T1, ct, h1, h2, h3, h4, h5⟩ := passes_top g mx ws hok c hc
  have hok2 := hok
  obtain ⟨hg, hmx, hmem, hall⟩ := hok
  have hdvd : g ∣ mx := (hall mx hmem).1
  have hM : mx / g * g = mx := Nat.div_mul_cancel hdvd
  have hMpos : 1 ≤ mx / g := by
    have : 0 < mx / g := Nat.div_pos (Nat.le_of_dvd (hall mx hmem).2.1 hdvd) hg
    omega
  obtain ⟨m2, hm2⟩ : ∃ m2, mx / g = m2 + 1 := ⟨mx / g - 1, by omega⟩
  have hmul : (m2 + 1) * g = m2 * g + g := by rw [Nat.add_mul, Nat.one_mul]
  rw [hm2, hmul] at hM
  obtain ⟨p1, p2⟩ := passes_levels g mx ws hok2 m2 (m2 + 1) ct (by omega) (by omega)
    (le_refl _) (by omega)
  have hT : T1 + m2 + 1 = (T1 + 1) + m2 := by omega
  refine ⟨T1 + m2, ?_, ?_, ?_, ?_⟩
  · rw [hT, weightAfter_add, h1]
    omega
  · rw [hT, weightAfter_add, h1]
    omega
  · rw [hT, weightAfter_add, h1]
    apply hitsFrom_ne_nil_of_le
    · exact List.ne_nil_of_mem hmem
    · intro w hw
      have := Nat.le_of_dvd (hall w hw).2.1 (hall w hw).1
      omega
  · intro j w hw
    have hwmem : w ∈ ws := List.getElem?_mem hw
    obtain ⟨hwd, hwpos, hwle⟩ := hall w hwmem
    have hwq : w / g * g = w := Nat.div_mul_cancel hwd
    have hq : w / g ≤ m2 + 1 := by
      rw [← hm2]
      exact Nat.div_le_div_right hwle
    rw [hT, passes_add, h1, List.count_append, h5, p2 j w hw,
      hitsFrom_count ct h4 ws 0 j]
    have hget : (ws[j - 0]?).getD 0 = w := by
      rw [Nat.sub_zero, hw]
      rfl
    rw [hget]
    have hlev := level_iff g (m2 + 1) ct (w / g) (by omega) (by omega)
    rw [hwq] at hlev
    have hmin0 : min (w / g) (m2 + 1 - 1 - m2) = 0 := by
      have : m2 + 1 - 1 - m2 = 0 := by omega
      rw [this]
      exact Nat.min_eq_right (Nat.zero_le _)
    rw [hmin0, Nat.sub_zero, Nat.add_sub_cancel]
    by_cases hcw : ct ≤ w
    · have hq2 := hlev.mp hcw
      rw [if_pos ⟨Nat.zero_le _, hcw⟩, Nat.min_eq_right (by omega)]
      omega
    · have hq2 : ¬ (m2 + 1 ≤ w / g) := fun h => hcw (hlev.mpr h)
      rw [if_neg (fun h => hcw h.2), Nat.min_eq_left (by omega)]
      omega

theorem length_eq_sum_count (l : List Nat) (n : Nat) (h : ∀ x ∈ l, x < n) :
    l.length = ∑ j in Finset.range n, l.count j := by
  induction l with
  | nil => simp
  | cons x l ih =>
    have hx : x < n := h x (by simp)
    have hl : ∀ y ∈ l, y < n := fun y hy => h y (List.mem_cons_of_mem _ hy)
    have hsum : ∑ j in Finset.range n, (x :: l).count j
        = ∑ j in Finset.range n, (l.count j + if j = x then 1 else 0) := by
      apply Finset.sum_congr rfl
      intro j _
      rw [List.count_cons]
      by_cases hjx : j = x
      · subst hjx; simp
      · have : ¬ (x = j) := fun e => hjx e.symm
        simp [hjx, this]
    rw [hsum, Finset.sum_add_distrib, ← ih hl, Finset.sum_ite_eq' (Finset.range n) x]
    simp [hx]

theorem sum_map_eq_sum_range (ws : List Nat) (f : Nat → Nat) :
    (ws.map f).sum = ∑ j in Finset.range ws.length, f ((ws[j]?).getD 0) := by
  induction ws with
  | nil => simp
  | cons w rest ih =>
    rw [List.map_cons, List.sum_cons, List.length_cons, Finset.sum_range_succ', ih]
    have : ∀ j, ((w :: rest)[j + 1]?).getD 0 = (rest[j]?).getD 0 := by
      intro j
      rw [List.getElem?_cons_succ]
    simp only [this, List.getElem?_cons_zero, Option.getD_some]
    omega

theorem sum_div_of_dvd (g : Nat) (ws : List Nat) (h : ∀ w ∈ ws, g ∣ w) :
    (ws.map (fun w => w / g)).sum = ws.sum / g := by
  induction ws with
  | nil => simp
  | cons w rest ih =>
    rw [List.map_cons, List.sum_cons, List.sum_cons, ih (fun x hx => h x (List.mem_cons_of_mem _ hx)),
      Nat.add_div_of_dvd_right (h w (by simp))]

/-- The number of selections of one cycle. -/
theorem cycle_length (g : Nat) (ws : List Nat) (l : List Nat)
    (hall : ∀ w ∈ ws, g ∣ w) (hmem : ∀ x ∈ l, x < ws.length)
    (hcount : ∀ j w, ws[j]? = some w → l.count j = w / g) :
    l.length = ws.sum / g := by
  rw [length_eq_sum_count l ws.length hmem, ← sum_div_of_dvd g ws hall,
    sum_map_eq_sum_range ws (fun w => w / g)]
  apply Finset.sum_congr rfl
  intro j hj
  have hj2 : j < ws.length := Finset.mem_range.mp hj
  have hget : ws[j]? = some ws[j] := List.getElem?_eq_getElem hj2
  rw [hcount j ws[j] hget, hget]
  rfl

/-- The Get calls of one cycle, started from a state with nothing left in the running
pass and a current weight of at most `gcd`: `sum / gcd` calls return, the pool at index
`j` exactly `weight j / gcd` times, and the balancer is again in such a state. -/
theorem WeightedRoundRobinLB.gets_cycle (cc : WeightedRoundRobinLB)
    (hn : 0 < cc.clients.length) (hcs : cc.cs.length = cc.clients.length)
    (honce : cc.once = true) (hok : WeightsOk cc.gcd cc.maxWeight cc.weights)
    (k c : Nat) (hex : cc.Exhausted k c) (hc : c ≤ cc.gcd) :
    ∃ (idxs : List Nat) (k2 c2 : Nat),
      (cc.moved ((k : Int) - 1) c).GetsTo (cc.weights.sum / cc.gcd) (cc.outsOf idxs)
        (cc.moved ((k2 : Int) - 1) c2) ∧
      cc.Exhausted k2 c2 ∧ c2 ≤ cc.gcd ∧
      idxs.length = cc.weights.sum / cc.gcd ∧
      (∀ x ∈ idxs, x < cc.clients.length) ∧
      ∀ j w, cc.weights[j]? = some w → idxs.count j = w / cc.gcd := by
  have hmx : 0 < cc.maxWeight := by
    obtain ⟨_, _, hmem, hall⟩ := hok
    exact lt_of_lt_of_le (hall _ hmem).2.1 (le_refl _)
  obtain ⟨T, h1, h2, h3, h4⟩ := cycle_passes cc.gcd cc.maxWeight cc.weights hok c hc
  obtain ⟨last, _, hg, hex2⟩ := WeightedRoundRobinLB.gets_passes cc hn hmx hcs honce T k c hex h3
  have hwl : cc.weights.length = cc.clients.length := by simp [WeightedRoundRobinLB.weights]
  have hmem : ∀ x ∈ passes cc.gcd cc.maxWeight cc.weights (T + 1) c, x < cc.weights.length :=
    fun x hx => passes_mem _ _ _ _ _ x hx
  have hlen := cycle_length cc.gcd cc.weights _ (fun w hw => (hok.2.2.2 w hw).1) hmem h4
  refine ⟨passes cc.gcd cc.maxWeight cc.weights (T + 1) c, last + 1,
    weightAfter cc.gcd cc.maxWeight (T + 1) c, ?_, hex2, h2, hlen, ?_, h4⟩
  · rw [← hlen]
    exact hg
  · intro x hx
    rw [← hwl]
    exact hmem x hx

/-- The Get calls of `B` successive cycles. -/
theorem WeightedRoundRobinLB.gets_blocks (cc : WeightedRoundRobinLB)
    (hn : 0 < cc.clients.length) (hcs : cc.cs.length = cc.clients.length)
    (honce : cc.once = true) (hok : WeightsOk cc.gcd cc.maxWeight cc.weights) (B : Nat) :
    ∀ (k c : Nat), cc.Exhausted k c → c ≤ cc.gcd →
      ∃ (idxs : List Nat) (k2 c2 : Nat),
        (cc.moved ((k : Int) - 1) c).GetsTo (B * (cc.weights.sum / cc.gcd)) (cc.outsOf idxs)
          (cc.moved ((k2 : Int) - 1) c2) ∧
        idxs.length = B * (cc.weights.sum / cc.gcd) ∧
        (∀ x ∈ idxs, x < cc.clients.length) ∧
        ∀ b, b < B → ∀ j w, cc.weights[j]? = some w →
          ((idxs.drop (b * (cc.weights.sum / cc.gcd))).take (cc.weights.sum / cc.gcd)).count j
            = w / cc.gcd := by
  induction B with
  | zero =>
    intro k c _ _
    refine ⟨[], k, c, ?_, by simp, by simp, by intro b hb; omega⟩
    rw [Nat.zero_mul]
    exact WeightedRoundRobinLB.GetsTo.zero _
  | succ B ih =>
    intro k c hex hc
    obtain ⟨l1, k1, c1, g1, hex1, hc1, hlen1, hmem1, hcount1⟩ :=
      WeightedRoundRobinLB.gets_cycle cc hn hcs honce hok k c hex hc
    obtain ⟨l2, k2, c2, g2, hlen2, hmem2, hcount2⟩ := ih k1 c1 hex1 hc1
    refine ⟨l1 ++ l2, k2, c2, ?_, ?_, ?_, ?_⟩
    · have := WeightedRoundRobinLB.GetsTo.trans g1 g2
      rw [← WeightedRoundRobinLB.outsOf_append] at this
      have hm : (B + 1) * (cc.weights.sum / cc.gcd)
          = cc.weights.sum / cc.gcd + B * (cc.weights.sum / cc.gcd) := by
        rw [Nat.add_mul, Nat.one_mul, Nat.add_comm]
      rw [hm]
      exact this
    · rw [List.length_append, hlen1, hlen2, Nat.add_mul, Nat.one_mul, Nat.add_comm]
    · intro x hx
      rcases List.mem_append.mp hx with h | h
      · exact hmem1 x h
      · exact hmem2 x h
    · intro b hb j w hw
      cases b with
      | zero =>
        rw [Nat.zero_mul, List.drop_zero, ← hlen1, List.take_left]
        exact hcount1 j w hw
      | succ b =>
        have hd : (b + 1) * (cc.weights.sum / cc.gcd) = l1.length + b * (cc.weights.sum / cc.gcd) := by
          rw [hlen1, Nat.add_mul, Nat.one_mul, Nat.add_comm]
        rw [hd, List.drop_append]
        exact hcount2 b (by omega) j w hw

/-! ### gcdx and getMaxWeight -/

theorem gcdx_inner_spec (f : Nat) :
    ∀ (x y : Nat), 0 < y → y < f → gcdx.inner f x y = Run.done (Nat.gcd x y) := by
  induction f with
  | zero => intro x y _ h; omega
  | succ f ih =>
    intro x y hy hf
    have hy0 : ¬ y = 0 := by omega
    have hrec : Nat.gcd x y = Nat.gcd y (x % y) := by
      rw [Nat.gcd_comm x y, Nat.gcd_rec y x, Nat.gcd_comm]
    unfold gcdx.inner
    simp only [hy0, if_false]
    by_cases hm : x % y > 0
    · simp only [hm, if_true]
      rw [ih y (x % y) hm (by have := Nat.mod_lt x hy; omega), hrec]
    · simp only [hm, if_false]
      have h0 : x % y = 0 := by omega
      rw [hrec, h0, Nat.gcd_zero_right]

theorem gcdx_outer_spec (rest : List Nat) :
    ∀ y, 0 < y → gcdx.outer y rest = Run.done (Nat.gcd y (rest.foldr Nat.gcd 0)) := by
  induction rest with
  | nil => intro y _; simp [gcdx.outer]
  | cons x rest ih =>
    intro y hy
    unfold gcdx.outer
    rw [gcdx_inner_spec (y + 1) x y hy (by omega)]
    simp only [Run.bind]
    rw [ih (Nat.gcd x y) (Nat.gcd_pos_of_pos_right x hy), List.foldr_cons,
      Nat.gcd_comm x y, Nat.gcd_assoc]

/-- On positive weights gcdx returns their greatest common divisor. -/
theorem gcdx_spec (ws : List Nat) (hpos : ∀ w ∈ ws, 0 < w) :
    gcdx ws = Run.done (ws.foldr Nat.gcd 0) := by
  cases ws with
  | nil => rfl
  | cons y rest =>
    show gcdx.outer y rest = _
    rw [gcdx_outer_spec rest y (hpos y (by simp)), List.foldr_cons]

theorem foldr_gcd_dvd (ws : List Nat) : ∀ w ∈ ws, ws.foldr Nat.gcd 0 ∣ w := by
  induction ws with
  | nil => intro w h; simp at h
  | cons x rest ih =>
    intro w hw
    rw [List.foldr_cons]
    rcases List.mem_cons.mp hw with h | h
    · subst h; exact Nat.gcd_dvd_left _ _
    · exact Nat.dvd_trans (Nat.gcd_dvd_right _ _) (ih w h)

theorem foldr_gcd_pos (ws : List Nat) (hne : ws ≠ []) (hpos : ∀ w ∈ ws, 0 < w) :
    0 < ws.foldr Nat.gcd 0 := by
  cases ws with
  | nil => exact absurd rfl hne
  | cons x rest =>
    rw [List.foldr_cons]
    exact Nat.gcd_pos_of_pos_left _ (hpos x (by simp))

theorem getMaxWeight_foldl (nodes : List Node) :
    ∀ acc, acc ≤ nodes.foldl (fun max v => if v.Weight > max then v.Weight else max) acc ∧
      (∀ n ∈ nodes, n.Weight ≤ nodes.foldl (fun max v => if v.Weight > max then v.Weight else max) acc) ∧
      (nodes.foldl (fun max v => if v.Weight > max then v.Weight else max) acc = acc ∨
        nodes.foldl (fun max v => if v.Weight > max then v.Weight else max) acc
          ∈ nodes.map Node.Weight) := by
  induction nodes with
  | nil => intro acc; simp
  | cons v rest ih =>
    intro acc
    rw [List.foldl_cons]
    obtain ⟨h1, h2, h3⟩ := ih (if v.Weight > acc then v.Weight else acc)
    by_cases hv : v.Weight > acc
    · simp only [hv, if_true] at h1 h2 h3 ⊢
      refine ⟨by omega, ?_, ?_⟩
      · intro n hn
        rcases List.mem_cons.mp hn with h | h
        · subst h; exact h1
        · exact h2 n h
      · right
        rw [List.map_cons]
        rcases h3 with h3 | h3
        · rw [h3]; exact List.mem_cons_self _ _
        · exact List.mem_cons_of_mem _ h3
    · simp only [hv, if_false] at h1 h2 h3 ⊢
      refine ⟨h1, ?_, ?_⟩
      · intro n hn
        rcases List.mem_cons.mp hn with h | h
        · subst h; omega
        · exact h2 n h
      · rcases h3 with h3 | h3
        · left; exact h3
        · right
          rw [List.map_cons]
          exact List.mem_cons_of_mem _ h3

/-- On a non-empty list of positive weights getMaxWeight is the largest weight. -/
theorem getMaxWeight_spec (nodes : List Node) (hne : nodes ≠ [])
    (hpos : ∀ n ∈ nodes, 0 < n.Weight) :
    getMaxWeight nodes ∈ nodes.map Node.Weight ∧ ∀ n ∈ nodes, n.Weight ≤ getMaxWeight nodes := by
  obtain ⟨_, h2, h3⟩ := getMaxWeight_foldl nodes 0
  refine ⟨?_, h2⟩
  rcases h3 with h3 | h3
  · obtain ⟨v, rest, hv⟩ := List.exists_cons_of_ne_nil hne
    have hvm : v ∈ nodes := by rw [hv]; simp
    have := h2 v hvm
    have := hpos v hvm
    omega
  · exact h3

/-! ### Construction from a static configuration -/

theorem createClients_spec (nodes : List Node) (opts : Opts) (heap : Nat) :
    (createClients nodes opts heap).1.length = nodes.length ∧
    (createClients nodes opts heap).2 = heap + nodes.length ∧
    ∀ i (hi : i < nodes.length),
      (createClients nodes opts heap).1[i]? = some (NewHostClient nodes[i] opts (heap + i)).1 := by
  unfold createClients
  by_cases h : nodes.length = 0
  · have : nodes = [] := List.length_eq_zero.mp h
    subst this
    simp
  · simp only [h, if_false]
    exact createClients_loop_spec nodes opts heap

theorem createClients_equals (nodes : List Node) (opts : Opts) (heap : Nat) :
    equals (createClients nodes opts heap).1 nodes = true := by
  obtain ⟨h1, _, h3⟩ := createClients_spec nodes opts heap
  rw [equals_iff]
  refine ⟨h1, ?_⟩
  intro n hn
  obtain ⟨i, hi, hni⟩ := List.getElem_of_mem hn
  refine ⟨(NewHostClient nodes[i] opts (heap + i)).1, List.getElem?_mem (h3 i hi), ?_⟩
  rw [NewHostClient_Name, hni]

/-- Reconciling freshly created pools with the node list they were created from changes
nothing. -/
theorem updateClients_createClients (nodes : List Node) (opts : Opts) (heap heap2 : Nat) :
    updateClients (createClients nodes opts heap).1 nodes opts heap2
      = ⟨(createClients nodes opts heap).1, false, heap2⟩ := by
  unfold updateClients
  by_cases h : nodes.length = 0
  · simp [h]
  · have h1 : (createClients nodes opts heap).1.length ≠ 0 := by
      rw [(createClients_spec nodes opts heap).1]
      exact h
    simp [h, h1, createClients_equals]

theorem watcher_watch_static (w : watcher) (config : Config) (input : WatchInput)
    (h : config.Typ = TypeStatic) :
    w.watch config input = Run.done (w.nodes, { w with config := config }) := by
  unfold watcher.watch
  have h1 : ¬ (config.Typ = TypeDNS) := by rw [h]; decide
  have h2 : ¬ (config.Typ = TypeConsul) := by rw [h]; decide
  simp only [h1, h2, if_false]

/-- The balancer NewWeightedRoundRobinLB builds from a static configuration with positive
weights. -/
theorem NewWeightedRoundRobinLB_static (config : Config) (input : WatchInput) (heap : Nat)
    (hstatic : config.Typ = TypeStatic) (hne : config.NodeList ≠ [])
    (hpos : ∀ n ∈ config.NodeList, 0 < n.Weight) :
    NewWeightedRoundRobinLB config input heap = Run.done
      { clients := (createClients config.NodeList config.Opts heap).1
        config := config
        cs := initCs (createClients config.NodeList config.Opts heap).1 none
        watcher := { newWatcher config with config := config }
        i := -1
        cw := 0
        gcd := (config.NodeList.map Node.Weight).foldr Nat.gcd 0
        maxWeight := getMaxWeight config.NodeList
        heap := (createClients config.NodeList config.Opts heap).2 } := by
  have hlen : (createClients config.NodeList config.Opts heap).1.length ≠ 0 := by
    rw [(createClients_spec config.NodeList config.Opts heap).1]
    exact fun h => hne (List.length_eq_zero.mp h)
  have hg := gcdx_spec (config.NodeList.map Node.Weight) (by
    intro w hw
    obtain ⟨n, hn, hnw⟩ := List.mem_map.mp hw
    rw [← hnw]
    exact hpos n hn)
  simp only [NewWeightedRoundRobinLB, WeightedRoundRobinLB.fetchOnce,
    watcher_watch_static _ config input hstatic, Run.bind, newWatcher,
    updateClients_createClients, hg, WeightedRoundRobinLB.init, hlen, if_false, Run.ofOption]

theorem createClients_loop_weights (nodes : List Node) (opts : Opts) :
    ∀ heap, (createClients.loop nodes opts heap).1.map (fun c => c.node.Weight)
      = nodes.map Node.Weight := by
  induction nodes with
  | nil => intro heap; rfl
  | cons n rest ih =>
    intro heap
    simp only [createClients.loop, List.map_cons, ih]
    congr 1
    simp only [NewHostClient, Node.afterString]
    split <;> rfl

theorem createClients_weights (nodes : List Node) (opts : Opts) (heap : Nat) :
    (createClients nodes opts heap).1.map (fun c => c.node.Weight) = nodes.map Node.Weight := by
  unfold createClients
  by_cases h : nodes.length = 0
  · have : nodes = [] := List.length_eq_zero.mp h
    subst this
    simp
  · simp only [h, if_false]
    exact createClients_loop_weights nodes opts heap

theorem readyWeighted_weights (config : Config) (heap : Nat) :
    (readyWeighted config heap).weights
      = config.NodeList.map Node.Weight :=
  createClients_weights config.NodeList config.Opts heap

theorem freshWeighted_ok (config : Config) (hne : config.NodeList ≠ [])
    (hw : ∀ n ∈ config.NodeList, 0 < n.Weight ∧ n.Weight < 65536) :
    WeightsOk ((config.NodeList.map Node.Weight).foldr Nat.gcd 0) (getMaxWeight config.NodeList)
      (config.NodeList.map Node.Weight) := by
  have hpos : ∀ w ∈ config.NodeList.map Node.Weight, 0 < w := by
    intro w hw2
    obtain ⟨n, hn, hnw⟩ := List.mem_map.mp hw2
    rw [← hnw]
    exact (hw n hn).1
  obtain ⟨hm1, hm2⟩ := getMaxWeight_spec config.NodeList hne (fun n hn => (hw n hn).1)
  refine ⟨foldr_gcd_pos _ (by simpa using hne) hpos, ?_, hm1, ?_⟩
  · obtain ⟨n, hn, hnw⟩ := List.mem_map.mp hm1
    rw [← hnw]
    exact (hw n hn).2
  · intro w hw2
    refine ⟨foldr_gcd_dvd _ w hw2, hpos w hw2, ?_⟩
    obtain ⟨n, hn, hnw⟩ := List.mem_map.mp hw2
    rw [← hnw]
    exact hm2 n hn

/-- On the fresh balancer the first Get runs `init` through `once.Do`; from then on the
balancer is the fresh one with `once` done. -/
theorem freshWeighted_gets (config : Config) (heap : Nat) (hne : config.NodeList ≠ [])
    (f m : Nat) :
    WeightedRoundRobinLB.gets f (m + 1) (freshWeighted config heap)
      = WeightedRoundRobinLB.gets f (m + 1)
          (readyWeighted config heap) := by
  have hlen : (createClients config.NodeList config.Opts heap).1.length ≠ 0 := by
    rw [(createClients_spec config.NodeList config.Opts heap).1]
    exact fun h => hne (List.length_eq_zero.mp h)
  have hget : WeightedRoundRobinLB.get f (freshWeighted config heap)
      = WeightedRoundRobinLB.get f
          (readyWeighted config heap) := by
    simp [WeightedRoundRobinLB.get, readyWeighted, freshWeighted, WeightedRoundRobinLB.init,
      hlen, Run.ofOption, Run.bind]
  simp only [WeightedRoundRobinLB.gets, hget]

/-- The Get calls of the first `B` cycles of a fresh static balancer, as indices. -/
theorem freshWeighted_blocks (config : Config) (heap : Nat) (hne : config.NodeList ≠ [])
    (hw : ∀ n ∈ config.NodeList, 0 < n.Weight ∧ n.Weight < 65536) (B : Nat) :
    ∃ F, ∀ f, F ≤ f → ∃ (idxs : List Nat) (lb2 : WeightedRoundRobinLB),
      WeightedRoundRobinLB.gets f
          (B * ((config.NodeList.map Node.Weight).sum / (freshWeighted config heap).gcd))
          (freshWeighted config heap)
        = Run.done (idxs.map (fun j => (freshWeighted config heap).cs[j]?), lb2) ∧
      idxs.length = B * ((config.NodeList.map Node.Weight).sum / (freshWeighted config heap).gcd) ∧
      (∀ x ∈ idxs, x < config.NodeList.length) ∧
      ∀ b, b < B → ∀ j (hj : j < config.NodeList.length),
        ((idxs.drop (b * ((config.NodeList.map Node.Weight).sum / (freshWeighted config heap).gcd))).take
          ((config.NodeList.map Node.Weight).sum / (freshWeighted config heap).gcd)).count j
          = config.NodeList[j].Weight / (freshWeighted config heap).gcd := by
  have hcl : (createClients config.NodeList config.Opts heap).1.length = config.NodeList.length :=
    (createClients_spec config.NodeList config.Opts heap).1
  have hnpos : 0 < config.NodeList.length := List.length_pos.mpr hne
  have hwts := readyWeighted_weights config heap
  have hok := freshWeighted_ok config hne hw
  obtain ⟨idxs, k2, c2, hg, hlen, hmem, hcount⟩ := WeightedRoundRobinLB.gets_blocks
    (readyWeighted config heap)
    (by show 0 < (createClients config.NodeList config.Opts heap).1.length; omega)
    (by simp [readyWeighted, freshWeighted, initCs])
    rfl (by rw [hwts]; exact hok) B 0 0 (Or.inl rfl) (Nat.zero_le _)
  rw [hwts] at hg hlen hcount
  have hmoved : (readyWeighted config heap).moved (((0 : Nat) : Int) - 1) 0
      = readyWeighted config heap := rfl
  rw [hmoved] at hg
  obtain ⟨F, hF⟩ := hg
  refine ⟨F, ?_⟩
  intro f hf
  have hrun := hF f hf
  have hgcd : (readyWeighted config heap).gcd = (freshWeighted config heap).gcd := rfl
  have hcs : (readyWeighted config heap).cs = (freshWeighted config heap).cs := rfl
  rw [hgcd] at hrun hlen hcount
  simp only [WeightedRoundRobinLB.outsOf, hcs] at hrun
  have hmem2 : ∀ x ∈ idxs, x < config.NodeList.length := by
    intro x hx
    rw [← hcl]
    exact hmem x hx
  have hcount2 : ∀ b, b < B → ∀ j (hj : j < config.NodeList.length),
      ((idxs.drop (b * ((config.NodeList.map Node.Weight).sum / (freshWeighted config heap).gcd))).take
        ((config.NodeList.map Node.Weight).sum / (freshWeighted config heap).gcd)).count j
        = config.NodeList[j].Weight / (freshWeighted config heap).gcd := by
    intro b hb j hj
    exact hcount b hb j _ (by
      rw [List.getElem?_map, List.getElem?_eq_getElem hj]
      rfl)
  cases hB : B * ((config.NodeList.map Node.Weight).sum / (freshWeighted config heap).gcd) with
  | zero =>
    rw [hB] at hlen
    have hnil : idxs = [] := List.length_eq_zero.mp hlen
    refine ⟨idxs, freshWeighted config heap, ?_, hlen, hmem2, ?_⟩
    · rw [hnil]
      rfl
    · exact hcount2
  | succ m =>
    rw [hB] at hrun hlen
    refine ⟨idxs, (readyWeighted config heap).moved ((k2 : Int) - 1) c2, ?_, hlen, hmem2, ?_⟩
    · rw [freshWeighted_gets config heap hne f m]
      exact hrun
    · exact hcount2

theorem freshWeighted_cs (config : Config) (heap : Nat) (j : Nat)
    (hj : j < config.NodeList.length) :
    ∃ r, (freshWeighted config heap).cs[j]? = some r ∧ r.c.ptr = heap + j ∧
      r.c.node.Weight = config.NodeList[j].Weight ∧ r.Name = config.NodeList[j].String := by
  have h3 := (createClients_spec config.NodeList config.Opts heap).2.2 j hj
  refine ⟨{ c := (NewHostClient config.NodeList[j] config.Opts (heap + j)).1, healthCheck := none },
    ?_, rfl, ?_, ?_⟩
  · simp only [freshWeighted, initCs, List.getElem?_map, h3, Option.map_some']
  · simp only [NewHostClient, Node.afterString]
    split <;> rfl
  · rfl

theorem freshWeighted_cycle_pos (config : Config) (heap : Nat) (hne : config.NodeList ≠ [])
    (hw : ∀ n ∈ config.NodeList, 0 < n.Weight ∧ n.Weight < 65536) :
    0 < (config.NodeList.map Node.Weight).sum / (freshWeighted config heap).gcd := by
  obtain ⟨hg, _, hmem, hall⟩ := freshWeighted_ok config hne hw
  have h1 : getMaxWeight config.NodeList ≤ (config.NodeList.map Node.Weight).sum :=
    List.le_sum_of_mem hmem
  have h2 := Nat.le_of_dvd (hall _ hmem).2.1 (hall _ hmem).1
  exact Nat.div_pos (le_trans h2 h1) hg

/-- C7: the balancer NewWeightedRoundRobinLB constructs from a static configuration with
positive weights `w_1..w_n` has `gcd = g = gcd(w_1..w_n)`, its LBClient at index `j` wraps
the pool newly created for node `j`, and with `L = (w_1 + ... + w_n) / g ≥ 1`: for every
number `B` of blocks there is a bound on the rounds of the selection loop from which on
the first `B * L` Get calls all return, each an LBClient of the list (never nil), and in
each block of `L` consecutive calls counted from construction the LBClient at index `j` is
returned exactly `w_j / g` times. -/
theorem WeightedRoundRobinLB_cycle_counts (config : Config) (input : WatchInput) (heap : Nat)
    (hstatic : config.Typ = TypeStatic) (hne : config.NodeList ≠ [])
    (hw : ∀ n ∈ config.NodeList, 0 < n.Weight ∧ n.Weight < 65536) :
    ∃ lb, NewWeightedRoundRobinLB config input heap = Run.done lb ∧
      lb.gcd = (config.NodeList.map Node.Weight).foldr Nat.gcd 0 ∧
      0 < (config.NodeList.map Node.Weight).sum / lb.gcd ∧
      (∀ j (hj : j < config.NodeList.length), ∃ r, lb.cs[j]? = some r ∧ r.c.ptr = heap + j ∧
        r.c.node.Weight = config.NodeList[j].Weight ∧ r.Name = config.NodeList[j].String) ∧
      ∀ B, ∃ F, ∀ f, F ≤ f → ∃ (idxs : List Nat) (lb2 : WeightedRoundRobinLB),
        WeightedRoundRobinLB.gets f (B * ((config.NodeList.map Node.Weight).sum / lb.gcd)) lb
          = Run.done (idxs.map (fun j => lb.cs[j]?), lb2) ∧
        idxs.length = B * ((config.NodeList.map Node.Weight).sum / lb.gcd) ∧
        (∀ x ∈ idxs, x < config.NodeList.length) ∧
        ∀ b, b < B → ∀ j (hj : j < config.NodeList.length),
          ((idxs.drop (b * ((config.NodeList.map Node.Weight).sum / lb.gcd))).take
            ((config.NodeList.map Node.Weight).sum / lb.gcd)).count j
            = config.NodeList[j].Weight / lb.gcd :=
  ⟨freshWeighted config heap,
    NewWeightedRoundRobinLB_static config input heap hstatic hne (fun n hn => (hw n hn).1),
    rfl, freshWeighted_cycle_pos config heap hne hw,
    fun j hj => freshWeighted_cs config heap j hj,
    fun B => freshWeighted_blocks config heap hne hw B⟩

/-- Witness of C7: the static configuration over A, B, C with weights 4, 2, 1. -/
theorem WeightedRoundRobinLB_cycle_counts_witness :
    ∃ lb, NewWeightedRoundRobinLB exWeightedConfig {} 0 = Run.done lb ∧
      lb.gcd = (exWeightedConfig.NodeList.map Node.Weight).foldr Nat.gcd 0 ∧
      0 < (exWeightedConfig.NodeList.map Node.Weight).sum / lb.gcd ∧
      (∀ j (hj : j < exWeightedConfig.NodeList.length), ∃ r, lb.cs[j]? = some r ∧ r.c.ptr = 0 + j ∧
        r.c.node.Weight = exWeightedConfig.NodeList[j].Weight ∧
        r.Name = exWeightedConfig.NodeList[j].String) ∧
      ∀ B, ∃ F, ∀ f, F ≤ f → ∃ (idxs : List Nat) (lb2 : WeightedRoundRobinLB),
        WeightedRoundRobinLB.gets f (B * ((exWeightedConfig.NodeList.map Node.Weight).sum / lb.gcd)) lb
          = Run.done (idxs.map (fun j => lb.cs[j]?), lb2) ∧
        idxs.length = B * ((exWeightedConfig.NodeList.map Node.Weight).sum / lb.gcd) ∧
        (∀ x ∈ idxs, x < exWeightedConfig.NodeList.length) ∧
        ∀ b, b < B → ∀ j (hj : j < exWeightedConfig.NodeList.length),
          ((idxs.drop (b * ((exWeightedConfig.NodeList.map Node.Weight).sum / lb.gcd))).take
            ((exWeightedConfig.NodeList.map Node.Weight).sum / lb.gcd)).count j
            = exWeightedConfig.NodeList[j].Weight / lb.gcd :=
  WeightedRoundRobinLB_cycle_counts exWeightedConfig {} 0 rfl (by decide) (by decide)

/-- The first seven selections over the weights 4, 2, 1. -/
theorem firstNames_weighted_421 :
    ∃ F, ∀ f, F ≤ f → WeightedRoundRobinLB.firstNames exWeightedConfig f 7
      = some [some "10.0.0.1:80_w4", some "10.0.0.1:80_w4", some "10.0.0.1:80_w4",
              some "10.0.0.2:80_w2", some "10.0.0.1:80_w4", some "10.0.0.2:80_w2",
              some "10.0.0.3:80_w1"] := by
  have hnew : NewWeightedRoundRobinLB exWeightedConfig {} 0
      = Run.done (freshWeighted exWeightedConfig 0) :=
    NewWeightedRoundRobinLB_static exWeightedConfig {} 0 rfl (by decide) (by decide)
  have hok : WeightsOk 1 4 [4, 2, 1] := freshWeighted_ok exWeightedConfig (by decide) (by decide)
  obtain ⟨T, ct, h1, h2, h3, _, h5⟩ := passes_top 1 4 [4, 2, 1] hok 0 (by omega)
  have hct : ct = 4 := by omega
  subst hct
  have hT : T + 3 + 1 = (T + 1) + 3 := by omega
  have hp : passes 1 4 [4, 2, 1] (T + 3 + 1) 0 = [0, 0, 0, 1, 0, 1, 2] := by
    rw [hT, passes_add, h1, h5]
    decide
  have hwa : weightAfter 1 4 (T + 3 + 1) 0 = 1 := by
    rw [hT, weightAfter_add, h1]
    decide
  have hg : (readyWeighted exWeightedConfig 0).gcd = 1 := by decide
  have hm : (readyWeighted exWeightedConfig 0).maxWeight = 4 := by decide
  have hws : (readyWeighted exWeightedConfig 0).weights = [4, 2, 1] := by decide
  obtain ⟨last, _, hgets, _⟩ := WeightedRoundRobinLB.gets_passes (readyWeighted exWeightedConfig 0)
    (by decide) (by decide) (by decide) rfl (T + 3) 0 0 (Or.inl rfl)
    (by rw [hg, hm, hws, hwa]; decide)
  rw [hg, hm, hws, hp] at hgets
  obtain ⟨F, hF⟩ := hgets
  refine ⟨F, ?_⟩
  intro f hf
  have hrun := hF f hf
  have hmoved : (readyWeighted exWeightedConfig 0).moved (((0 : Nat) : Int) - 1) 0
      = readyWeighted exWeightedConfig 0 := rfl
  rw [hmoved] at hrun
  have hfresh := freshWeighted_gets exWeightedConfig 0 (by decide) f 6
  simp only [WeightedRoundRobinLB.firstNames, hnew]
  rw [hfresh]
  have h7 : [0, 0, 0, 1, 0, 1, 2].length = 6 + 1 := rfl
  rw [h7] at hrun
  rw [hrun]
  have hnames : ((readyWeighted exWeightedConfig 0).outsOf [0, 0, 0, 1, 0, 1, 2]).map
      (Option.map lbClient.Name)
      = [some "10.0.0.1:80_w4", some "10.0.0.1:80_w4", some "10.0.0.1:80_w4",
         some "10.0.0.2:80_w2", some "10.0.0.1:80_w4", some "10.0.0.2:80_w2",
         some "10.0.0.3:80_w1"] := by decide
  simp only [hnames]

theorem WeightedRoundRobinLB.get_mono (f : Nat) (cc : WeightedRoundRobinLB)
    (r : Option lbClient × WeightedRoundRobinLB)
    (h : WeightedRoundRobinLB.get f cc = Run.done r) (e : Nat) :
    WeightedRoundRobinLB.get (f + e) cc = Run.done r := by
  unfold WeightedRoundRobinLB.get at h ⊢
  cases hopt : (if cc.once = true then some cc
      else Option.map (fun c1 => { c1 with once := true }) cc.init) with
  | none => rw [hopt] at h; simp [Run.ofOption, Run.bind] at h
  | some cc1 =>
    rw [hopt] at h
    simp only [Run.ofOption, Run.bind] at h ⊢
    exact WeightedRoundRobinLB.loop_mono f cc1 r h e

theorem WeightedRoundRobinLB.gets_mono (f e n : Nat) :
    ∀ (cc : WeightedRoundRobinLB) (r : List (Option lbClient) × WeightedRoundRobinLB),
      WeightedRoundRobinLB.gets f n cc = Run.done r →
      WeightedRoundRobinLB.gets (f + e) n cc = Run.done r := by
  induction n with
  | zero => intro cc r h; exact h
  | succ n ih =>
    intro cc r h
    simp only [WeightedRoundRobinLB.gets] at h ⊢
    cases hg : WeightedRoundRobinLB.get f cc with
    | panic => rw [hg] at h; simp [Run.bind] at h
    | pending => rw [hg] at h; simp [Run.bind] at h
    | done a =>
      rw [hg] at h
      rw [WeightedRoundRobinLB.get_mono f cc a hg e]
      simp only [Run.bind] at h ⊢
      cases hr : WeightedRoundRobinLB.gets f n a.2 with
      | panic => rw [hr] at h; simp at h
      | pending => rw [hr] at h; simp at h
      | done b =>
        rw [hr] at h
        rw [ih a.2 b hr]
        exact h

theorem WeightedRoundRobinLB.firstNames_mono (config : Config) (f e n : Nat)
    (l : List (Option String))
    (h : WeightedRoundRobinLB.firstNames config f n = some l) :
    WeightedRoundRobinLB.firstNames config (f + e) n = some l := by
  unfold WeightedRoundRobinLB.firstNames at h ⊢
  cases hnew : NewWeightedRoundRobinLB config {} 0 with
  | panic => rw [hnew] at h; simp at h
  | pending => rw [hnew] at h; simp at h
  | done lb =>
    rw [hnew] at h
    simp only at h ⊢
    cases hg : WeightedRoundRobinLB.gets f n lb with
    | panic => rw [hg] at h; simp at h
    | pending => rw [hg] at h; simp at h
    | done r =>
      rw [hg] at h
      rw [WeightedRoundRobinLB.gets_mono f e n lb r hg]
      exact h

/-- C8, refuted as stated: for no bound on the rounds of the selection loop do the first
seven Get calls over A, B, C with weights 4, 2, 1 return A, A, A, A, B, B, C. -/
theorem weighted_421_not_bursts :
    ¬ ∃ f, WeightedRoundRobinLB.firstNames exWeightedConfig f 7
      = some [some "10.0.0.1:80_w4", some "10.0.0.1:80_w4", some "10.0.0.1:80_w4",
              some "10.0.0.1:80_w4", some "10.0.0.2:80_w2", some "10.0.0.2:80_w2",
              some "10.0.0.3:80_w1"] := by
  rintro ⟨f, hf⟩
  obtain ⟨F2, hF2⟩ := firstNames_weighted_421
  have h1 := WeightedRoundRobinLB.firstNames_mono exWeightedConfig f F2 7 _ hf
  have h2 := hF2 (f + F2) (by omega)
  rw [h2] at h1
  revert h1
  decide

/-- C8 as the code has it: on the balancer freshly constructed over A, B, C with weights
4, 2, 1 the first seven Get calls return A, A, A, B, A, B, C, in this order (for every
sufficient bound on the rounds of the selection loop). -/
theorem weighted_421_sequence :
    ∃ F, ∀ f, F ≤ f → WeightedRoundRobinLB.firstNames exWeightedConfig f 7
      = some [some "10.0.0.1:80_w4", some "10.0.0.1:80_w4", some "10.0.0.1:80_w4",
              some "10.0.0.2:80_w2", some "10.0.0.1:80_w4", some "10.0.0.2:80_w2",
              some "10.0.0.3:80_w1"] :=
  firstNames_weighted_421

/-! ## Reconciler: reuse of instances, and non-emptiness -/

/-- When every node name is the name of some old pool, the second loop of updateClients
creates no pool: it returns pools of the old list and leaves the heap as it is. -/
theorem updateClients_loop_reuse (old : List Client) (nodes : List Node) (opts : Opts)
    (heap : Nat) (h : ∀ n ∈ nodes, ∃ o ∈ old, o.Name = n.String) :
    (updateClients.loop (old.foldl (fun m c => m.set c.Name c) []) nodes opts heap).2 = heap ∧
    ∀ c ∈ (updateClients.loop (old.foldl (fun m c => m.set c.Name c) []) nodes opts heap).1,
      c ∈ old := by
  induction nodes with
  | nil => simp [updateClients.loop]
  | cons n rest ih =>
    obtain ⟨ih1, ih2⟩ := ih (fun m hm => h m (List.mem_cons_of_mem _ hm))
    unfold updateClients.loop
    cases hget : GoMap.get (old.foldl (fun m c => m.set c.Name c) []) n.String with
    | none =>
      obtain ⟨o, ho, hname⟩ := h n (List.mem_cons_self _ _)
      exact absurd hname (index_get_none old _ hget o ho)
    | some oc =>
      refine ⟨ih1, ?_⟩
      intro c hc
      rcases List.mem_cons.mp hc with rfl | hc
      · exact (index_get_some old _ _ hget).1
      · exact ih2 c hc

/-- When every node name is the name of some old pool, updateClients returns pools of the
old list only and allocates nothing. -/
theorem updateClients_reuse (old : List Client) (nodes : List Node) (opts : Opts)
    (heap : Nat) (h : ∀ n ∈ nodes, ∃ o ∈ old, o.Name = n.String) :
    (∀ c ∈ (updateClients old nodes opts heap).clients, c ∈ old) ∧
    (updateClients old nodes opts heap).heap = heap := by
  unfold updateClients
  by_cases hn : nodes.length = 0
  · simp [hn]
  · by_cases ho : old.length = 0
    · have hnil : old = [] := List.length_eq_zero.mp ho
      obtain ⟨n, hn1⟩ := List.exists_mem_of_length_pos (Nat.pos_of_ne_zero hn)
      obtain ⟨o, ho1, _⟩ := h n hn1
      simp [hnil] at ho1
    · by_cases heq : equals old nodes = true
      · simp [hn, ho, heq]
      · obtain ⟨h1, h2⟩ := updateClients_loop_reuse old nodes opts heap h
        simp only [hn, ho, heq, if_false]
        exact ⟨h2, h1⟩

/-- C11: when the set of canonical names of `nodes` equals the set of names of `old`
(whatever the orders and the multiplicities), every pool of the list updateClients returns
is one of the instances of `old`, and no HostClient is created (the allocator is left as
it was). -/
theorem updateClients_same_names_reuses (old : List Client) (nodes : List Node) (opts : Opts)
    (heap : Nat)
    (hset : ∀ k, k ∈ nodes.map Node.String ↔ k ∈ old.map HostClient.Name) :
    (∀ c ∈ (updateClients old nodes opts heap).clients, c ∈ old) ∧
    (updateClients old nodes opts heap).heap = heap := by
  apply updateClients_reuse
  intro n hn
  have := (hset n.String).mp (List.mem_map_of_mem _ hn)
  obtain ⟨o, ho1, ho2⟩ := List.mem_map.mp this
  exact ⟨o, ho1, ho2⟩

/-- Witness of C11: old pools `[A, B]`, nodes `[B, A, B]` (same name set, another order,
another length). -/
theorem updateClients_same_names_reuses_witness :
    (∀ c ∈ (updateClients [exPoolA, exPoolB] [exNodeB, exNodeA, exNodeB] exOpts 2).clients,
      c ∈ [exPoolA, exPoolB]) ∧
    (updateClients [exPoolA, exPoolB] [exNodeB, exNodeA, exNodeB] exOpts 2).heap = 2 :=
  updateClients_same_names_reuses [exPoolA, exPoolB] [exNodeB, exNodeA, exNodeB] exOpts 2
    (by
      intro k
      simp only [List.map_cons, List.map_nil, List.mem_cons, List.mem_singleton]
      have hA : exNodeA.String = exPoolA.Name := by decide
      have hB : exNodeB.String = exPoolB.Name := by decide
      rw [hA, hB]
      simp only [List.not_mem_nil, or_false]
      tauto)

/-- A non-empty old list is answered by a non-empty list, for every node list. -/
theorem updateClients_nonempty (old : List Client) (nodes : List Node) (opts : Opts)
    (heap : Nat) (hold : old ≠ []) : (updateClients old nodes opts heap).clients ≠ [] := by
  have ho : old.length ≠ 0 := fun h => hold (List.length_eq_zero.mp h)
  unfold updateClients
  by_cases hn : nodes.length = 0
  · simpa [hn] using hold
  · by_cases heq : equals old nodes = true
    · simpa [hn, ho, heq] using hold
    · simp only [hn, ho, heq, if_false, Bool.false_eq_true]
      intro hnil
      have hlen := (updateClients_loop_spec (old.foldl (fun m c => m.set c.Name c) [])
        nodes opts heap).1
      rw [hnil] at hlen
      exact hn hlen.symm

/-- C12: updateClients on an empty node list returns the old list itself with
changed=false; a non-empty old list is answered by a non-empty list whatever the node
list; hence one round of the watch loop of each of the four balancers, started with a
non-empty pool list, finishes whenever the watcher returns, and leaves a non-empty pool
list. -/
theorem updateClients_keeps_nonempty (old : List Client) (nodes : List Node) (opts : Opts)
    (heap : Nat) :
    updateClients old [] opts heap = ⟨old, false, heap⟩ ∧
    (old ≠ [] → (updateClients old nodes opts heap).clients ≠ []) ∧
    (∀ (cc : RoundRobinLB) (input : WatchInput) (w : watcher), cc.clients ≠ [] →
      cc.watcher.watch cc.config input = .done (nodes, w) →
      ∃ cc2, cc.watchStep input = .done cc2 ∧ cc2.clients ≠ []) ∧
    (∀ (cc : LeastLoadedLB) (input : WatchInput) (w : watcher), cc.clients ≠ [] →
      cc.watcher.watch cc.config input = .done (nodes, w) →
      ∃ cc2, cc.watchStep input = .done cc2 ∧ cc2.clients ≠ []) ∧
    (∀ (cc : WeightedRoundRobinLB) (input : WatchInput) (w : watcher), cc.clients ≠ [] →
      cc.watcher.watch cc.config input = .done (nodes, w) →
      ∃ cc2, cc.watchStep input = .done cc2 ∧ cc2.clients ≠ []) ∧
    (∀ (cc : RandomLB) (input : WatchInput) (w : watcher), cc.clients ≠ [] →
      cc.watcher.watch cc.config input = .done (nodes, w) →
      ∃ cc2, cc.watchStep input = .done cc2 ∧ cc2.clients ≠ []) := by
  refine ⟨rfl, updateClients_nonempty old nodes opts heap, ?_, ?_, ?_, ?_⟩
  · intro cc input w hne hw
    have hu := updateClients_nonempty cc.clients nodes cc.config.Opts cc.heap hne
    have hl : (updateClients cc.clients nodes cc.config.Opts cc.heap).clients.length ≠ 0 :=
      fun h => hu (List.length_eq_zero.mp h)
    unfold RoundRobinLB.watchStep
    rw [hw]
    simp only [Run.bind]
    by_cases hch : (updateClients cc.clients nodes cc.config.Opts cc.heap).changed = true
    · simp only [hch, Bool.not_true, Bool.false_eq_true, if_false, RoundRobinLB.init, hl,
        Run.ofOption]
      exact ⟨_, rfl, hu⟩
    · simp only [hch, Bool.not_eq_true] at hch ⊢
      simp only [hch, Bool.not_false, if_true]
      exact ⟨_, rfl, hne⟩
  · intro cc input w hne hw
    have hu := updateClients_nonempty cc.clients nodes cc.config.Opts cc.heap hne
    have hl : (updateClients cc.clients nodes cc.config.Opts cc.heap).clients.length ≠ 0 :=
      fun h => hu (List.length_eq_zero.mp h)
    unfold LeastLoadedLB.watchStep
    rw [hw]
    simp only [Run.bind]
    by_cases hch : (updateClients cc.clients nodes cc.config.Opts cc.heap).changed = true
    · simp only [hch, Bool.not_true, Bool.false_eq_true, if_false, LeastLoadedLB.init, hl,
        Run.ofOption]
      exact ⟨_, rfl, hu⟩
    · simp only [hch, Bool.not_eq_true] at hch ⊢
      simp only [hch, Bool.not_false, if_true]
      exact ⟨_, rfl, hne⟩
  · intro cc input w hne hw
    have hu := updateClients_nonempty cc.clients nodes cc.config.Opts cc.heap hne
    have hl : (updateClients cc.clients nodes cc.config.Opts cc.heap).clients.length ≠ 0 :=
      fun h => hu (List.length_eq_zero.mp h)
    unfold WeightedRoundRobinLB.watchStep
    rw [hw]
    simp only [Run.bind]
    by_cases hch : (updateClients cc.clients nodes cc.config.Opts cc.heap).changed = true
    · simp only [hch, Bool.not_true, Bool.false_eq_true, if_false, WeightedRoundRobinLB.init,
        hl, Run.ofOption]
      exact ⟨_, rfl, hu⟩
    · simp only [hch, Bool.not_eq_true] at hch ⊢
      simp only [hch, Bool.not_false, if_true]
      exact ⟨_, rfl, hne⟩
  · intro cc input w hne hw
    have hu := updateClients_nonempty cc.clients nodes cc.config.Opts cc.heap hne
    have hl : (updateClients cc.clients nodes cc.config.Opts cc.heap).clients.length ≠ 0 :=
      fun h => hu (List.length_eq_zero.mp h)
    unfold RandomLB.watchStep
    rw [hw]
    simp only [Run.bind]
    by_cases hch : (updateClients cc.clients nodes cc.config.Opts cc.heap).changed = true
    · simp only [hch, Bool.not_true, Bool.false_eq_true, if_false, RandomLB.init, hl,
        Run.ofOption]
      exact ⟨_, rfl, hu⟩
    · simp only [hch, Bool.not_eq_true] at hch ⊢
      simp only [hch, Bool.not_false, if_true]
      exact ⟨_, rfl, hne⟩

/-- Witness of C12: the old list `[A]` with no node and with the nodes `[A, B]`, and a
round of the watch loop of the least-loaded balancer holding `[A]` that receives A and
B. -/
theorem updateClients_keeps_nonempty_witness :
    updateClients [exPoolA] [] exOpts 1 = ⟨[exPoolA], false, 1⟩ ∧
    (updateClients [exPoolA] [exNodeA, exNodeB] exOpts 1).clients ≠ [] ∧
    ∃ cc2, exLeastLBA.watchStep exConsulAB = .done cc2 ∧ cc2.clients ≠ [] :=
  ⟨(updateClients_keeps_nonempty [exPoolA] [exNodeA, exNodeB] exOpts 1).1,
   (updateClients_keeps_nonempty [exPoolA] [exNodeA, exNodeB] exOpts 1).2.1 (by decide),
   (updateClients_keeps_nonempty [exPoolA] [exNodeA, exNodeB] exOpts 1).2.2.2.1
     exLeastLBA exConsulAB
     { exLeastLBA.watcher with once := true, consulFlag := true, ConsulWaitIndex := 7,
                               nodes := [exNodeA, exNodeB] } (by decide) rfl⟩

/-! ## newNode -/

/-- The decimal digit characters: value and class. -/
theorem digitChar_spec (d : Nat) (hd : d < 10) :
    (Nat.digitChar d).isDigit = true ∧ (Nat.digitChar d).toNat - '0'.toNat = d := by
  interval_cases d <;> decide

/-- Reading back the digits `Nat.toDigitsCore` writes in front of `ds`. -/
theorem toDigitsCore_value (fuel : Nat) : ∀ (n : Nat) (ds : List Char), n < fuel →
    (Nat.toDigitsCore 10 fuel n ds).foldl (fun v c => v * 10 + (c.toNat - '0'.toNat)) 0
      = ds.foldl (fun v c => v * 10 + (c.toNat - '0'.toNat)) n := by
  induction fuel with
  | zero => intro n ds h; omega
  | succ fuel ih =>
    intro n ds h
    have hd := (digitChar_spec (n % 10) (Nat.mod_lt _ (by decide))).2
    unfold Nat.toDigitsCore
    by_cases h0 : n / 10 = 0
    · simp only [h0, if_true, List.foldl_cons, hd]
      congr 1
      omega
    · simp only [h0, if_false]
      rw [ih (n / 10) _ (by omega)]
      simp only [List.foldl_cons, hd]
      congr 1
      omega

/-- The digits `Nat.toDigitsCore` writes are decimal digit characters. -/
theorem toDigitsCore_isDigit (fuel : Nat) : ∀ (n : Nat) (ds : List Char),
    (∀ c ∈ ds, c.isDigit = true) → ∀ c ∈ Nat.toDigitsCore 10 fuel n ds, c.isDigit = true := by
  induction fuel with
  | zero => intro n ds h; simpa [Nat.toDigitsCore] using h
  | succ fuel ih =>
    intro n ds h
    have hd := (digitChar_spec (n % 10) (Nat.mod_lt _ (by decide))).1
    have hcons : ∀ c ∈ Nat.digitChar (n % 10) :: ds, c.isDigit = true := by
      intro c hc
      rcases List.mem_cons.mp hc with rfl | hc
      · exact hd
      · exact h c hc
    unfold Nat.toDigitsCore
    by_cases h0 : n / 10 = 0
    · simpa only [h0, if_true] using hcons
    · simp only [h0, if_false]
      exact ih _ _ hcons

/-- The function `Nat.toDigitsCore` writes at least one digit. -/
theorem toDigitsCore_ne_nil (fuel : Nat) : ∀ (n : Nat) (ds : List Char),
    (fuel ≠ 0 ∨ ds ≠ []) → Nat.toDigitsCore 10 fuel n ds ≠ [] := by
  induction fuel with
  | zero => intro n ds h; simpa [Nat.toDigitsCore] using h
  | succ fuel ih =>
    intro n ds _
    unfold Nat.toDigitsCore
    by_cases h0 : n / 10 = 0
    · simp [h0]
    · simp only [h0, if_false]
      exact ih _ _ (Or.inr (by simp))

/-- The decimal rendering of a number (`%d`): a non-empty string of digits that reads
back as the number. -/
theorem toString_digits (n : Nat) :
    (toString n).toList ≠ [] ∧ (∀ c ∈ (toString n).toList, c.isDigit = true) ∧
    digitsValue (toString n).toList = n := by
  have e : (toString n).toList = Nat.toDigitsCore 10 (n + 1) n [] := rfl
  rw [e]
  refine ⟨toDigitsCore_ne_nil _ _ _ (Or.inl (by omega)),
    toDigitsCore_isDigit _ _ _ (by simp), ?_⟩
  unfold digitsValue
  rw [toDigitsCore_value (n + 1) n [] (by omega)]
  rfl

theorem takeWhile_all {α : Type} (p : α → Bool) (l : List α) (h : ∀ x ∈ l, p x = true) :
    l.takeWhile p = l ∧ l.dropWhile p = [] := by
  induction l with
  | nil => simp
  | cons a rest ih =>
    have ha := h a (List.mem_cons_self _ _)
    obtain ⟨i1, i2⟩ := ih (fun x hx => h x (List.mem_cons_of_mem _ hx))
    simp [List.takeWhile_cons, List.dropWhile_cons, ha, i1, i2]

theorem takeWhile_stop {α : Type} (p : α → Bool) (l : List α) (a : α) (r : List α)
    (h : ∀ x ∈ l, p x = true) (ha : p a = false) :
    (l ++ a :: r).takeWhile p = l ∧ (l ++ a :: r).dropWhile p = a :: r := by
  induction l with
  | nil => simp [List.takeWhile_cons, List.dropWhile_cons, ha]
  | cons b rest ih =>
    have hb := h b (List.mem_cons_self _ _)
    obtain ⟨i1, i2⟩ := ih (fun x hx => h x (List.mem_cons_of_mem _ hx))
    simp [List.takeWhile_cons, List.dropWhile_cons, hb, i1, i2]
/-- A digit is neither a blank nor outside the class `[\d.]`. -/
theorem isDigit_classes (c : Char) (h : c.isDigit = true) :
    isDigitOrDot c = true ∧ isBlank c = false := by
  refine ⟨by simp [isDigitOrDot, h], ?_⟩
  unfold isBlank
  by_cases h1 : c = '\t'
  · subst h1; revert h; decide
  · by_cases h2 : c = ' '
    · subst h2; revert h; decide
    · simp [h1, h2]

/-- The submatches of nodeInfoReg on `IP:PORT weight=W` (digits `p` and `w`). -/
theorem nodeInfoReg_full (ip : String) (p w : List Char)
    (hne : ip.toList ≠ []) (hip : ∀ c ∈ ip.toList, isDigitOrDot c = true)
    (hp0 : p ≠ []) (hp : ∀ c ∈ p, c.isDigit = true)
    (hw0 : w ≠ []) (hw : ∀ c ∈ w, c.isDigit = true) :
    nodeInfoReg (String.mk (ip.toList ++ ':' :: (p ++ " weight=".toList ++ w)))
      = some (ip, String.mk p, String.mk w) := by
  have hrest : p ++ " weight=".toList ++ w = p ++ ' ' :: ("weight=".toList ++ w) := by
    simp
  obtain ⟨t1, d1⟩ := takeWhile_stop isDigitOrDot ip.toList ':' (p ++ " weight=".toList ++ w)
    hip (by decide)
  obtain ⟨t2, d2⟩ := takeWhile_stop Char.isDigit p ' ' ("weight=".toList ++ w) hp (by decide)
  obtain ⟨t3, _⟩ := takeWhile_all Char.isDigit w hw
  obtain ⟨c0, w1, hw1⟩ := List.exists_cons_of_ne_nil hw0
  have hc0 : isBlank c0 = false :=
    (isDigit_classes c0 (hw c0 (by rw [hw1]; exact List.mem_cons_self _ _))).2
  have d3 : w.dropWhile isBlank = w := by
    rw [hw1, List.dropWhile_cons, hc0]
    rfl
  have hl : (String.mk (ip.toList ++ ':' :: (p ++ " weight=".toList ++ w))).toList
      = ip.toList ++ ':' :: (p ++ " weight=".toList ++ w) := rfl
  unfold nodeInfoReg
  simp only [hl, t1, d1, hne, if_false]
  unfold matchPort
  simp only [hrest, t2, d2, hp0, if_false]
  have hm : matchWeight (' ' :: ("weight=".toList ++ w)) = w := by
    unfold matchWeight
    have e1 : (' ' :: ("weight=".toList ++ w)).takeWhile isBlank = [' '] := by
      simp [List.takeWhile_cons, isBlank]
    have e2 : (' ' :: ("weight=".toList ++ w)).dropWhile isBlank = "weight=".toList ++ w := by
      simp [List.dropWhile_cons, isBlank]
    rw [e1, e2]
    have e3 : List.isPrefixOf "weight".toList ("weight=".toList ++ w) = true := by
      simp [List.isPrefixOf]
    have e4 : (List.drop 6 ("weight=".toList ++ w)).dropWhile isBlank = '=' :: w := by
      simp [List.dropWhile_cons, isBlank]
    simp only [e3, e4, if_true, d3, t3]
    simp
  rw [hm]
  rfl

/-- The call ParseUint on the decimal rendering of a `uint16`. -/
theorem parseUint16_toString (n : Nat) (hn : n ≤ 65535) :
    parseUint16 (String.mk (toString n).toList) = some n := by
  obtain ⟨h1, _, h3⟩ := toString_digits n
  unfold parseUint16
  simp only [String.toList] at h1 h3 ⊢
  simp [h1, h3, Nat.not_lt.mpr hn]

/-- What newNode returns on `IP:P weight=W` with `P`, `W` rendered in decimal. -/
theorem newNode_rendered (ip : String) (P W : Nat)
    (hne : ip.toList ≠ []) (hip : ∀ c ∈ ip.toList, isDigitOrDot c = true)
    (hP : P ≤ 65535) (hW : W ≤ 65535) :
    newNode (ip ++ ":" ++ toString P ++ " weight=" ++ toString W)
      = (some { IP := ip, Port := P, Weight := W }, none) := by
  have e : ip ++ ":" ++ toString P ++ " weight=" ++ toString W
      = String.mk (ip.toList ++ ':' :: ((toString P).toList ++ " weight=".toList
          ++ (toString W).toList)) := by
    apply String.ext
    simp [String.data_append]
  obtain ⟨p1, p2, _⟩ := toString_digits P
  obtain ⟨w1, w2, _⟩ := toString_digits W
  unfold newNode
  rw [e, nodeInfoReg_full ip _ _ hne hip p1 p2 w1 w2]
  simp only [parseUint16_toString P hP, parseUint16_toString W hW, Option.getD_some]
  have hP2 : P % 65536 = P := Nat.mod_eq_of_lt (by omega)
  have hW2 : W % 65536 = W := Nat.mod_eq_of_lt (by omega)
  rw [hP2, hW2]

/-- C13: for every non-empty IP made of digits and dots and every port `P` and weight `W`
in 0..65535, written in decimal, newNode accepts `IP:P weight=W` and the canonical name
`String()` of the node it returns is `IP:P_wW`. -/
theorem newNode_String_roundtrip (ip : String) (P W : Nat)
    (hne : ip ≠ "") (hip : ∀ c ∈ ip.toList, c.isDigit = true ∨ c = '.')
    (hP : P ≤ 65535) (hW : W ≤ 65535) :
    ∃ n, newNode (ip ++ ":" ++ toString P ++ " weight=" ++ toString W) = (some n, none) ∧
      n.String = ip ++ ":" ++ toString P ++ "_w" ++ toString W := by
  have hne2 : ip.toList ≠ [] := by
    intro h
    apply hne
    apply String.ext
    simpa using h
  have hip2 : ∀ c ∈ ip.toList, isDigitOrDot c = true := by
    intro c hc
    rcases hip c hc with h | h
    · simp [isDigitOrDot, h]
    · simp [isDigitOrDot, h]
  exact ⟨_, newNode_rendered ip P W hne2 hip2 hP hW, by simp [Node.String]⟩

/-- Witness of C13: `10.13.40.145:8080 weight=250`. -/
theorem newNode_String_roundtrip_witness :
    ∃ n, newNode ("10.13.40.145" ++ ":" ++ toString 8080 ++ " weight=" ++ toString 250)
        = (some n, none) ∧
      n.String = "10.13.40.145" ++ ":" ++ toString 8080 ++ "_w" ++ toString 250 :=
  newNode_String_roundtrip "10.13.40.145" 8080 250 (by decide) (by decide) (by decide)
    (by decide)

/-- C14: newNode rejects a string only when it does not start with an IP (a character of
`[\d.]`). On every string it accepts it returns no error, and with the submatches `port`
and `weight` of nodeInfoReg (empty when the string has no `:PORT` part, no `weight=N`
clause): an empty `port` or one above 65535 gives Port 80, an empty `weight` or one above
65535 gives Weight 1, and digits within 0..65535 give their value. -/
theorem newNode_defaults (info : String) :
    ((newNode info).2 ≠ none ↔ info.toList.takeWhile isDigitOrDot = []) ∧
    ((newNode info).2 ≠ none ↔ (newNode info).1 = none) ∧
    ∀ n e, newNode info = (some n, e) → e = none ∧
      ∃ ip port weight, nodeInfoReg info = some (ip, port, weight) ∧ n.IP = ip ∧
        ((port = "" ∨ 65535 < digitsValue port.toList) → n.Port = 80) ∧
        ((weight = "" ∨ 65535 < digitsValue weight.toList) → n.Weight = 1) ∧
        ((port ≠ "" ∧ digitsValue port.toList ≤ 65535) → n.Port = digitsValue port.toList) ∧
        ((weight ≠ "" ∧ digitsValue weight.toList ≤ 65535) →
          n.Weight = digitsValue weight.toList) := by
  have hparse : ∀ s : String,
      ((s = "" ∨ 65535 < digitsValue s.toList) → parseUint16 s = none) ∧
      ((s ≠ "" ∧ digitsValue s.toList ≤ 65535) → parseUint16 s = some (digitsValue s.toList)) := by
    intro s
    have hs : s = "" ↔ s.toList = [] := by
      constructor
      · intro h; subst h; rfl
      · intro h; apply String.ext; simpa using h
    constructor
    · rintro (h | h)
      · subst h; rfl
      · unfold parseUint16
        by_cases h0 : s.toList = []
        · rw [if_pos h0]
        · rw [if_neg h0, if_pos h]
    · rintro ⟨h1, h2⟩
      have h0 : s.toList ≠ [] := fun h => h1 (hs.mpr h)
      unfold parseUint16
      rw [if_neg h0, if_neg (Nat.not_lt.mpr h2)]
  have hreg : nodeInfoReg info = none ↔ info.toList.takeWhile isDigitOrDot = [] := by
    unfold nodeInfoReg
    by_cases h : info.toList.takeWhile isDigitOrDot = []
    · simp [h]
    · simp [h]
  cases hr : nodeInfoReg info with
  | none =>
    have h1 : newNode info = (none, some ("node info [" ++ info ++ "] with wrong format.")) := by
      unfold newNode; rw [hr]
    refine ⟨?_, ?_, ?_⟩
    · rw [h1]; simpa using hreg.mp hr
    · rw [h1]; simp
    · intro n e h
      rw [h1] at h
      simp at h
  | some g =>
    obtain ⟨ip, port, weight⟩ := g
    have h1 : newNode info =
        (some { IP := ip
                Port := (parseUint16 port).getD defaultPort % 65536
                Weight := (parseUint16 weight).getD defaultWeight % 65536 }, none) := by
      unfold newNode; rw [hr]
    have hne : ¬ info.toList.takeWhile isDigitOrDot = [] := by
      intro h
      rw [hreg.mpr h] at hr
      simp at hr
    refine ⟨?_, ?_, ?_⟩
    · rw [h1]; simpa using hne
    · rw [h1]; simp
    · intro n e h
      rw [h1] at h
      simp only [Prod.mk.injEq, Option.some.injEq] at h
      obtain ⟨hn, he⟩ := h
      subst hn
      refine ⟨he.symm, ip, port, weight, rfl, rfl, ?_, ?_, ?_, ?_⟩
      · intro h; simp [(hparse port).1 h, defaultPort]
      · intro h; simp [(hparse weight).1 h, defaultWeight]
      · intro h
        simp only [(hparse port).2 h, Option.getD_some]
        exact Nat.mod_eq_of_lt (by omega)
      · intro h
        simp only [(hparse weight).2 h, Option.getD_some]
        exact Nat.mod_eq_of_lt (by omega)

/-- Witness of C14: a string without port and weight, one with both out of range, one with
a weight only, one that does not start with an IP, and the theorem at
`10.0.0.1:65536 weight=7`. -/
theorem newNode_defaults_witness :
    (newNode "10.0.0.1" = (some { IP := "10.0.0.1", Port := 80, Weight := 1 }, none) ∧
     newNode "10.0.0.1:65536 weight=70000"
       = (some { IP := "10.0.0.1", Port := 80, Weight := 1 }, none) ∧
     newNode "10.0.0.1 weight=7" = (some { IP := "10.0.0.1", Port := 80, Weight := 7 }, none) ∧
     newNode "10.0.0.1:8080" = (some { IP := "10.0.0.1", Port := 8080, Weight := 1 }, none) ∧
     (newNode "host:80").1 = none) ∧
    ((none : error) = none ∧
      ∃ ip port weight, nodeInfoReg "10.0.0.1:65536 weight=7" = some (ip, port, weight) ∧
        ({ IP := "10.0.0.1", Port := 80, Weight := 7 } : Node).IP = ip ∧
        ((port = "" ∨ 65535 < digitsValue port.toList) →
          ({ IP := "10.0.0.1", Port := 80, Weight := 7 } : Node).Port = 80) ∧
        ((weight = "" ∨ 65535 < digitsValue weight.toList) →
          ({ IP := "10.0.0.1", Port := 80, Weight := 7 } : Node).Weight = 1) ∧
        ((port ≠ "" ∧ digitsValue port.toList ≤ 65535) →
          ({ IP := "10.0.0.1", Port := 80, Weight := 7 } : Node).Port
            = digitsValue port.toList) ∧
        ((weight ≠ "" ∧ digitsValue weight.toList ≤ 65535) →
          ({ IP := "10.0.0.1", Port := 80, Weight := 7 } : Node).Weight
            = digitsValue weight.toList)) :=
  ⟨by decide,
   (newNode_defaults "10.0.0.1:65536 weight=7").2.2
     { IP := "10.0.0.1", Port := 80, Weight := 7 } none (by decide)⟩

/-! ## Config.Validate -/

/-- The two shapes of a result of newNode. -/
theorem newNode_cases (info : String) :
    (∃ n, newNode info = (some n, none)) ∨ (∃ err, newNode info = (none, some err)) := by
  unfold newNode
  cases nodeInfoReg info with
  | none => exact Or.inr ⟨_, rfl⟩
  | some g =>
    obtain ⟨ip, port, weight⟩ := g
    exact Or.inl ⟨_, rfl⟩

/-- The loop of convertIPList: either every entry is accepted and the nodes are appended in
order, or the error of a rejected entry is returned. -/
theorem convertIPList_loop_spec (l : List String) : ∀ acc : List Node,
    (∃ nodes, convertIPList.loop l acc = (nodes, none) ∧
      nodes.map some = acc.map some ++ l.map (fun e => (newNode e).1) ∧
      ∀ e ∈ l, (newNode e).2 = none) ∨
    (∃ nodes err, convertIPList.loop l acc = (nodes, some err) ∧
      ∃ e ∈ l, (newNode e).2 = some err) := by
  induction l with
  | nil => intro acc; exact Or.inl ⟨acc, rfl, by simp, by simp⟩
  | cons info rest ih =>
    intro acc
    rcases newNode_cases info with ⟨n, hn⟩ | ⟨err, hn⟩
    · have hstep : convertIPList.loop (info :: rest) acc = convertIPList.loop rest (acc ++ [n]) := by
        rw [convertIPList.loop, hn]
      rw [hstep]
      rcases ih (acc ++ [n]) with ⟨nodes, h1, h2, h3⟩ | ⟨nodes, err, h1, e, he, h2⟩
      · refine Or.inl ⟨nodes, h1, ?_, ?_⟩
        · rw [h2]; simp [hn]
        · intro e he
          rcases List.mem_cons.mp he with rfl | he
          · rw [hn]
          · exact h3 e he
      · exact Or.inr ⟨nodes, err, h1, e, List.mem_cons_of_mem _ he, h2⟩
    · have hstep : convertIPList.loop (info :: rest) acc = (acc, some err) := by
        rw [convertIPList.loop, hn]
      exact Or.inr ⟨acc, err, hstep, info, List.mem_cons_self _ _, by rw [hn]⟩

/-- The method convertIPList leaves every field but `NodeList` as it is. -/
theorem convertIPList_fields (c : Config) :
    (c.convertIPList).1.Typ = c.Typ ∧ (c.convertIPList).1.DNS = c.DNS ∧
    (c.convertIPList).1.Consul = c.Consul ∧ (c.convertIPList).1.IPList = c.IPList ∧
    (c.convertIPList).1.Opts = c.Opts ∧ (c.convertIPList).1.LBStrategy = c.LBStrategy := by
  unfold Config.convertIPList
  by_cases h : c.IPList.length > 0 ∧ c.NodeList.length = 0
  · rw [if_pos h]
    rcases convertIPList_loop_spec c.IPList [] with ⟨nodes, h1, _⟩ | ⟨nodes, err, h1, _⟩
    · rw [h1]; exact ⟨rfl, rfl, rfl, rfl, rfl, rfl⟩
    · rw [h1]; exact ⟨rfl, rfl, rfl, rfl, rfl, rfl⟩
  · rw [if_neg h]; exact ⟨rfl, rfl, rfl, rfl, rfl, rfl⟩

/-- The method convertIPList, by cases. -/
theorem convertIPList_spec (c : Config) :
    ((c.IPList = [] ∨ c.NodeList ≠ []) → c.convertIPList = (c, none)) ∧
    ((c.IPList ≠ [] ∧ c.NodeList = []) →
      (∃ nodes, c.convertIPList = ({ c with NodeList := nodes }, none) ∧
        nodes.map some = c.IPList.map (fun e => (newNode e).1) ∧
        ∀ e ∈ c.IPList, (newNode e).2 = none) ∨
      (∃ err, c.convertIPList = (c, some err) ∧ ∃ e ∈ c.IPList, (newNode e).2 = some err)) := by
  unfold Config.convertIPList
  constructor
  · intro h
    have : ¬ (c.IPList.length > 0 ∧ c.NodeList.length = 0) := by
      rintro ⟨h1, h2⟩
      rcases h with h | h
      · rw [h] at h1; simp at h1
      · exact h (List.length_eq_zero.mp h2)
    rw [if_neg this]
  · rintro ⟨h1, h2⟩
    have : c.IPList.length > 0 ∧ c.NodeList.length = 0 :=
      ⟨List.length_pos.mpr h1, by rw [h2]; rfl⟩
    rw [if_pos this]
    rcases convertIPList_loop_spec c.IPList [] with ⟨nodes, h3, h4, h5⟩ | ⟨nodes, err, h3, h4⟩
    · rw [h3]
      exact Or.inl ⟨nodes, rfl, by simpa using h4, h5⟩
    · rw [h3]
      exact Or.inr ⟨err, rfl, h4⟩

/-- The three type names are different strings. -/
theorem type_names_ne : TypeStatic ≠ TypeConsul ∧ TypeStatic ≠ TypeDNS ∧ TypeConsul ≠ TypeDNS := by
  decide

/-- Validate on a static config whose node list is empty after the conversion of IPList
returns an error. -/
theorem Validate_static_empty (c : Config) (resolv : String → Option (List String × String))
    (hT : toLower c.Typ = TypeStatic) (hN : (c.convertIPList).1.NodeList = []) :
    ∃ c2 e, c.Validate resolv = some (c2, some e) := by
  have f1 := (convertIPList_fields c).1
  unfold Config.Validate
  rcases hc : c.convertIPList with ⟨c1, _ | e⟩
  · rw [hc] at f1 hN
    simp only at f1 hN ⊢
    rw [f1, if_pos hT, hN]
    exact ⟨_, _, rfl⟩
  · exact ⟨_, _, rfl⟩

/-- C15: Validate returns an error (not nil, and without panicking) whenever the type is
static and the node list is empty after the conversion of IPList, whenever the type is dns
and the DNS sub-config is nil, and whenever the type is consul and the Consul sub-config
is nil, whatever the other fields are. The type is compared in lower case, as the code
does. -/
theorem Validate_rejects_missing (c : Config) (resolv : String → Option (List String × String)) :
    (toLower c.Typ = TypeStatic → (c.convertIPList).1.NodeList = [] →
      ∃ c2 e, c.Validate resolv = some (c2, some e)) ∧
    (toLower c.Typ = TypeDNS → c.DNS = none →
      ∃ c2 e, c.Validate resolv = some (c2, some e)) ∧
    (toLower c.Typ = TypeConsul → c.Consul = none →
      ∃ c2 e, c.Validate resolv = some (c2, some e)) := by
  obtain ⟨f1, f2, f3, _⟩ := convertIPList_fields c
  obtain ⟨n1, n2, n3⟩ := type_names_ne
  refine ⟨?_, ?_, ?_⟩
  · intro hT hN
    unfold Config.Validate
    rcases hc : c.convertIPList with ⟨c1, _ | e⟩
    · rw [hc] at f1 hN
      simp only at f1 hN ⊢
      rw [f1, if_pos hT, hN]
      exact ⟨_, _, rfl⟩
    · exact ⟨_, _, rfl⟩
  · intro hT hD
    unfold Config.Validate
    rcases hc : c.convertIPList with ⟨c1, _ | e⟩
    · rw [hc] at f1 f2
      simp only at f1 f2 ⊢
      rw [f1, hT, if_neg (Ne.symm n2), if_neg (Ne.symm n3), if_pos rfl, f2, hD]
      exact ⟨_, _, rfl⟩
    · exact ⟨_, _, rfl⟩
  · intro hT hC
    unfold Config.Validate
    rcases hc : c.convertIPList with ⟨c1, _ | e⟩
    · rw [hc] at f1 f3
      simp only at f1 f3 ⊢
      rw [f1, hT, if_neg (Ne.symm n1), if_pos rfl, f3, hC]
      exact ⟨_, _, rfl⟩
    · exact ⟨_, _, rfl⟩

/-- Witness of C15: a static config without nodes, a dns config without `DNS`, a consul
config without `Consul`. -/
theorem Validate_rejects_missing_witness :
    (∃ c2 e, Config.Validate { Typ := "Static", Opts := exOpts } (fun _ => none)
      = some (c2, some e)) ∧
    (∃ c2 e, Config.Validate { Typ := "dns", NodeList := [exNodeA], Opts := exOpts }
      (fun _ => none) = some (c2, some e)) ∧
    (∃ c2 e, Config.Validate { Typ := "consul", NodeList := [exNodeA], Opts := exOpts }
      (fun _ => none) = some (c2, some e)) :=
  ⟨(Validate_rejects_missing { Typ := "Static", Opts := exOpts } (fun _ => none)).1
      (by decide) (by decide),
   (Validate_rejects_missing { Typ := "dns", NodeList := [exNodeA], Opts := exOpts }
      (fun _ => none)).2.1 (by decide) (by decide),
   (Validate_rejects_missing { Typ := "consul", NodeList := [exNodeA], Opts := exOpts }
      (fun _ => none)).2.2 (by decide) (by decide)⟩

/-- The loop of Validate over nodes that have an IP and a port: the `default=100` tag is
applied to every weight and no error is returned. -/
theorem validateNodes_of_valid (l : List Node) (h : ∀ n ∈ l, n.IP ≠ "" ∧ n.Port ≠ 0) :
    validateNodes l = (l.map (fun n => { n with Weight := defaultUint n.Weight 100 }), none) := by
  induction l with
  | nil => rfl
  | cons n rest ih =>
    obtain ⟨h1, h2⟩ := h n (List.mem_cons_self _ _)
    have hv : n.Validate = ({ n with Weight := defaultUint n.Weight 100 }, none) := by
      unfold Node.Validate
      rw [if_neg h1, if_neg h2]
    rw [validateNodes, hv, ih (fun m hm => h m (List.mem_cons_of_mem _ hm))]
    rfl

/-- When the loop of Validate over the nodes returns no error, it has applied the
`default=100` tag to every weight and changed nothing else. -/
theorem validateNodes_ok (l : List Node) : ∀ l2, validateNodes l = (l2, none) →
    l2 = l.map (fun n => { n with Weight := defaultUint n.Weight 100 }) ∧
    ∀ n ∈ l, n.IP ≠ "" ∧ n.Port ≠ 0 := by
  induction l with
  | nil =>
    intro l2 h
    simp only [validateNodes, Prod.mk.injEq] at h
    exact ⟨h.1.symm, by simp⟩
  | cons n rest ih =>
    intro l2 h
    by_cases h1 : n.IP = ""
    · have hv : n.Validate = ({ n with Weight := defaultUint n.Weight 100 }, some "IP required") := by
        unfold Node.Validate
        rw [if_pos h1]
      rw [validateNodes, hv] at h
      simp at h
    · by_cases h2 : n.Port = 0
      · have hv : n.Validate
            = ({ n with Weight := defaultUint n.Weight 100 }, some "Port required") := by
          unfold Node.Validate
          rw [if_neg h1, if_pos h2]
        rw [validateNodes, hv] at h
        simp at h
      · have hv : n.Validate = ({ n with Weight := defaultUint n.Weight 100 }, none) := by
          unfold Node.Validate
          rw [if_neg h1, if_neg h2]
        rw [validateNodes, hv] at h
        rcases hr : validateNodes rest with ⟨rest1, err⟩
        rw [hr] at h
        simp only [Prod.mk.injEq] at h
        obtain ⟨h3, h4⟩ := h
        subst h4
        obtain ⟨i1, i2⟩ := ih rest1 hr
        refine ⟨?_, ?_⟩
        · rw [← h3, i1]; rfl
        · intro m hm
          rcases List.mem_cons.mp hm with rfl | hm
          · exact ⟨h1, h2⟩
          · exact i2 m hm

/-- The tail of Validate keeps the node list. -/
theorem validateTail_NodeList (c : Config) : (c.validateTail).1.NodeList = c.NodeList := by
  unfold Config.validateTail Config.validatorStruct
  by_cases h : c.LBStrategy = 0
  · rw [if_pos h]
  · rw [if_neg h]

/-- The tail of Validate returns nil when `Type` is set and the sub-configs that are
present have their required fields. -/
theorem validateTail_ok (c : Config) (hT : c.Typ ≠ "")
    (hC : ∀ x, c.Consul = some x → x.ServiceName ≠ "")
    (hD : ∀ x, c.DNS = some x → x.Domain ≠ "") : (c.validateTail).2 = none := by
  have key : ∀ c : Config, c.Typ ≠ "" → (∀ x, c.Consul = some x → x.ServiceName ≠ "") →
      (∀ x, c.DNS = some x → x.Domain ≠ "") → (c.validatorStruct).2 = none := by
    intro c hT hC hD
    unfold Config.validatorStruct
    have e1 : (Option.map ConsulConfig.Validate c.Consul).bind Prod.snd = none := by
      cases hc : c.Consul with
      | none => rfl
      | some x =>
        have := hC x hc
        simp [ConsulConfig.Validate, this]
    have e2 : (Option.map DnsConfig.validatorStruct c.DNS).bind Prod.snd = none := by
      cases hc : c.DNS with
      | none => rfl
      | some x =>
        have := hD x hc
        simp [DnsConfig.validatorStruct, this]
    simp only [e1, e2, if_neg hT, Option.isSome_none, Bool.false_eq_true, if_false]
  unfold Config.validateTail
  by_cases h : c.LBStrategy = 0
  · rw [if_pos h]
    exact key _ hT hC hD
  · rw [if_neg h]
    exact key _ hT hC hD

/-- A static type is not the empty string. -/
theorem static_Typ_ne (s : String) (h : toLower s = TypeStatic) : s ≠ "" := by
  intro e
  subst e
  revert h
  decide

/-- Validate on a static config whose conversion succeeded with a non-empty node list. -/
theorem Validate_static_step (c c1 : Config) (resolv : String → Option (List String × String))
    (hT : toLower c.Typ = TypeStatic) (hc : c.convertIPList = (c1, none))
    (hN : c1.NodeList ≠ []) :
    c.Validate resolv =
      match validateNodes c1.NodeList with
      | (nodes, some e) => some ({ c1 with NodeList := nodes }, some e)
      | (nodes, none) => some (Config.validateTail { c1 with NodeList := nodes }) := by
  have f1 := (convertIPList_fields c).1
  rw [hc] at f1
  simp only at f1
  have hl : ¬ c1.NodeList.length = 0 := fun h => hN (List.length_eq_zero.mp h)
  unfold Config.Validate
  rw [hc]
  simp only
  rw [f1, if_pos hT, if_neg hl]

/-- The node newNode builds from the submatches of nodeInfoReg. -/
theorem newNode_of_groups (e ip port weight : String)
    (hr : nodeInfoReg e = some (ip, port, weight))
    (hp : port = "" ∨ digitsValue port.toList ≠ 0)
    (hw : weight = "" ∨ digitsValue weight.toList ≠ 0) :
    ∃ n, newNode e = (some n, none) ∧ n.IP ≠ "" ∧ n.Port ≠ 0 ∧ n.Weight ≠ 0 := by
  have hparse : ∀ s : String, (s = "" ∨ digitsValue s.toList ≠ 0) → ∀ d, d ≠ 0 →
      (parseUint16 s).getD d % 65536 ≠ 0 ∨ 65536 ≤ d := by
    intro s hs d hd
    unfold parseUint16
    by_cases h0 : s.toList = []
    · rw [if_pos h0]
      simp only [Option.getD_none]
      omega
    · rw [if_neg h0]
      by_cases h1 : digitsValue s.toList > 65535
      · rw [if_pos h1]
        simp only [Option.getD_none]
        omega
      · rw [if_neg h1]
        simp only [Option.getD_some]
        rcases hs with hs | hs
        · subst hs; exact absurd rfl h0
        · left; omega
  have hip : ip ≠ "" := by
    unfold nodeInfoReg at hr
    by_cases h : e.toList.takeWhile isDigitOrDot = []
    · simp only [h, if_true] at hr
      cases hr
    · simp only [h, if_false, Option.some.injEq, Prod.mk.injEq] at hr
      intro hnil
      apply h
      have := congrArg String.data (hr.1.trans hnil)
      simpa using this
  refine ⟨{ IP := ip
            Port := (parseUint16 port).getD defaultPort % 65536
            Weight := (parseUint16 weight).getD defaultWeight % 65536 }, ?_, hip, ?_, ?_⟩
  · unfold newNode
    rw [hr]
  · rcases hparse port hp defaultPort (by decide) with h | h
    · exact h
    · exact absurd h (by decide)
  · rcases hparse weight hw defaultWeight (by decide) with h | h
    · exact h
    · exact absurd h (by decide)

/-- Validate on a static config given by `IPList` only, every entry of which starts with
an IP and carries a non-zero port and a non-zero weight when given: nil is returned and
`NodeList` holds newNode of each entry, in order. -/
theorem Validate_static_IPList (c : Config) (resolv : String → Option (List String × String))
    (hT : toLower c.Typ = TypeStatic) (hN : c.NodeList = []) (hI : c.IPList ≠ [])
    (hE : ∀ e ∈ c.IPList, ∃ ip port weight, nodeInfoReg e = some (ip, port, weight) ∧
      (port = "" ∨ digitsValue port.toList ≠ 0) ∧
      (weight = "" ∨ digitsValue weight.toList ≠ 0))
    (hC : ∀ x, c.Consul = some x → x.ServiceName ≠ "")
    (hD : ∀ x, c.DNS = some x → x.Domain ≠ "") :
    ∃ c2, c.Validate resolv = some (c2, none) ∧
      c2.NodeList.map some = c.IPList.map (fun e => (newNode e).1) := by
  have hgood : ∀ e ∈ c.IPList, ∃ n, newNode e = (some n, none) ∧ n.IP ≠ "" ∧ n.Port ≠ 0 ∧
      n.Weight ≠ 0 := by
    intro e he
    obtain ⟨ip, port, weight, h1, h2, h3⟩ := hE e he
    exact newNode_of_groups e ip port weight h1 h2 h3
  rcases (convertIPList_spec c).2 ⟨hI, hN⟩ with ⟨nodes, h1, h2, _⟩ | ⟨err, _, e, he, h2⟩
  · have hmem : ∀ n ∈ nodes, n.IP ≠ "" ∧ n.Port ≠ 0 ∧ n.Weight ≠ 0 := by
      intro n hn
      have : some n ∈ nodes.map some := List.mem_map_of_mem _ hn
      rw [h2] at this
      obtain ⟨e, he, hne⟩ := List.mem_map.mp this
      obtain ⟨m, hm1, hm2⟩ := hgood e he
      rw [hm1] at hne
      simp only [Option.some.injEq] at hne
      subst hne
      exact hm2
    have hnodes : nodes ≠ [] := by
      intro hnil
      rw [hnil] at h2
      have := congrArg List.length h2
      simp only [List.map_nil, List.length_nil, List.length_map] at this
      exact hI (List.length_eq_zero.mp this.symm)
    have hmap : nodes.map (fun n => { n with Weight := defaultUint n.Weight 100 }) = nodes := by
      conv => rhs; rw [← List.map_id nodes]
      apply List.map_congr_left
      intro n hn
      have := (hmem n hn).2.2
      simp [defaultUint, this]
    have hv := validateNodes_of_valid nodes (fun n hn => ⟨(hmem n hn).1, (hmem n hn).2.1⟩)
    rw [hmap] at hv
    have hstep := Validate_static_step c _ resolv hT h1 hnodes
    simp only [hv] at hstep
    refine ⟨(Config.validateTail { c with NodeList := nodes }).1, ?_, ?_⟩
    · rw [hstep]
      have := validateTail_ok { c with NodeList := nodes } (static_Typ_ne _ hT) hC hD
      rw [← this]
    · rw [validateTail_NodeList]
      exact h2
  · obtain ⟨n, hn, _⟩ := hgood e he
    rw [hn] at h2
    simp at h2

/-- C16: Validate on a static config given by a non-empty `IPList` only, every entry of
which starts with an IP and carries a non-zero port and a non-zero weight when given,
returns nil and leaves in `NodeList` newNode of each entry, in order; on the config of the
test the canonical names are the three expected ones; and when some entry is rejected by
newNode, Validate returns the error of a rejected entry and the config (with its empty
`NodeList`) is left as it was. -/
theorem Validate_IPList_conversion (c : Config)
    (resolv : String → Option (List String × String)) :
    (toLower c.Typ = TypeStatic → c.NodeList = [] → c.IPList ≠ [] →
      (∀ e ∈ c.IPList, ∃ ip port weight, nodeInfoReg e = some (ip, port, weight) ∧
        (port = "" ∨ digitsValue port.toList ≠ 0) ∧
        (weight = "" ∨ digitsValue weight.toList ≠ 0)) →
      (∀ x, c.Consul = some x → x.ServiceName ≠ "") →
      (∀ x, c.DNS = some x → x.Domain ≠ "") →
      ∃ c2, c.Validate resolv = some (c2, none) ∧
        c2.NodeList.map some = c.IPList.map (fun e => (newNode e).1)) ∧
    (∃ c2, exTestConfig.Validate resolv = some (c2, none) ∧
      c2.NodeList.map Node.String
        = ["127.0.0.1:7780_w1000", "127.0.0.1:7781_w200", "127.0.0.1:7780_w400"]) ∧
    (c.NodeList = [] → (∃ e ∈ c.IPList, (newNode e).2 ≠ none) →
      ∃ e ∈ c.IPList, ∃ err, (newNode e).2 = some err ∧
        c.Validate resolv = some (c, some err)) := by
  refine ⟨Validate_static_IPList c resolv, ?_, ?_⟩
  · obtain ⟨c2, h1, h2⟩ := Validate_static_IPList exTestConfig resolv (by decide) (by decide)
      (by decide)
      (by
        intro e he
        have he2 : e = "127.0.0.1:7780 weight=1000" ∨ e = "127.0.0.1:7781 weight=200" ∨
            e = "127.0.0.1:7780 weight=400" := by
          simpa [exTestConfig] using he
        rcases he2 with rfl | rfl | rfl
        · exact ⟨"127.0.0.1", "7780", "1000", by decide, Or.inr (by decide), Or.inr (by decide)⟩
        · exact ⟨"127.0.0.1", "7781", "200", by decide, Or.inr (by decide), Or.inr (by decide)⟩
        · exact ⟨"127.0.0.1", "7780", "400", by decide, Or.inr (by decide), Or.inr (by decide)⟩)
      (by
        intro x hx
        obtain rfl := Option.some.inj hx
        decide)
      (by
        intro x hx
        obtain rfl := Option.some.inj hx
        decide)
    refine ⟨c2, h1, ?_⟩
    have h3 : exTestConfig.IPList.map (fun e => (newNode e).1)
        = [({ IP := "127.0.0.1", Port := 7780, Weight := 1000 } : Node),
           { IP := "127.0.0.1", Port := 7781, Weight := 200 },
           { IP := "127.0.0.1", Port := 7780, Weight := 400 }].map some := by
      decide
    rw [h3] at h2
    have h4 := (List.map_injective_iff.mpr (Option.some_injective Node)) h2
    rw [h4]
    decide
  · intro hN hbad
    have hI : c.IPList ≠ [] := by
      obtain ⟨e, he, _⟩ := hbad
      exact List.ne_nil_of_mem he
    rcases (convertIPList_spec c).2 ⟨hI, hN⟩ with ⟨nodes, _, _, h3⟩ | ⟨err, h1, e, he, h2⟩
    · obtain ⟨e, he, hne⟩ := hbad
      exact absurd (h3 e he) hne
    · refine ⟨e, he, err, h2, ?_⟩
      unfold Config.Validate
      rw [h1]

/-- Witness of C16: the config of the test, and a config whose second entry is rejected. -/
theorem Validate_IPList_conversion_witness :
    (∃ c2, exTestConfig.Validate (fun _ => none) = some (c2, none) ∧
      c2.NodeList.map some = exTestConfig.IPList.map (fun e => (newNode e).1)) ∧
    (∃ e ∈ exBadIPListConfig.IPList, ∃ err, (newNode e).2 = some err ∧
      exBadIPListConfig.Validate (fun _ => none) = some (exBadIPListConfig, some err)) :=
  ⟨(Validate_IPList_conversion exTestConfig (fun _ => none)).1 (by decide) (by decide)
      (by decide)
      (fun e he =>
        have he2 : e = "127.0.0.1:7780 weight=1000" ∨ e = "127.0.0.1:7781 weight=200" ∨
            e = "127.0.0.1:7780 weight=400" := by
          simpa [exTestConfig] using he
        match he2 with
        | Or.inl h => ⟨"127.0.0.1", "7780", "1000", by rw [h]; decide, Or.inr (by decide),
            Or.inr (by decide)⟩
        | Or.inr (Or.inl h) => ⟨"127.0.0.1", "7781", "200", by rw [h]; decide,
            Or.inr (by decide), Or.inr (by decide)⟩
        | Or.inr (Or.inr h) => ⟨"127.0.0.1", "7780", "400", by rw [h]; decide,
            Or.inr (by decide), Or.inr (by decide)⟩)
      (fun x hx => by
        obtain rfl := Option.some.inj hx
        decide)
      (fun x hx => by
        obtain rfl := Option.some.inj hx
        decide),
   (Validate_IPList_conversion exBadIPListConfig (fun _ => none)).2.2 (by decide)
      ⟨"localhost:7781", by decide, by decide⟩⟩

/-- What a successful Validate of a static config leaves in `NodeList`: the nodes that the
conversion of `IPList` left there, each with the `default=100` tag applied to its weight. -/
theorem Validate_static_ok (c c2 : Config) (resolv : String → Option (List String × String))
    (hT : toLower c.Typ = TypeStatic) (hV : c.Validate resolv = some (c2, none)) :
    (c.convertIPList).2 = none ∧
    c2.NodeList = ((c.convertIPList).1.NodeList).map
      (fun n => { n with Weight := defaultUint n.Weight 100 }) := by
  rcases hc : c.convertIPList with ⟨c1, _ | e⟩
  · refine ⟨rfl, ?_⟩
    simp only
    by_cases hN : c1.NodeList = []
    · obtain ⟨_, e, h⟩ := Validate_static_empty c resolv hT (by rw [hc]; exact hN)
      rw [h] at hV
      simp at hV
    · have hstep := Validate_static_step c c1 resolv hT hc hN
      rw [hV] at hstep
      rcases hv : validateNodes c1.NodeList with ⟨nodes, _ | e⟩
      · rw [hv] at hstep
        simp only [Option.some.injEq] at hstep
        have h1 := congrArg (fun r => r.1.NodeList) hstep
        simp only [validateTail_NodeList] at h1
        rw [h1]
        exact (validateNodes_ok c1.NodeList nodes hv).1
      · rw [hv] at hstep
        simp at hstep
  · have : c.Validate resolv = some (c1, some e) := by
      unfold Config.Validate
      rw [hc]
    rw [this] at hV
    simp at hV

/-- C17 as the code has it: after a successful Validate of a static config, a node given
in `NodeList` with Weight 0 has Weight 100 and a node given with another weight keeps it;
a node produced from an `IPList` string without a `weight=N` clause has Weight 1, the
default of the parser, which the `default=100` tag leaves alone. -/
theorem Validate_static_weights (c c2 : Config)
    (resolv : String → Option (List String × String))
    (hT : toLower c.Typ = TypeStatic) (hV : c.Validate resolv = some (c2, none)) :
    (c.NodeList ≠ [] →
      c2.NodeList = c.NodeList.map
        (fun n => { n with Weight := if n.Weight = 0 then 100 else n.Weight })) ∧
    (c.NodeList = [] → c2.NodeList.length = c.IPList.length ∧
      ∀ (i : Nat) (e : String) (n : Node), c.IPList[i]? = some e → c2.NodeList[i]? = some n →
        ∀ ip port, nodeInfoReg e = some (ip, port, "") → n.Weight = 1) := by
  obtain ⟨h1, h2⟩ := Validate_static_ok c c2 resolv hT hV
  constructor
  · intro hN
    rw [(convertIPList_spec c).1 (Or.inr hN)] at h2
    exact h2
  · intro hN
    by_cases hI : c.IPList = []
    · rw [(convertIPList_spec c).1 (Or.inl hI)] at h2
      simp only [hN, List.map_nil] at h2
      obtain ⟨_, e, h⟩ := Validate_static_empty c resolv hT
        (by rw [(convertIPList_spec c).1 (Or.inl hI)]; exact hN)
      rw [h] at hV
      simp at hV
    · rcases (convertIPList_spec c).2 ⟨hI, hN⟩ with ⟨nodes, h3, h4, _⟩ | ⟨err, h3, _⟩
      · rw [h3] at h2
        simp only at h2
        have hlen : nodes.length = c.IPList.length := by
          have := congrArg List.length h4
          simpa using this
        refine ⟨by rw [h2, List.length_map, hlen], ?_⟩
        intro i e n hi hn ip port hr
        rw [h2, List.getElem?_map] at hn
        cases hm : nodes[i]? with
        | none => rw [hm] at hn; simp at hn
        | some m =>
          rw [hm] at hn
          simp only [Option.map_some', Option.some.injEq] at hn
          have h5 := congrArg (fun l => l[i]?) h4
          simp only [List.getElem?_map, hm, hi, Option.map_some'] at h5
          have h6 : newNode e = (some { IP := ip
                                        Port := (parseUint16 port).getD defaultPort % 65536
                                        Weight := (parseUint16 "").getD defaultWeight % 65536 },
                                  none) := by
            unfold newNode
            rw [hr]
          rw [h6] at h5
          simp only [Option.some.injEq] at h5
          rw [← hn, h5]
          show defaultUint ((parseUint16 "").getD defaultWeight % 65536) 100 = 1
          decide
      · rw [h3] at h1
        simp at h1

/-- Witness of C17 as amended: the config with one struct-literal node of Weight 0. -/
theorem Validate_static_weights_witness :
    (exZeroWeightConfig.NodeList ≠ [] →
      exZeroWeightValidated.NodeList = exZeroWeightConfig.NodeList.map
        (fun n => { n with Weight := if n.Weight = 0 then 100 else n.Weight })) ∧
    (exZeroWeightConfig.NodeList = [] →
      exZeroWeightValidated.NodeList.length = exZeroWeightConfig.IPList.length ∧
      ∀ (i : Nat) (e : String) (n : Node), exZeroWeightConfig.IPList[i]? = some e →
        exZeroWeightValidated.NodeList[i]? = some n →
        ∀ ip port, nodeInfoReg e = some (ip, port, "") → n.Weight = 1) :=
  Validate_static_weights exZeroWeightConfig exZeroWeightValidated (fun _ => none)
    (by decide) (by decide)

/-- C17, the code on an `IPList` string without a weight clause: Validate of the static
config with the single entry `127.0.0.1:7780` returns nil and the node has Weight 1, not
100; the struct-literal node with Weight 0 of the sibling config gets Weight 100. -/
theorem Validate_IPList_weight_is_one :
    (exNoWeightConfig.Validate (fun _ => none)).map (fun r => (r.2, r.1.NodeList))
      = some (none, [{ IP := "127.0.0.1", Port := 7780, Weight := 1 }]) ∧
    (exZeroWeightConfig.Validate (fun _ => none)).map (fun r => (r.2, r.1.NodeList))
      = some (none, [{ IP := "127.0.0.1", Port := 7780, Weight := 100 }]) := by
  decide

/-! ## watcher.equals -/

/-- Sorting gives the same list for two lists that are permutations of each other. -/
theorem sortStrings_perm (a b : List String) (h : a.Perm b) : sortStrings a = sortStrings b := by
  unfold sortStrings
  apply List.eq_of_perm_of_sorted (r := fun a b : String => a ≤ b)
  · exact ((List.perm_insertionSort _ a).trans h).trans (List.perm_insertionSort _ b).symm
  · exact List.sorted_insertionSort _ a
  · exact List.sorted_insertionSort _ b

theorem sortStrings_length (a : List String) : (sortStrings a).length = a.length :=
  List.length_insertionSort _ a

/-- Element-wise comparison of two lists of the same length. -/
theorem zip_all_eq (a : List String) : ∀ b : List String, a.length = b.length →
    ((List.zip a b).all (fun p => p.1 == p.2) = true ↔ a = b) := by
  induction a with
  | nil =>
    intro b h
    cases b with
    | nil => simp
    | cons y ys => simp at h
  | cons x xs ih =>
    intro b h
    cases b with
    | nil => simp at h
    | cons y ys =>
      have hl : xs.length = ys.length := by simpa using h
      simp only [List.zip_cons_cons, List.all_cons, Bool.and_eq_true, beq_iff_eq, ih ys hl,
        List.cons.injEq]

/-- What watcher.equals computes. -/
theorem watcher.equals_sorted_iff (w : watcher) (nodes : List Node) :
    w.equals nodes = true ↔
      nodes = [] ∨ sortStrings (nodes.map Node.String) = sortStrings (w.nodes.map Node.String) := by
  unfold watcher.equals
  by_cases h0 : nodes.length = 0
  · rw [if_pos h0]
    simp [List.length_eq_zero.mp h0]
  · rw [if_neg h0]
    have hne : nodes ≠ [] := fun h => h0 (by rw [h]; rfl)
    by_cases h1 : nodes.length ≠ w.nodes.length
    · rw [if_pos h1]
      constructor
      · intro h; simp at h
      · rintro (h | h)
        · exact absurd h hne
        · have := congrArg List.length h
          rw [sortStrings_length, sortStrings_length, List.length_map, List.length_map] at this
          exact absurd this h1
    · rw [if_neg h1]
      have h2 : nodes.length = w.nodes.length := not_not.mp h1
      have ht : w.nodes.take nodes.length = w.nodes := by
        rw [h2]; exact List.take_length _
      simp only [ht]
      rw [zip_all_eq _ _ (by
        rw [sortStrings_length, sortStrings_length, List.length_map, List.length_map, h2])]
      constructor
      · intro h; exact Or.inr h
      · rintro (h | h)
        · exact absurd h hne
        · exact h

/-- C19: watcher.equals answers true exactly when the new list is empty or the sorted
canonical names of the new nodes and of the stored nodes are the same list (the same
length and equal elements position by position); so the answer is the same for every
reordering of either list, and a non-empty list whose length differs from that of the
stored set is never equal. -/
theorem watcher_equals_sorted (w : watcher) (nodes : List Node) :
    (w.equals nodes = true ↔
      nodes = [] ∨
        sortStrings (nodes.map Node.String) = sortStrings (w.nodes.map Node.String)) ∧
    (∀ (w2 : watcher) (nodes2 : List Node), nodes.Perm nodes2 → w.nodes.Perm w2.nodes →
      w2.equals nodes2 = w.equals nodes) ∧
    (nodes ≠ [] → nodes.length ≠ w.nodes.length → w.equals nodes = false) := by
  refine ⟨watcher.equals_sorted_iff w nodes, ?_, ?_⟩
  · intro w2 nodes2 hp hq
    have h1 : sortStrings (nodes2.map Node.String) = sortStrings (nodes.map Node.String) :=
      sortStrings_perm _ _ (hp.symm.map _)
    have h2 : sortStrings (w2.nodes.map Node.String) = sortStrings (w.nodes.map Node.String) :=
      sortStrings_perm _ _ (hq.symm.map _)
    have h3 : nodes2 = [] ↔ nodes = [] := by
      constructor
      · intro h; rw [h] at hp; exact List.perm_nil.mp hp
      · intro h; rw [h] at hp; exact List.nil_perm.mp hp
    have h4 : w2.equals nodes2 = true ↔ w.equals nodes = true := by
      rw [watcher.equals_sorted_iff, watcher.equals_sorted_iff, h1, h2, h3]
    cases ha : w2.equals nodes2 <;> cases hb : w.equals nodes <;> simp_all
  · intro hne hlen
    cases hb : w.equals nodes with
    | false => rfl
    | true =>
      rcases (watcher.equals_sorted_iff w nodes).mp hb with h | h
      · exact absurd h hne
      · have := congrArg List.length h
        rw [sortStrings_length, sortStrings_length, List.length_map, List.length_map] at this
        exact absurd this hlen

/-- Witness of C19: the stored set `[A, B]` against `[B, A]` (and against `[A, B]` with the
stored set reordered), and against the shorter list `[A]`. -/
theorem watcher_equals_sorted_witness :
    ((newWatcher exConfig).equals [exNodeB, exNodeA] = true ∧
     (newWatcher { exConfig with NodeList := [exNodeB, exNodeA] }).equals [exNodeA, exNodeB]
       = (newWatcher exConfig).equals [exNodeB, exNodeA]) ∧
    (newWatcher exConfig).equals [exNodeA] = false :=
  ⟨⟨(watcher_equals_sorted (newWatcher exConfig) [exNodeB, exNodeA]).1.mpr
      (Or.inr (sortStrings_perm _ _ (List.Perm.swap _ _ _))),
    (watcher_equals_sorted (newWatcher exConfig) [exNodeB, exNodeA]).2.1
      (newWatcher { exConfig with NodeList := [exNodeB, exNodeA] }) [exNodeA, exNodeB]
      (List.Perm.swap _ _ _) (List.Perm.swap _ _ _)⟩,
   (watcher_equals_sorted (newWatcher exConfig) [exNodeA]).2.2 (by decide) (by decide)⟩

/-! ## Weighted round robin: reconciliation in the watch loop -/

/-- From a stale state the selection loop is still running after any number of rounds. -/
theorem WeightedRoundRobinLB.loop_stale (fuel : Nat) : ∀ cc : WeightedRoundRobinLB, cc.Stale →
    WeightedRoundRobinLB.get.loop fuel cc = .pending := by
  induction fuel with
  | zero => intro cc _; rfl
  | succ f ih =>
    intro cc h
    obtain ⟨⟨c0, c1, hcl, hw0, hw1⟩, hg, hm, h4, hlt, hi⟩ := h
    have hlen : cc.clients.length = 2 := by rw [hcl]; rfl
    have hnext : cc.nextCw % 4 = 0 ∧ cc.nextCw < 65536 ∧ 4 ≤ cc.nextCw := by
      unfold WeightedRoundRobinLB.nextCw
      rw [hg, hm]
      split_ifs <;> omega
    have hstart : ∀ k : Nat, cc.i = (k : Int) - 1 → k % 2 = 0 →
        WeightedRoundRobinLB.get.loop (f + 1) cc = .pending := by
      intro k hk hk2
      have hc : cc.clients[k % cc.clients.length]? = some c0 := by
        rw [hlen, hk2, hcl]; rfl
      rw [WeightedRoundRobinLB.loop_miss cc f k (by omega) hk (by omega) c0 hc
        (by rw [hlen, hk2, hw0]; simp only [if_true]; omega)]
      apply ih
      refine ⟨⟨c0, c1, hcl, hw0, hw1⟩, hg, hm, ?_, ?_, Or.inr (Or.inr ⟨?_, ?_⟩)⟩
      · show (if k % cc.clients.length = 0 then cc.nextCw else cc.cw) % 4 = 0
        rw [hlen, hk2]; exact hnext.1
      · show (if k % cc.clients.length = 0 then cc.nextCw else cc.cw) < 65536
        rw [hlen, hk2]; exact hnext.2.1
      · show ((k % cc.clients.length : Nat) : Int) = 0
        rw [hlen, hk2]; rfl
      · show 4 ≤ (if k % cc.clients.length = 0 then cc.nextCw else cc.cw)
        rw [hlen, hk2]; exact hnext.2.2
    rcases hi with hi | hi | ⟨hi, hc4⟩
    · exact hstart 0 (by rw [hi]; rfl) rfl
    · exact hstart 2 (by rw [hi]; rfl) rfl
    · have hc : cc.clients[1 % cc.clients.length]? = some c1 := by
        rw [hlen, hcl]; rfl
      rw [WeightedRoundRobinLB.loop_miss cc f 1 (by omega) (by rw [hi]; rfl) (by omega) c1 hc
        (by rw [hlen, hw1]; simp only [Nat.one_mod, one_ne_zero, if_false]; omega)]
      apply ih
      refine ⟨⟨c0, c1, hcl, hw0, hw1⟩, hg, hm, ?_, ?_, Or.inr (Or.inl ?_)⟩
      · show (if 1 % cc.clients.length = 0 then cc.nextCw else cc.cw) % 4 = 0
        rw [hlen]; exact h4
      · show (if 1 % cc.clients.length = 0 then cc.nextCw else cc.cw) < 65536
        rw [hlen]; exact hlt
      · show ((1 % cc.clients.length : Nat) : Int) = 1
        rw [hlen]; rfl

/-- C18, the code at a round of the watch loop that changes the pool set: the balancer is
constructed from a Consul configuration with the fallback node A (weight 100) while the
query fails, so `fetchOnce` stores gcd 100 and maxWeight 100; the next round of the watch
loop receives A and B with weight 1 and replaces the pools, but `gcd` and `maxWeight`
stay 100 although the weights of the new pools have gcd 1 and maximum 1; from then on Get
is still inside its loop after any number of rounds. -/
theorem watchStep_keeps_stale_gcd :
    ((NewWeightedRoundRobinLB exConsulWeightedConfig { consul := none } 0).value?.map
        WeightedRoundRobinLB.weightState = some ([100], 100, 100)) ∧
    (gcdx (exNodesOnes.map Node.Weight)).value? = some 1 ∧ getMaxWeight exNodesOnes = 1 ∧
    ∃ lb, exStaleWeighted = .done lb ∧
      lb.clients.map HostClient.Name = exNodesOnes.map Node.String ∧
      lb.weightState = ([1, 1], 100, 100) ∧
      ∀ fuel, lb.get fuel = .pending := by
  refine ⟨by decide, by decide, by decide, ?_⟩
  have hA : exStaleWeighted.value?.map
      (fun lb => (lb.weightState, lb.selState, lb.clients.map HostClient.Name))
      = some (([1, 1], 100, 100), (-1, 0, false), exNodesOnes.map Node.String) := by decide
  cases h : exStaleWeighted with
  | panic => rw [h] at hA; simp [Run.value?] at hA
  | pending => rw [h] at hA; simp [Run.value?] at hA
  | done lb =>
    rw [h] at hA
    simp only [Run.value?, Option.map_some', Option.some.injEq, Prod.mk.injEq,
      WeightedRoundRobinLB.weightState, WeightedRoundRobinLB.selState] at hA
    obtain ⟨⟨hw, hg, hm⟩, ⟨hi, hcw, hon⟩, hnodes⟩ := hA
    refine ⟨lb, rfl, hnodes, by simp only [WeightedRoundRobinLB.weightState, hw, hg, hm], ?_⟩
    intro fuel
    have hcl : ∃ c0 c1, lb.clients = [c0, c1] ∧ c0.node.Weight = 1 ∧ c1.node.Weight = 1 := by
      unfold WeightedRoundRobinLB.weights at hw
      match hl : lb.clients, hw with
      | [c0, c1], hw =>
        simp only [List.map_cons, List.map_nil, List.cons.injEq, and_true] at hw
        exact ⟨c0, c1, rfl, hw.1, hw.2⟩
      | [], hw => simp at hw
      | [_], hw => simp at hw
      | _ :: _ :: _ :: _, hw => simp at hw
    have hlen : ¬ lb.clients.length = 0 := by
      obtain ⟨c0, c1, h1, _⟩ := hcl
      rw [h1]; simp
    unfold WeightedRoundRobinLB.get
    simp only [hon, Bool.false_eq_true, if_false, WeightedRoundRobinLB.init, hlen, Option.map_some',
      Run.ofOption, Run.bind]
    apply WeightedRoundRobinLB.loop_stale
    exact ⟨hcl, hg, hm, by simp only [hcw], by simp only [hcw]; decide, Or.inl hi⟩

/-! ## LeastLoadedLB.Do -/

/-- C20, the code of LeastLoadedLB.Do: whatever `Timeout` is, Do invokes the untimed `Do`
of the selected pool, where DoTimeout and DoDeadline pass their timeout and deadline on;
on the balancer built from `exConfig`, whose `Timeout` is 20 s, the operation issued is
`Do` and so differs, for every clock reading `now`, from `DoDeadline` with the deadline
`now + Timeout`. -/
theorem LeastLoadedLB_Do_untimed :
    (∀ (cc : LeastLoadedLB) (net : Transport) (req : Request),
      (cc.Do net req).map (fun r => (r.pool, r.op))
        = (cc.get).map (fun c => (c.c, PoolCall.Do req))) ∧
    (∀ (cc : LeastLoadedLB) (net : Transport) (req : Request) (t : Int),
      (cc.DoTimeout net req t).map (fun r => (r.pool, r.op))
        = (cc.get).map (fun c => (c.c, PoolCall.DoTimeout req t)) ∧
      (cc.DoDeadline net req t).map (fun r => (r.pool, r.op))
        = (cc.get).map (fun c => (c.c, PoolCall.DoDeadline req t))) ∧
    (exTimedLeastLB.value?.map (fun lb => (decide (lb.Timeout > 0), lb.Timeout,
        (lb.Do exTransport { uri := "http://test/api" }).map (fun r => (r.pool.Name, r.op))))
      = some (true, 20000000000,
          some ("10.0.0.1:80_w100", PoolCall.Do { uri := "http://test/api" }))) ∧
    (∀ (req : Request) (now timeout : Int),
      PoolCall.Do req ≠ PoolCall.DoDeadline req (now + timeout)) := by
  refine ⟨?_, ?_, by decide, ?_⟩
  · intro cc net req
    unfold LeastLoadedLB.Do
    cases cc.get with
    | none => rfl
    | some c => rfl
  · intro cc net req t
    unfold LeastLoadedLB.DoTimeout LeastLoadedLB.DoDeadline
    cases cc.get with
    | none => exact ⟨rfl, rfl⟩
    | some c => exact ⟨rfl, rfl⟩
  · intro req now timeout h
    cases h

/-! ## HealthCheck of the least-loaded balancer -/

/-- C21, the code after an assignment to `HealthCheck`: Do of a LeastLoadedLB reads the
LBClients built by the last `init` and never the field, so the assignment changes nothing;
on the balancer NewLeastLB builds from `exConfig` every LBClient has a nil predicate, and
after `exAlwaysUnhealthy` is assigned a call that returns without error is still
post-processed as healthy (penalty 0, total 1), where the predicate asks for penalty 1,
total 0. The first Get of a RoundRobinLB, which runs `init` through `once.Do`, does
return an LBClient that consults the assigned predicate. -/
theorem HealthCheck_assigned_after_New_unused :
    (∀ (cc : LeastLoadedLB) (hc : HealthCheck) (net : Transport) (req : Request),
      LeastLoadedLB.Do { cc with HealthCheck := hc } net req = cc.Do net req) ∧
    (exTimedLeastLB.value?.map (fun lb =>
        (lb.cs.map (fun c => c.healthCheck.isNone),
         lb.countersAfterDo (some exAlwaysUnhealthy) exTransport exRequest))
      = some ([true, true], some (0, 1))) ∧
    ((({ c := exPoolA, healthCheck := some exAlwaysUnhealthy } : lbClient).panalty exRequest
        { statusCode := 200 } none).1.penalty = 1 ∧
     (({ c := exPoolA, healthCheck := some exAlwaysUnhealthy } : lbClient).panalty exRequest
        { statusCode := 200 } none).1.total = 0) ∧
    ((NewRoundRobinLB exConfig {} 0).value?.bind (fun lb =>
        (RoundRobinLB.get { lb with HealthCheck := some exAlwaysUnhealthy }).map
          (fun r => r.1.isHealthy exRequest { statusCode := 200 } none))
      = some false) := by
  refine ⟨fun _ _ _ _ => rfl, by decide, by decide, by decide⟩

/-! ## gcdx on weights that may be zero -/

/-- C23, the code on a first weight 0: gcdx panics (`x % y` with `y = 0`) on every list of
two or more weights that starts with 0, e.g. on `[0, 5]` whose greatest common divisor is
5; it returns 0 on the empty list, the weight itself on a single weight, and the greatest
common divisor whenever the first weight is positive. A weighted balancer constructed
from a DNS configuration that Validate accepts panics in `fetchOnce` when the first
record of the SRV answer has weight 0. -/
theorem gcdx_zero_head_panics :
    (∀ (x : Nat) (rest : List Nat), gcdx (0 :: x :: rest) = Run.panic) ∧
    ((gcdx [0, 5]).isPanic = true ∧ [0, 5].foldr Nat.gcd 0 = 5) ∧
    gcdx [] = Run.done 0 ∧
    (∀ w : Nat, gcdx [w] = Run.done w) ∧
    (∀ (y : Nat) (rest : List Nat),
      gcdx ((y + 1) :: rest) = Run.done (((y + 1) :: rest).foldr Nat.gcd 0)) ∧
    (exSrvConfig.Validate (fun _ => none) = some (exSrvConfig, none) ∧
     (NewWeightedRoundRobinLB exSrvConfig exSrvZeroFirst 0).isPanic = true) := by
  refine ⟨fun _ _ => rfl, by decide, rfl, fun _ => rfl, ?_, by decide⟩
  intro y rest
  exact gcdx_outer_spec rest (y + 1) (Nat.succ_pos y)

/-! ## Round robin: the counter after 2^31 - 1 calls -/

/-- A negative remainder makes the indexing of Get panic. -/
theorem RoundRobinLB.get_negative (cc : RoundRobinLB) (honce : cc.once = true)
    (h : Int.tmod (wrapInt32 (cc.index + 1)) cc.cs.length < 0) : cc.get = none := by
  unfold RoundRobinLB.get
  simp only [honce, if_true, Option.bind]
  by_cases h0 : cc.cs.length = 0
  · simp only [h0, if_true]
  · simp only [h0, if_false, h, if_true]

/-- C24, the code at the counter value 2^31 - 1: the atomic increment wraps to -2^31, the
remainder `int(i) % len(cs)` of Go keeps the sign (-2 for three LBClients), and indexing
`cs` with it panics; the same holds for every balancer with three LBClients whose `init`
has run, and for the call after it (remainder -1). -/
theorem RoundRobinLB_get_panics_after_wrap :
    (wrapInt32 (2147483647 + 1) = -2147483648 ∧ Int.tmod (-2147483648) 3 = -2) ∧
    ((NewRoundRobinLB exThreeConfig {} 0).value?.map (fun lb =>
        (lb.cs.length, (RoundRobinLB.get { lb with index := 2147483647 }).isNone))
      = some (3, true)) ∧
    (∀ (cc : RoundRobinLB) (c0 c1 c2 : lbClient),
      RoundRobinLB.get { cc with once := true, cs := [c0, c1, c2], index := 2147483647 } = none ∧
      RoundRobinLB.get { cc with once := true, cs := [c0, c1, c2], index := -2147483648 }
        = none) := by
  refine ⟨by decide, by decide, ?_⟩
  intro cc c0 c1 c2
  constructor
  · apply RoundRobinLB.get_negative _ rfl
    show Int.tmod (wrapInt32 (2147483647 + 1)) 3 < 0
    decide
  · apply RoundRobinLB.get_negative _ rfl
    show Int.tmod (wrapInt32 (-2147483648 + 1)) 3 < 0
    decide

/-! ## The DNS watcher -/

/-- C26, the code on a record type that is neither A nor SRV: Validate accepts the type
`CNAME` and stores the numeric type of A records in `dnsType`, but watchDns compares the
string `Type` again, matches neither `A` nor `SRV`, and returns nil at once, whatever the
DNS server would answer; the watcher hands the empty list on. With `srv` and with `a` the
SRV path and the A path are run. -/
theorem watchDns_other_type_resolves_nothing :
    (exCnameConfig.Validate (fun _ => none) = some (exCnameValidated, none) ∧
     exCnameValidated.DNS.map (fun dc => (dc.Typ, dc.dnsType)) = some ("CNAME", dnsTypeA)) ∧
    (∀ input : WatchInput,
      (newWatcher exCnameValidated).watch exCnameValidated input
        = Run.done ([], newWatcher exCnameValidated)) ∧
    (∀ (w : watcher) (dc : DnsConfig) (input : WatchInput),
      watcher.watchDns { w with config := { w.config with DNS := some { dc with Typ := "srv" } } }
          input
        = watcher.digSRV { w with config := { w.config with DNS := some { dc with Typ := "srv" } } }
            input.dns ∧
      watcher.watchDns { w with config := { w.config with DNS := some { dc with Typ := "a" } } }
          input
        = watcher.digA { w with config := { w.config with DNS := some { dc with Typ := "a" } } }
            { dc with Typ := "a" } input.dns) := by
  refine ⟨by decide, fun _ => rfl, fun _ _ _ => ⟨rfl, rfl⟩⟩

/-- C28, the code of the A-record path on an answer section with a record that is not an
A record: the type assertion `a.(*dns.A)` panics, whatever comes before (A records) and
after it, so digA panics on a successful response that starts with a CNAME record. On an
answer section of A records only the list has one node per record, in order, with the
address of the record, the configured port and weight 100. -/
theorem digA_panics_on_other_record :
    (∀ (port : Nat) (pre : List (String × String)) (name : String) (post : List DnsRR),
      digA.nodes port (pre.map (fun p => DnsRR.A p.1 p.2) ++ DnsRR.other name :: post) = none) ∧
    (∀ (w : watcher) (dc : DnsConfig) (rest : List (Option DnsMsg)),
      w.digA dc (some exCnameAnswer :: rest) = Run.panic) ∧
    (∀ (port : Nat) (l : List (String × String)),
      digA.nodes port (l.map (fun p => DnsRR.A p.1 p.2))
        = some (l.map (fun p => { IP := p.2, Port := port, Weight := 100 }))) := by
  refine ⟨?_, fun _ _ _ => rfl, ?_⟩
  · intro port pre name post
    induction pre with
    | nil => rfl
    | cons p rest ih =>
      simp only [List.map_cons, List.cons_append]
      rw [digA.nodes, ih]
      rfl
  · intro port l
    induction l with
    | nil => rfl
    | cons p rest ih =>
      simp only [List.map_cons, digA.nodes, ih, Option.map_some']

/-! ## newNode: what is matched and what is ignored -/

theorem takeWhile_self {α : Type} (p : α → Bool) (l : List α) :
    ∀ x ∈ l.takeWhile p, p x = true := fun _ hx => (List.mem_takeWhile_imp hx)

/-- The text of the weight clause is a start of the text it was matched in, begins with a
blank when it is not empty, and carries the same weight digits. -/
theorem matchWeight_text (r : List Char) :
    (∃ tail, r = matchWeight.text r ++ tail) ∧
    matchWeight (matchWeight.text r) = matchWeight r ∧
    (matchWeight.text r = [] ∨ ∃ c t, matchWeight.text r = c :: t ∧ isBlank c = true) := by
  have hnil : matchWeight [] = [] := rfl
  by_cases hb : r.takeWhile isBlank = []
  · have e1 : matchWeight.text r = [] := by unfold matchWeight.text; rw [if_pos hb]
    have e2 : matchWeight r = [] := by unfold matchWeight; rw [if_pos hb]
    rw [e1, e2]
    exact ⟨⟨r, rfl⟩, hnil, Or.inl rfl⟩
  · by_cases hp : "weight".toList.isPrefixOf (r.dropWhile isBlank) = true
    · cases hm : (List.drop 6 (r.dropWhile isBlank)).dropWhile isBlank with
      | nil =>
        have e1 : matchWeight.text r = [] := by
          unfold matchWeight.text; simp only [hb, if_false, hp, if_true, hm]
        have e2 : matchWeight r = [] := by
          unfold matchWeight; simp only [hb, if_false, hp, if_true, hm]
        rw [e1, e2]
        exact ⟨⟨r, rfl⟩, hnil, Or.inl rfl⟩
      | cons c r2 =>
        by_cases hc : c = '='
        · subst hc
          by_cases hd : (r2.dropWhile isBlank).takeWhile Char.isDigit = []
          · have e1 : matchWeight.text r = [] := by
              unfold matchWeight.text; simp only [hb, if_false, hp, if_true, hm, hd]
            have e2 : matchWeight r = [] := by
              unfold matchWeight; simp only [hb, if_false, hp, if_true, hm, hd]
            rw [e1, e2]
            exact ⟨⟨r, rfl⟩, hnil, Or.inl rfl⟩
          · have e1 : matchWeight.text r =
                r.takeWhile isBlank ++ "weight".toList
                  ++ (List.drop 6 (r.dropWhile isBlank)).takeWhile isBlank
                  ++ '=' :: (r2.takeWhile isBlank
                    ++ (r2.dropWhile isBlank).takeWhile Char.isDigit) := by
              unfold matchWeight.text; simp only [hb, if_false, hp, if_true, hm, hd]
            have e2 : matchWeight r = (r2.dropWhile isBlank).takeWhile Char.isDigit := by
              unfold matchWeight; simp only [hb, if_false, hp, if_true, hm]
            rw [e1, e2]
            have hb1 : ∀ x ∈ r.takeWhile isBlank, isBlank x = true := takeWhile_self _ _
            have hb2 : ∀ x ∈ (List.drop 6 (r.dropWhile isBlank)).takeWhile isBlank,
                isBlank x = true := takeWhile_self _ _
            have hb3 : ∀ x ∈ r2.takeWhile isBlank, isBlank x = true := takeWhile_self _ _
            have hdig : ∀ x ∈ (r2.dropWhile isBlank).takeWhile Char.isDigit,
                x.isDigit = true := takeWhile_self _ _
            have s1 : r = r.takeWhile isBlank ++ r.dropWhile isBlank :=
              (List.takeWhile_append_dropWhile _ _).symm
            have s2 : r.dropWhile isBlank
                = "weight".toList ++ List.drop 6 (r.dropWhile isBlank) := by
              have := List.prefix_iff_eq_append.mp (List.isPrefixOf_iff_prefix.mp hp)
              exact this.symm
            have s3 : List.drop 6 (r.dropWhile isBlank)
                = (List.drop 6 (r.dropWhile isBlank)).takeWhile isBlank ++ '=' :: r2 := by
              rw [← hm]
              exact (List.takeWhile_append_dropWhile _ _).symm
            have s4 : r2 = r2.takeWhile isBlank ++ r2.dropWhile isBlank :=
              (List.takeWhile_append_dropWhile _ _).symm
            have s5 : r2.dropWhile isBlank
                = (r2.dropWhile isBlank).takeWhile Char.isDigit
                  ++ (r2.dropWhile isBlank).dropWhile Char.isDigit :=
              (List.takeWhile_append_dropWhile _ _).symm
            generalize r.takeWhile isBlank = b1 at *
            generalize r.dropWhile isBlank = r1 at *
            generalize (List.drop 6 r1).takeWhile isBlank = b2 at *
            generalize List.drop 6 r1 = r6 at *
            generalize r2.takeWhile isBlank = b3 at *
            generalize (r2.dropWhile isBlank).takeWhile Char.isDigit = d at *
            generalize (r2.dropWhile isBlank).dropWhile Char.isDigit = tl at *
            generalize r2.dropWhile isBlank = r3 at *
            obtain ⟨c0, d1, hd1⟩ := List.exists_cons_of_ne_nil hd
            obtain ⟨cb, b1t, hb1t⟩ := List.exists_cons_of_ne_nil hb
            have hc0 : isBlank c0 = false :=
              (isDigit_classes c0 (hdig c0 (by rw [hd1]; exact List.mem_cons_self _ _))).2
            refine ⟨⟨tl, ?_⟩, ?_, Or.inr ⟨cb, b1t ++ "weight".toList ++ b2 ++ '=' :: (b3 ++ d), ?_,
              hb1 cb (by rw [hb1t]; exact List.mem_cons_self _ _)⟩⟩
            · rw [s1, s2, s3, s4, s5]
              simp only [List.append_assoc, List.cons_append]
            · have t1 := takeWhile_stop isBlank b1 'w'
                ("eight".toList ++ b2 ++ '=' :: (b3 ++ d)) hb1 (by decide)
              have hx : b1 ++ "weight".toList ++ b2 ++ '=' :: (b3 ++ d)
                  = b1 ++ 'w' :: ("eight".toList ++ b2 ++ '=' :: (b3 ++ d)) := by
                simp
              have t2 := takeWhile_stop isBlank b2 '=' (b3 ++ d) hb2 (by decide)
              have t3 : (b3 ++ d).dropWhile isBlank = d := by
                rw [hd1]
                exact (takeWhile_stop isBlank b3 c0 d1 hb3 hc0).2
              have t4 := (takeWhile_all Char.isDigit d hdig).1
              unfold matchWeight
              rw [hx, t1.1, t1.2, if_neg hb]
              have hy : 'w' :: ("eight".toList ++ b2 ++ '=' :: (b3 ++ d))
                  = "weight".toList ++ (b2 ++ '=' :: (b3 ++ d)) := by simp
              have hpre : List.isPrefixOf "weight".toList
                  ("weight".toList ++ (b2 ++ '=' :: (b3 ++ d))) = true :=
                List.isPrefixOf_iff_prefix.mpr (List.prefix_append _ _)
              have hdrop : List.drop 6 ("weight".toList ++ (b2 ++ '=' :: (b3 ++ d)))
                  = b2 ++ '=' :: (b3 ++ d) := by
                have : "weight".toList.length = 6 := rfl
                rw [← this, List.drop_left]
              simp only [hy, hpre, if_true, hdrop, t2.2, t3, t4]
            · rw [hb1t]
              simp only [List.append_assoc, List.cons_append]
        · have e1 : matchWeight.text r = [] := by
            unfold matchWeight.text; simp only [hb, if_false, hp, if_true, hm]
            split
            · rename_i heq; cases heq; exact absurd rfl hc
            · rfl
          have e2 : matchWeight r = [] := by
            unfold matchWeight; simp only [hb, if_false, hp, if_true, hm]
            split
            · rename_i heq; cases heq; exact absurd rfl hc
            · rfl
          rw [e1, e2]
          exact ⟨⟨r, rfl⟩, hnil, Or.inl rfl⟩
    · have e1 : matchWeight.text r = [] := by
        unfold matchWeight.text; simp only [hb, if_false, hp]; rfl
      have e2 : matchWeight r = [] := by
        unfold matchWeight; simp only [hb, if_false, hp]; rfl
      rw [e1, e2]
      exact ⟨⟨r, rfl⟩, hnil, Or.inl rfl⟩

theorem dropWhile_head {α : Type} (p : α → Bool) : ∀ (l : List α) (c : α) (r : List α),
    l.dropWhile p = c :: r → p c = false := by
  intro l
  induction l with
  | nil => intro c r h; simp at h
  | cons a rest ih =>
    intro c r h
    by_cases ha : p a = true
    · rw [List.dropWhile_cons, if_pos ha] at h
      exact ih c r h
    · rw [List.dropWhile_cons, if_neg ha] at h
      have := (List.cons.inj h).1
      rw [← this]
      simpa using ha

theorem isDigitOrDot_iff (c : Char) : isDigitOrDot c = true ↔ (c.isDigit = true ∨ c = '.') := by
  simp [isDigitOrDot]

/-- The two alternatives of the port group. -/
theorem matchPort_spec (r0 : List Char) :
    ((matchPort r0).1 = [] ∧ (matchPort r0).2 = r0) ∨
    ∃ r, r0 = ':' :: r ∧ (matchPort r0).1 = r.takeWhile Char.isDigit ∧ (matchPort r0).1 ≠ [] ∧
      (matchPort r0).2 = r.dropWhile Char.isDigit := by
  cases r0 with
  | nil => exact Or.inl ⟨rfl, rfl⟩
  | cons c r =>
    by_cases hc : c = ':'
    · subst hc
      by_cases hd : r.takeWhile Char.isDigit = []
      · left
        unfold matchPort
        simp only [hd, if_true, and_self]
      · right
        refine ⟨r, rfl, ?_⟩
        unfold matchPort
        simp only [hd, if_false, ne_eq, not_false_eq_true, and_self]
    · left
      unfold matchPort
      split
      · rename_i heq
        exact absurd (List.cons.inj heq).1 hc
      · exact ⟨rfl, rfl⟩

/-- The submatches of nodeInfoReg on the whole matched text are those on the string. -/
theorem nodeInfoReg_whole (info : String) (g : String × String × String)
    (hr : nodeInfoReg info = some g) :
    ∃ whole tail, nodeInfoReg.whole info = some whole ∧ info.toList = whole.toList ++ tail ∧
      nodeInfoReg whole = some g := by
  have hip : ¬ info.toList.takeWhile isDigitOrDot = [] := by
    intro h
    unfold nodeInfoReg at hr
    simp only [h, if_true] at hr
    cases hr
  have hipall : ∀ x ∈ info.toList.takeWhile isDigitOrDot, isDigitOrDot x = true :=
    takeWhile_self _ _
  have hsplit : info.toList
      = info.toList.takeWhile isDigitOrDot ++ info.toList.dropWhile isDigitOrDot :=
    (List.takeWhile_append_dropWhile _ _).symm
  generalize hIP : info.toList.takeWhile isDigitOrDot = ip at *
  generalize hR0 : info.toList.dropWhile isDigitOrDot = r0 at *
  have hgroups : nodeInfoReg info
      = some (String.mk ip, String.mk (matchPort r0).1, String.mk (matchWeight (matchPort r0).2)) := by
    unfold nodeInfoReg
    simp only [hIP, hR0, hip, if_false]
  have hwhole : nodeInfoReg.whole info
      = some (String.mk (ip ++ (if (matchPort r0).1 = [] then [] else ':' :: (matchPort r0).1)
          ++ matchWeight.text (matchPort r0).2)) := by
    unfold nodeInfoReg.whole
    simp only [hIP, hR0, hip, if_false]
  rw [hgroups] at hr
  obtain ⟨⟨tail, htail⟩, hmw, hblank⟩ := matchWeight_text (matchPort r0).2
  -- the text after the IP, split at the port
  have hport : r0 = (if (matchPort r0).1 = [] then [] else ':' :: (matchPort r0).1)
      ++ (matchPort r0).2 ∧
      (∀ x ∈ (matchPort r0).1, x.isDigit = true) ∧
      ((matchPort r0).1 = [] → (matchPort r0).2 = r0) := by
    rcases matchPort_spec r0 with ⟨h1, h2⟩ | ⟨r, h1, h2, h3, h4⟩
    · rw [h1, h2]
      simp
    · rw [h2, h4, if_neg (by rw [← h2]; exact h3)]
      refine ⟨?_, takeWhile_self _ _, fun h => absurd h (by rw [← h2]; exact h3)⟩
      rw [h1, List.cons_append, List.takeWhile_append_dropWhile]
  obtain ⟨hp1, hp2, hp3⟩ := hport
  generalize (matchPort r0).1 = port at *
  generalize (matchPort r0).2 = r1 at *
  generalize hwt : matchWeight.text r1 = wt at *
  have hwt0 : ∀ c t, wt = c :: t → isDigitOrDot c = false ∧ c.isDigit = false ∧ c ≠ ':' := by
    intro c t h
    rcases hblank with h0 | ⟨c2, t2, h2, h3⟩
    · rw [h0] at h; cases h
    · rw [h] at h2
      obtain ⟨rfl, _⟩ := List.cons.inj h2
      unfold isBlank at h3
      by_cases h4 : c = '\t'
      · subst h4; decide
      · have h5 : c = ' ' := by simpa [h4] using h3
        subst h5; decide
  refine ⟨_, tail, hwhole, ?_, ?_⟩
  · show info.toList = (ip ++ (if port = [] then [] else ':' :: port) ++ wt) ++ tail
    rw [hsplit]
    conv => lhs; rw [hp1, htail]
    simp only [List.append_assoc]
  · rw [← hr]
    have hl : (String.mk (ip ++ (if port = [] then [] else ':' :: port) ++ wt)).toList
        = ip ++ ((if port = [] then [] else ':' :: port) ++ wt) := by
      show ip ++ (if port = [] then [] else ':' :: port) ++ wt = _
      rw [List.append_assoc]
    have hstop : (ip ++ ((if port = [] then [] else ':' :: port) ++ wt)).takeWhile isDigitOrDot = ip ∧
        (ip ++ ((if port = [] then [] else ':' :: port) ++ wt)).dropWhile isDigitOrDot
          = (if port = [] then [] else ':' :: port) ++ wt := by
      cases hx : (if port = [] then [] else ':' :: port) ++ wt with
      | nil =>
        rw [List.append_nil]
        exact takeWhile_all _ _ hipall
      | cons c t =>
        apply takeWhile_stop _ _ _ _ hipall
        by_cases hp : port = []
        · rw [if_pos hp, List.nil_append] at hx
          exact (hwt0 c t hx).1
        · rw [if_neg hp, List.cons_append] at hx
          obtain ⟨rfl, _⟩ := List.cons.inj hx
          decide
    have hmp : matchPort ((if port = [] then [] else ':' :: port) ++ wt) = (port, wt) := by
      by_cases hp : port = []
      · rw [if_pos hp, List.nil_append, hp]
        rcases matchPort_spec wt with ⟨h1, h2⟩ | ⟨r, h1, _⟩
        · exact Prod.ext h1 h2
        · exact absurd rfl (hwt0 ':' r h1).2.2
      · rw [if_neg hp, List.cons_append]
        unfold matchPort
        have : (port ++ wt).takeWhile Char.isDigit = port ∧
            (port ++ wt).dropWhile Char.isDigit = wt := by
          cases hw : wt with
          | nil =>
            rw [List.append_nil]
            exact takeWhile_all _ _ hp2
          | cons c t =>
            exact takeWhile_stop _ _ _ _ hp2 (hwt0 c t hw).2.1
        simp only [this.1, this.2, hp, if_false]
    unfold nodeInfoReg
    simp only [hl, hstop.1, hstop.2, hip, if_false, hmp, hmw]

/-- The only error of newNode: no character of `[\d.]` at the start. -/
theorem newNode_error_iff (info : String) :
    (newNode info).2 ≠ none ↔ info.toList.takeWhile isDigitOrDot = [] := by
  have hreg : nodeInfoReg info = none ↔ info.toList.takeWhile isDigitOrDot = [] := by
    unfold nodeInfoReg
    by_cases h : info.toList.takeWhile isDigitOrDot = []
    · simp [h]
    · simp [h]
  cases hr : nodeInfoReg info with
  | none =>
    have h1 : newNode info = (none, some ("node info [" ++ info ++ "] with wrong format.")) := by
      unfold newNode; rw [hr]
    rw [h1]
    simpa using hreg.mp hr
  | some g =>
    obtain ⟨ip, port, weight⟩ := g
    have h1 : (newNode info).2 = none := by
      unfold newNode; rw [hr]
    have hne : ¬ info.toList.takeWhile isDigitOrDot = [] := by
      intro h
      rw [hreg.mpr h] at hr
      cases hr
    rw [h1]
    simpa using hne

/-- C27: newNode returns an error exactly when the string does not begin with a digit or a
dot (the empty string included). When it succeeds there is no error, the IP is the longest
leading run of digits and dots (the text after it starts with another character or is
empty), and the node is the one newNode builds from the matched text
`IP[:PORT][ weight=N]` alone, of which the string is a continuation: what follows the
match is not looked at. -/
theorem newNode_accepts_iff (info : String) :
    ((newNode info).2 ≠ none ↔
      ¬ ∃ c rest, info.toList = c :: rest ∧ (c.isDigit = true ∨ c = '.')) ∧
    (∀ n e, newNode info = (some n, e) → e = none ∧
      (∃ rest, info.toList = n.IP.toList ++ rest ∧ n.IP ≠ "" ∧
        (∀ c ∈ n.IP.toList, c.isDigit = true ∨ c = '.') ∧
        ∀ c r, rest = c :: r → ¬ (c.isDigit = true ∨ c = '.')) ∧
      ∃ whole tail, nodeInfoReg.whole info = some whole ∧
        info.toList = whole.toList ++ tail ∧ newNode whole = newNode info) := by
  constructor
  · rw [newNode_error_iff]
    constructor
    · rintro h ⟨c, rest, h1, h2⟩
      rw [h1, List.takeWhile_cons, if_pos ((isDigitOrDot_iff c).mpr h2)] at h
      cases h
    · intro h
      cases hl : info.toList with
      | nil => rfl
      | cons c rest =>
        by_cases hc : isDigitOrDot c = true
        · exact absurd ⟨c, rest, hl, (isDigitOrDot_iff c).mp hc⟩ h
        · rw [List.takeWhile_cons, if_neg hc]
  · intro n e h
    cases hr : nodeInfoReg info with
    | none =>
      unfold newNode at h
      rw [hr] at h
      simp at h
    | some g =>
      obtain ⟨ip, port, weight⟩ := g
      have hnew : ∀ s : String, nodeInfoReg s = some (ip, port, weight) →
          newNode s = (some { IP := ip
                              Port := (parseUint16 port).getD defaultPort % 65536
                              Weight := (parseUint16 weight).getD defaultWeight % 65536 },
                        none) := by
        intro s hs
        unfold newNode
        rw [hs]
      rw [hnew info hr] at h
      simp only [Prod.mk.injEq, Option.some.injEq] at h
      obtain ⟨hn, he⟩ := h
      refine ⟨he.symm, ?_, ?_⟩
      · have hip : ip = String.mk (info.toList.takeWhile isDigitOrDot) := by
          unfold nodeInfoReg at hr
          by_cases h0 : info.toList.takeWhile isDigitOrDot = []
          · simp only [h0, if_true] at hr
            cases hr
          · simp only [h0, if_false, Option.some.injEq, Prod.mk.injEq] at hr
            exact hr.1.symm
        have hne : info.toList.takeWhile isDigitOrDot ≠ [] := by
          intro h0
          unfold nodeInfoReg at hr
          simp only [h0, if_true] at hr
          cases hr
        rw [← hn]
        show ∃ rest, info.toList = ip.toList ++ rest ∧ ip ≠ "" ∧ _
        rw [hip]
        refine ⟨info.toList.dropWhile isDigitOrDot,
          (List.takeWhile_append_dropWhile _ _).symm, ?_, ?_, ?_⟩
        · intro h0
          exact hne (congrArg String.data h0)
        · intro c hc
          exact (isDigitOrDot_iff c).mp (takeWhile_self _ _ c hc)
        · intro c r hcr hc
          have := dropWhile_head _ _ c r hcr
          rw [(isDigitOrDot_iff c).mpr hc] at this
          cases this
      · obtain ⟨whole, tail, h1, h2, h3⟩ := nodeInfoReg_whole info _ hr
        exact ⟨whole, tail, h1, h2, by rw [hnew whole h3, hnew info hr]⟩

/-- Witness of C27: a node line followed by a comment. -/
theorem newNode_accepts_iff_witness :
    (none : error) = none ∧
    (∃ rest, "10.0.0.1:8080 weight=5 # rack 7".toList
        = ({ IP := "10.0.0.1", Port := 8080, Weight := 5 } : Node).IP.toList ++ rest ∧
      ({ IP := "10.0.0.1", Port := 8080, Weight := 5 } : Node).IP ≠ "" ∧
      (∀ c ∈ ({ IP := "10.0.0.1", Port := 8080, Weight := 5 } : Node).IP.toList,
        c.isDigit = true ∨ c = '.') ∧
      ∀ c r, rest = c :: r → ¬ (c.isDigit = true ∨ c = '.')) ∧
    ∃ whole tail, nodeInfoReg.whole "10.0.0.1:8080 weight=5 # rack 7" = some whole ∧
      "10.0.0.1:8080 weight=5 # rack 7".toList = whole.toList ++ tail ∧
      newNode whole = newNode "10.0.0.1:8080 weight=5 # rack 7" :=
  (newNode_accepts_iff "10.0.0.1:8080 weight=5 # rack 7").2
    { IP := "10.0.0.1", Port := 8080, Weight := 5 } none (by decide)

/-! ## Weighted round robin: the exact sequence of a cycle -/

/-- At a current weight of level `m` the pass selects what it selects at `m * g`. -/
theorem hitsFrom_level (g m c : Nat) (h1 : c ≤ m * g) (h2 : m * g < c + g)
    (ws : List Nat) (hall : ∀ w ∈ ws, g ∣ w) :
    ∀ k, hitsFrom c ws k = hitsFrom (m * g) ws k := by
  induction ws with
  | nil => intro k; rfl
  | cons w rest ih =>
    intro k
    have hw : w / g * g = w := Nat.div_mul_cancel (hall w (List.mem_cons_self _ _))
    have hlev := level_iff g m c (w / g) h1 h2
    have hlev2 := level_iff g m (m * g) (w / g) (le_refl _) (by omega)
    rw [hw] at hlev hlev2
    have hiff : w ≥ c ↔ w ≥ m * g := by
      constructor
      · intro h; exact hlev2.mpr (hlev.mp h)
      · intro h; exact hlev.mpr (hlev2.mp h)
    have ih2 := ih (fun x hx => hall x (List.mem_cons_of_mem _ hx)) (k + 1)
    unfold hitsFrom
    by_cases hc : w ≥ c
    · rw [if_pos hc, if_pos (hiff.mp hc), ih2]
    · rw [if_neg hc, if_neg (fun h => hc (hiff.mpr h)), ih2]

/-- The passes below the top level, as indices. -/
theorem passes_levels_exact (g mx : Nat) (ws : List Nat) (hok : WeightsOk g mx ws) (t : Nat) :
    ∀ (m c : Nat), c ≤ m * g → m * g < c + g → t + 1 ≤ m → c < 65536 →
      passes g mx ws t c = levelPasses g ws t (m - 1) := by
  obtain ⟨hg, hmx, hmem, hall⟩ := hok
  induction t with
  | zero => intro m c _ _ _ _; rfl
  | succ t ih =>
    intro m c h1 h2 ht hc
    obtain ⟨m2, hm2⟩ : ∃ m2, m = m2 + 1 := ⟨m - 1, by omega⟩
    subst hm2
    have hmul : (m2 + 1) * g = m2 * g + g := by rw [Nat.add_mul, Nat.one_mul]
    have hm2g : g ≤ m2 * g := Nat.le_mul_of_pos_left g (by omega)
    rw [hmul] at h1 h2
    have hnext : nextWeight g mx c = c - g := nextWeight_sub g mx c (by omega) hc
    have ih2 := ih m2 (c - g) (by omega) (by omega) (by omega) (by omega)
    rw [passes, hnext, ih2, Nat.add_sub_cancel, levelPasses,
      hitsFrom_level g m2 (c - g) (by omega) (by omega) ws (fun w hw => (hall w hw).1) 0]

/-- One cycle, as indices: from a current weight of at most `g`, after some number of
passes the current weight is again at most `g` (and positive), the last of these passes
selects a pool, and the pools selected are those of the passes at the current weights
`mx`, `mx - g`, ..., `g`. -/
theorem cycle_passes_exact (g mx : Nat) (ws : List Nat) (hok : WeightsOk g mx ws) (c : Nat)
    (hc : c ≤ g) :
    ∃ T, 0 < weightAfter g mx (T + 1) c ∧ weightAfter g mx (T + 1) c ≤ g ∧
      hitsFrom (weightAfter g mx (T + 1) c) ws 0 ≠ [] ∧
      passes g mx ws (T + 1) c = levelPasses g ws (mx / g) (mx / g) := by
  obtain ⟨T1, ct, h1, h2, h3, h4, h5⟩ := passes_top g mx ws hok c hc
  have hok2 := hok
  obtain ⟨hg, hmx, hmem, hall⟩ := hok
  have hdvd : g ∣ mx := (hall mx hmem).1
  have hM : mx / g * g = mx := Nat.div_mul_cancel hdvd
  have hMpos : 1 ≤ mx / g := by
    have : 0 < mx / g := Nat.div_pos (Nat.le_of_dvd (hall mx hmem).2.1 hdvd) hg
    omega
  obtain ⟨m2, hm2⟩ : ∃ m2, mx / g = m2 + 1 := ⟨mx / g - 1, by omega⟩
  have hmul : (m2 + 1) * g = m2 * g + g := by rw [Nat.add_mul, Nat.one_mul]
  have hM2 := hM
  rw [hm2, hmul] at hM
  obtain ⟨p1, _⟩ := passes_levels g mx ws hok2 m2 (m2 + 1) ct (by omega) (by omega)
    (le_refl _) (by omega)
  have p3 := passes_levels_exact g mx ws hok2 m2 (m2 + 1) ct (by omega) (by omega)
    (le_refl _) (by omega)
  have hT : T1 + m2 + 1 = (T1 + 1) + m2 := by omega
  refine ⟨T1 + m2, ?_, ?_, ?_, ?_⟩
  · rw [hT, weightAfter_add, h1]
    omega
  · rw [hT, weightAfter_add, h1]
    omega
  · rw [hT, weightAfter_add, h1]
    apply hitsFrom_ne_nil_of_le
    · exact List.ne_nil_of_mem hmem
    · intro w hw
      have := Nat.le_of_dvd (hall w hw).2.1 (hall w hw).1
      omega
  · rw [hT, passes_add, h1, h5, p3, hm2, levelPasses, Nat.add_sub_cancel,
      hitsFrom_level g (m2 + 1) ct (by omega) (by omega) ws (fun w hw => (hall w hw).1) 0]

/-- The top pass of a cycle selects a pool, so a cycle is not empty. -/
theorem levelPasses_cycle_pos (g mx : Nat) (ws : List Nat) (hok : WeightsOk g mx ws) :
    0 < (levelPasses g ws (mx / g) (mx / g)).length := by
  obtain ⟨hg, hmx, hmem, hall⟩ := hok
  have hdvd : g ∣ mx := (hall mx hmem).1
  have hM : mx / g * g = mx := Nat.div_mul_cancel hdvd
  have hMpos : 0 < mx / g := Nat.div_pos (Nat.le_of_dvd (hall mx hmem).2.1 hdvd) hg
  obtain ⟨m2, hm2⟩ : ∃ m2, mx / g = m2 + 1 := ⟨mx / g - 1, by omega⟩
  rw [hm2] at hM ⊢
  rw [levelPasses, List.length_append, hM]
  have hne : hitsFrom mx ws 0 ≠ [] := by
    intro h
    have hcount := hitsFrom_count mx (hall mx hmem).2.1 ws 0
    obtain ⟨j, hj, hjw⟩ := List.getElem_of_mem hmem
    have := hcount j
    rw [h] at this
    simp only [List.count_nil, Nat.zero_le, Nat.sub_zero, true_and] at this
    rw [List.getElem?_eq_getElem hj, hjw] at this
    simp at this
  have := List.length_pos.mpr hne
  omega

theorem levelPasses_mem (g : Nat) (ws : List Nat) (t : Nat) :
    ∀ (m x : Nat), x ∈ levelPasses g ws t m → x < ws.length := by
  induction t with
  | zero => intro m x hx; simp [levelPasses] at hx
  | succ t ih =>
    intro m x hx
    rw [levelPasses] at hx
    rcases List.mem_append.mp hx with h | h
    · have := (hitsFrom_mem _ ws 0 x h).2
      omega
    · exact ih _ x h

/-- The Get calls of one cycle, as indices. -/
theorem WeightedRoundRobinLB.gets_cycle_exact (cc : WeightedRoundRobinLB)
    (hn : 0 < cc.clients.length) (hcs : cc.cs.length = cc.clients.length)
    (honce : cc.once = true) (hok : WeightsOk cc.gcd cc.maxWeight cc.weights)
    (k c : Nat) (hex : cc.Exhausted k c) (hc : c ≤ cc.gcd) :
    ∃ (k2 c2 : Nat),
      (cc.moved ((k : Int) - 1) c).GetsTo
        (levelPasses cc.gcd cc.weights (cc.maxWeight / cc.gcd) (cc.maxWeight / cc.gcd)).length
        (cc.outsOf (levelPasses cc.gcd cc.weights (cc.maxWeight / cc.gcd)
          (cc.maxWeight / cc.gcd)))
        (cc.moved ((k2 : Int) - 1) c2) ∧
      cc.Exhausted k2 c2 ∧ c2 ≤ cc.gcd := by
  have hmx : 0 < cc.maxWeight := by
    obtain ⟨_, _, hmem, hall⟩ := hok
    exact lt_of_lt_of_le (hall _ hmem).2.1 (le_refl _)
  obtain ⟨T, h1, h2, h3, h4⟩ := cycle_passes_exact cc.gcd cc.maxWeight cc.weights hok c hc
  obtain ⟨last, _, hg, hex2⟩ := WeightedRoundRobinLB.gets_passes cc hn hmx hcs honce T k c hex h3
  rw [h4] at hg
  exact ⟨last + 1, weightAfter cc.gcd cc.maxWeight (T + 1) c, hg, hex2, h2⟩

theorem repeatList_length (l : List Nat) (B : Nat) :
    (repeatList l B).length = B * l.length := by
  induction B with
  | zero => simp [repeatList]
  | succ B ih => rw [repeatList, List.length_append, ih, Nat.add_mul, Nat.one_mul, Nat.add_comm]

theorem repeatList_mem (l : List Nat) (B : Nat) : ∀ x ∈ repeatList l B, x ∈ l := by
  induction B with
  | zero => intro x hx; simp [repeatList] at hx
  | succ B ih =>
    intro x hx
    rw [repeatList] at hx
    rcases List.mem_append.mp hx with h | h
    · exact h
    · exact ih x h

/-- The Get calls of `B` successive cycles, as indices. -/
theorem WeightedRoundRobinLB.gets_blocks_exact (cc : WeightedRoundRobinLB)
    (hn : 0 < cc.clients.length) (hcs : cc.cs.length = cc.clients.length)
    (honce : cc.once = true) (hok : WeightsOk cc.gcd cc.maxWeight cc.weights) (B : Nat) :
    ∀ (k c : Nat), cc.Exhausted k c → c ≤ cc.gcd →
      ∃ (k2 c2 : Nat),
        (cc.moved ((k : Int) - 1) c).GetsTo
          (B * (levelPasses cc.gcd cc.weights (cc.maxWeight / cc.gcd)
            (cc.maxWeight / cc.gcd)).length)
          (cc.outsOf (repeatList (levelPasses cc.gcd cc.weights (cc.maxWeight / cc.gcd)
            (cc.maxWeight / cc.gcd)) B))
          (cc.moved ((k2 : Int) - 1) c2) := by
  induction B with
  | zero =>
    intro k c _ _
    refine ⟨k, c, ?_⟩
    rw [Nat.zero_mul]
    exact WeightedRoundRobinLB.GetsTo.zero _
  | succ B ih =>
    intro k c hex hc
    obtain ⟨k1, c1, g1, hex1, hc1⟩ :=
      WeightedRoundRobinLB.gets_cycle_exact cc hn hcs honce hok k c hex hc
    obtain ⟨k2, c2, g2⟩ := ih k1 c1 hex1 hc1
    refine ⟨k2, c2, ?_⟩
    have := WeightedRoundRobinLB.GetsTo.trans g1 g2
    rw [← WeightedRoundRobinLB.outsOf_append] at this
    rw [Nat.add_mul, Nat.one_mul, Nat.add_comm, repeatList]
    exact this

/-- The method gets returns one result per call. -/
theorem WeightedRoundRobinLB.gets_length (f : Nat) :
    ∀ (m : Nat) (cc : WeightedRoundRobinLB) (r : List (Option lbClient) × WeightedRoundRobinLB),
      WeightedRoundRobinLB.gets f m cc = Run.done r → r.1.length = m := by
  intro m
  induction m with
  | zero =>
    intro cc r h
    simp only [WeightedRoundRobinLB.gets, Run.done.injEq] at h
    rw [← h]
    rfl
  | succ m ih =>
    intro cc r h
    rw [WeightedRoundRobinLB.gets] at h
    cases hg : WeightedRoundRobinLB.get f cc with
    | panic => rw [hg] at h; simp [Run.bind] at h
    | pending => rw [hg] at h; simp [Run.bind] at h
    | done p =>
      rw [hg] at h
      simp only [Run.bind] at h
      cases hr : WeightedRoundRobinLB.gets f m p.2 with
      | panic => rw [hr] at h; simp [Run.bind] at h
      | pending => rw [hr] at h; simp [Run.bind] at h
      | done q =>
        rw [hr] at h
        simp only [Run.bind, Run.done.injEq] at h
        rw [← h]
        simp only [List.length_cons, ih p.2 q hr]

/-- The first calls of a run of Get calls. -/
theorem WeightedRoundRobinLB.gets_prefix (f m1 m2 : Nat) (cc : WeightedRoundRobinLB)
    (r : List (Option lbClient) × WeightedRoundRobinLB)
    (h : WeightedRoundRobinLB.gets f (m1 + m2) cc = Run.done r) :
    ∃ cc1, WeightedRoundRobinLB.gets f m1 cc = Run.done (r.1.take m1, cc1) := by
  rw [WeightedRoundRobinLB.gets_add] at h
  cases hp : WeightedRoundRobinLB.gets f m1 cc with
  | panic => rw [hp] at h; simp [Run.bind] at h
  | pending => rw [hp] at h; simp [Run.bind] at h
  | done p =>
    rw [hp] at h
    simp only [Run.bind] at h
    cases hq : WeightedRoundRobinLB.gets f m2 p.2 with
    | panic => rw [hq] at h; simp [Run.bind] at h
    | pending => rw [hq] at h; simp [Run.bind] at h
    | done q =>
      rw [hq] at h
      simp only [Run.bind, Run.done.injEq] at h
      have hl := WeightedRoundRobinLB.gets_length f m1 cc p hp
      refine ⟨p.2, ?_⟩
      rw [← h]
      simp only [← hl, List.take_left]

/-! ## The stepping algorithm of the specification against the selection loop -/

/-- One round of the stepping algorithm at a state whose next index is `k mod N`. -/
theorem SmoothWrr.step_at (ws : List Nat) (s : SmoothWrr) (k w : Nat) (cw2 : Int)
    (hn : 0 < ws.length) (hk : s.i = (k : Int) - 1) (hw : ws[k % ws.length]? = some w)
    (hcw : cw2 = if k % ws.length = 0 then
        (if s.cw - SmoothWrr.gcd ws ≤ 0 then SmoothWrr.maxWeight ws else s.cw - SmoothWrr.gcd ws)
      else s.cw)
    (hpos : cw2 ≠ 0) :
    SmoothWrr.step ws s
      = if (w : Int) ≥ cw2 then
          .inl (.done (some (k % ws.length), { i := ((k % ws.length : Nat) : Int), cw := cw2 }))
        else .inr { i := ((k % ws.length : Nat) : Int), cw := cw2 } := by
  have hne : ¬ ws.length = 0 := by omega
  have hi : (s.i + 1) % (ws.length : Int) = ((k % ws.length : Nat) : Int) := by
    rw [hk, sub_add_cancel]
    rfl
  unfold SmoothWrr.step
  simp only [hne, if_false, hi]
  by_cases h0 : k % ws.length = 0
  · simp only [h0, if_true, Nat.cast_zero, true_and] at hcw hw ⊢
    by_cases hz : s.cw - SmoothWrr.gcd ws ≤ 0
    · simp only [hz, if_true] at hcw ⊢
      rw [← hcw]
      simp only [hpos, and_false, if_false, Int.toNat_zero, hw]
    · simp only [hz, if_false] at hcw ⊢
      rw [← hcw]
      simp only [false_and, if_false, Int.toNat_zero, hw]
  · have h0i : ¬ (((k % ws.length : Nat) : Int) = 0) := by omega
    simp only [h0, if_false] at hcw
    simp only [h0i, if_false, false_and, Int.toNat_ofNat, hw, ← hcw]

theorem SmoothWrr.select_succ (ws : List Nat) (f : Nat) (s : SmoothWrr) :
    SmoothWrr.select ws (f + 1) s
      = match SmoothWrr.step ws s with
        | .inl r => r
        | .inr s1 => SmoothWrr.select ws f s1 := rfl


/-- The current weights of the two algorithms after the update of a round go together. -/
theorem SmoothWrr.Rel_next (g mx k n : Nat) (ws : List Nat) (hok : WeightsOk g mx ws)
    (cS : Int) (c : Nat) (hrel : SmoothWrr.Rel g mx k cS c) (hk0 : k = 0 → k % n = 0) :
    (if k % n = 0 then (if cS - (g : Int) ≤ 0 then (mx : Int) else cS - (g : Int)) else cS)
      = (((if k % n = 0 then nextWeight g mx c else c) : Nat) : Int) ∧
    g ≤ (if k % n = 0 then nextWeight g mx c else c) ∧
    (if k % n = 0 then nextWeight g mx c else c) ≤ mx ∧
    g ∣ (if k % n = 0 then nextWeight g mx c else c) := by
  obtain ⟨hg, hmx, hmem, hall⟩ := hok
  have hdvd : g ∣ mx := (hall mx hmem).1
  have hgmx : g ≤ mx := Nat.le_of_dvd (hall mx hmem).2.1 hdvd
  by_cases h0 : k % n = 0
  · simp only [h0, if_true]
    rcases hrel with ⟨h1, h2, h3, h4⟩ | ⟨h1, h2, _⟩
    · rcases Nat.eq_or_lt_of_le h2 with heq | hlt
      · rw [← heq, nextWeight_self]
        have : cS - (g : Int) ≤ 0 := by omega
        rw [if_pos this]
        exact ⟨rfl, hgmx, le_refl _, hdvd⟩
      · rw [nextWeight_sub g mx c hlt (by omega)]
        have : ¬ (cS - (g : Int) ≤ 0) := by omega
        rw [if_neg this]
        obtain ⟨q, hq⟩ := h4
        have hq2 : 2 ≤ q := by
          by_contra hcon
          have : q = 0 ∨ q = 1 := by omega
          rcases this with rfl | rfl
          · omega
          · omega
        have hsub : c - g = g * (q - 1) := by
          rw [hq, Nat.mul_sub, Nat.mul_one]
        refine ⟨by omega, ?_, by omega, ⟨q - 1, hsub⟩⟩
        rw [hsub]
        exact Nat.le_mul_of_pos_right g (by omega)
    · rw [h2, nextWeight_self, h1]
      have : (0 : Int) - (g : Int) ≤ 0 := by omega
      rw [if_pos this]
      exact ⟨rfl, hgmx, le_refl _, hdvd⟩
  · simp only [h0, if_false]
    rcases hrel with ⟨h1, h2, h3, h4⟩ | ⟨_, _, h3⟩
    · exact ⟨h1, h2, h3, h4⟩
    · exact absurd (hk0 h3) h0

/-- The stepping algorithm of the specification and the selection loop of the code run
in step from states that go together: after the same number of rounds both are still
running, or both have returned the same index. -/
theorem WeightedRoundRobinLB.sim_loop (cc : WeightedRoundRobinLB)
    (hn : 0 < cc.clients.length) (hcs : cc.cs.length = cc.clients.length)
    (hok : WeightsOk cc.gcd cc.maxWeight cc.weights)
    (hG : SmoothWrr.gcd cc.weights = (cc.gcd : Int))
    (hM : SmoothWrr.maxWeight cc.weights = (cc.maxWeight : Int)) (fuel : Nat) :
    ∀ (k c : Nat) (s : SmoothWrr), k ≤ cc.clients.length → s.i = (k : Int) - 1 →
      SmoothWrr.Rel cc.gcd cc.maxWeight k s.cw c →
      (SmoothWrr.select cc.weights fuel s = Run.pending ∧
        WeightedRoundRobinLB.get.loop fuel (cc.moved ((k : Int) - 1) c) = Run.pending) ∨
      ∃ (j : Nat) (r : lbClient) (s2 : SmoothWrr) (c2 : Nat),
        j < cc.clients.length ∧ cc.cs[j]? = some r ∧
        SmoothWrr.select cc.weights fuel s = Run.done (some j, s2) ∧
        WeightedRoundRobinLB.get.loop fuel (cc.moved ((k : Int) - 1) c)
          = Run.done (some r, cc.moved (((j + 1 : Nat) : Int) - 1) c2) ∧
        s2.i = ((j + 1 : Nat) : Int) - 1 ∧ SmoothWrr.Rel cc.gcd cc.maxWeight (j + 1) s2.cw c2 := by
  have hwl : cc.weights.length = cc.clients.length := by simp [WeightedRoundRobinLB.weights]
  have hmx : 0 < cc.maxWeight := by
    obtain ⟨_, _, hmem, hall⟩ := hok
    exact (hall _ hmem).2.1
  induction fuel with
  | zero => intro k c s _ _ _; exact Or.inl ⟨rfl, rfl⟩
  | succ f ih =>
    intro k c s hk hi hrel
    have hkk : k % cc.clients.length < cc.clients.length := Nat.mod_lt _ hn
    obtain ⟨cl, hcl, hk2, hwcl⟩ := WeightedRoundRobinLB.weights_getElem cc _ hkk
    obtain ⟨r, hr⟩ : ∃ r, cc.cs[k % cc.clients.length]? = some r := by
      have hlt : k % cc.clients.length < cc.cs.length := by rw [hcs]; exact hkk
      exact ⟨cc.cs[k % cc.clients.length], List.getElem?_eq_getElem hlt⟩
    have hw : cc.weights[k % cc.weights.length]? = some cl.node.Weight := by
      rw [hwl, List.getElem?_eq_getElem hk2, hwcl]
    obtain ⟨e1, e2, e3, e4⟩ := SmoothWrr.Rel_next cc.gcd cc.maxWeight k cc.clients.length
      cc.weights hok s.cw c hrel (by intro h; rw [h]; exact Nat.zero_mod _)
    have hstep := SmoothWrr.step_at cc.weights s k cl.node.Weight
      (((if k % cc.clients.length = 0 then nextWeight cc.gcd cc.maxWeight c else c : Nat)) : Int)
      (by omega) hi hw (by rw [hwl, hG, hM]; exact e1.symm)
      (by
        have := hok.1
        omega)
    rw [hwl] at hstep
    by_cases hge : cl.node.Weight ≥ (if k % cc.clients.length = 0 then
        nextWeight cc.gcd cc.maxWeight c else c)
    · right
      have hcode := WeightedRoundRobinLB.loop_hit (cc.moved ((k : Int) - 1) c) f k hn rfl hmx
        cl r hcl hr hge
      refine ⟨k % cc.clients.length, r,
        { i := ((k % cc.clients.length : Nat) : Int),
          cw := (((if k % cc.clients.length = 0 then nextWeight cc.gcd cc.maxWeight c
            else c : Nat)) : Int) },
        (if k % cc.clients.length = 0 then nextWeight cc.gcd cc.maxWeight c else c),
        hkk, hr, ?_, ?_, ?_, Or.inl ⟨rfl, e2, e3, e4⟩⟩
      · rw [SmoothWrr.select_succ, hstep, if_pos (by exact_mod_cast hge)]
      · rw [hcode, cast_succ_sub_one]
        rfl
      · rw [cast_succ_sub_one]
    · have hcode := WeightedRoundRobinLB.loop_miss (cc.moved ((k : Int) - 1) c) f k hn rfl hmx
        cl hcl (by
          show cl.node.Weight < (if k % cc.clients.length = 0 then
            nextWeight cc.gcd cc.maxWeight c else c)
          omega)
      have hspec : SmoothWrr.select cc.weights (f + 1) s
          = SmoothWrr.select cc.weights f
              { i := ((k % cc.clients.length : Nat) : Int),
                cw := (((if k % cc.clients.length = 0 then nextWeight cc.gcd cc.maxWeight c
                  else c : Nat)) : Int) } := by
        rw [SmoothWrr.select_succ, hstep, if_neg (by
          intro h
          apply hge
          exact_mod_cast h)]
      have := ih (k % cc.clients.length + 1)
        (if k % cc.clients.length = 0 then nextWeight cc.gcd cc.maxWeight c else c)
        { i := ((k % cc.clients.length : Nat) : Int),
          cw := (((if k % cc.clients.length = 0 then nextWeight cc.gcd cc.maxWeight c
            else c : Nat)) : Int) }
        (by omega) (by rw [cast_succ_sub_one]) (Or.inl ⟨rfl, e2, e3, e4⟩)
      rw [cast_succ_sub_one] at this
      rw [hspec, hcode]
      exact this

/-- The stepping algorithm and the code, run for `m` successive selections from states
that go together: both are still running, or both have returned the same indices. -/
theorem WeightedRoundRobinLB.sim_gets (cc : WeightedRoundRobinLB)
    (hn : 0 < cc.clients.length) (hcs : cc.cs.length = cc.clients.length)
    (honce : cc.once = true)
    (hok : WeightsOk cc.gcd cc.maxWeight cc.weights)
    (hG : SmoothWrr.gcd cc.weights = (cc.gcd : Int))
    (hM : SmoothWrr.maxWeight cc.weights = (cc.maxWeight : Int)) (fuel m : Nat) :
    ∀ (k c : Nat) (s : SmoothWrr), k ≤ cc.clients.length → s.i = (k : Int) - 1 →
      SmoothWrr.Rel cc.gcd cc.maxWeight k s.cw c →
      (SmoothWrr.selects cc.weights fuel m s = Run.pending ∧
        WeightedRoundRobinLB.gets fuel m (cc.moved ((k : Int) - 1) c) = Run.pending) ∨
      ∃ (idxs : List Nat) (s2 : SmoothWrr) (cc2 : WeightedRoundRobinLB),
        (∀ j ∈ idxs, j < cc.clients.length) ∧
        SmoothWrr.selects cc.weights fuel m s = Run.done (idxs.map some, s2) ∧
        WeightedRoundRobinLB.gets fuel m (cc.moved ((k : Int) - 1) c)
          = Run.done (cc.outsOf idxs, cc2) := by
  induction m with
  | zero =>
    intro k c s _ _ _
    exact Or.inr ⟨[], s, _, by simp, rfl, rfl⟩
  | succ m ih =>
    intro k c s hk hi hrel
    have hget : WeightedRoundRobinLB.get fuel (cc.moved ((k : Int) - 1) c)
        = WeightedRoundRobinLB.get.loop fuel (cc.moved ((k : Int) - 1) c) :=
      WeightedRoundRobinLB.get_eq_loop _ fuel honce
    rw [WeightedRoundRobinLB.gets, SmoothWrr.selects, hget]
    rcases WeightedRoundRobinLB.sim_loop cc hn hcs hok hG hM fuel k c s hk hi hrel with
      ⟨h1, h2⟩ | ⟨j, r, s2, c2, hj, hr, h1, h2, hi2, hrel2⟩
    · rw [h1, h2]
      exact Or.inl ⟨rfl, rfl⟩
    · rw [h1, h2]
      simp only [Run.bind]
      rcases ih (j + 1) c2 s2 (by omega) hi2 hrel2 with ⟨h3, h4⟩ | ⟨idxs, s3, cc3, hm, h3, h4⟩
      · rw [h3, h4]
        exact Or.inl ⟨rfl, rfl⟩
      · rw [h3, h4]
        refine Or.inr ⟨j :: idxs, s3, cc3, ?_, rfl, ?_⟩
        · intro x hx
          rcases List.mem_cons.mp hx with rfl | hx
          · exact hj
          · exact hm x hx
        · simp only [Run.bind, WeightedRoundRobinLB.outsOf, List.map_cons, hr]

theorem getMaxWeight_eq_foldr (nodes : List Node) :
    getMaxWeight nodes = (nodes.map Node.Weight).foldr max 0 := by
  have key : ∀ (l : List Node) (acc : Nat),
      l.foldl (fun max v => if v.Weight > max then v.Weight else max) acc
        = max acc ((l.map Node.Weight).foldr max 0) := by
    intro l
    induction l with
    | nil => intro acc; simp
    | cons n rest ih =>
      intro acc
      rw [List.foldl_cons, ih, List.map_cons, List.foldr_cons]
      by_cases h : n.Weight > acc
      · rw [if_pos h]
        omega
      · rw [if_neg h]
        omega
  unfold getMaxWeight
  rw [key]
  simp

/-- From the fresh selection state (`i = -1`, `cw = 0`) of a balancer whose `gcd` and
`maxWeight` are those of its pool weights, the code returns for the first `m` Get calls
the endpoints at the indices the stepping algorithm of the specification returns. -/
theorem WeightedRoundRobinLB.gets_refines (cc : WeightedRoundRobinLB)
    (hn : 0 < cc.clients.length) (hcs : cc.cs.length = cc.clients.length)
    (honce : cc.once = true)
    (hok : WeightsOk cc.gcd cc.maxWeight cc.weights)
    (hG : SmoothWrr.gcd cc.weights = (cc.gcd : Int))
    (hM : SmoothWrr.maxWeight cc.weights = (cc.maxWeight : Int)) (m : Nat) :
    ∃ F, ∀ f, F ≤ f → ∃ (idxs : List Nat) (s2 : SmoothWrr) (cc2 : WeightedRoundRobinLB),
      (∀ j ∈ idxs, j < cc.clients.length) ∧
      SmoothWrr.selects cc.weights f m {} = Run.done (idxs.map some, s2) ∧
      WeightedRoundRobinLB.gets f m (cc.moved (((0 : Nat) : Int) - 1) 0)
        = Run.done (cc.outsOf idxs, cc2) := by
  have hL := levelPasses_cycle_pos cc.gcd cc.maxWeight cc.weights hok
  obtain ⟨_, _, ⟨F1, hF1⟩⟩ := WeightedRoundRobinLB.gets_blocks_exact cc hn hcs honce hok m 0 0
    (Or.inl rfl) (Nat.zero_le _)
  obtain ⟨_, _, ⟨F2, hF2⟩⟩ := WeightedRoundRobinLB.gets_blocks_exact cc hn hcs honce hok m 0
    cc.gcd (Or.inl rfl) (le_refl _)
  refine ⟨max F1 F2, ?_⟩
  intro f hf
  have h1 := hF1 f (le_trans (le_max_left _ _) hf)
  have h2 := hF2 f (le_trans (le_max_right _ _) hf)
  have hsplit : m * (levelPasses cc.gcd cc.weights (cc.maxWeight / cc.gcd)
      (cc.maxWeight / cc.gcd)).length
      = m + (m * (levelPasses cc.gcd cc.weights (cc.maxWeight / cc.gcd)
          (cc.maxWeight / cc.gcd)).length - m) := by
    have : m ≤ m * (levelPasses cc.gcd cc.weights (cc.maxWeight / cc.gcd)
        (cc.maxWeight / cc.gcd)).length := Nat.le_mul_of_pos_right m hL
    omega
  rw [hsplit] at h1 h2
  obtain ⟨cc1, p1⟩ := WeightedRoundRobinLB.gets_prefix f m _ _ _ h1
  obtain ⟨cc3, p2⟩ := WeightedRoundRobinLB.gets_prefix f m _ _ _ h2
  rcases WeightedRoundRobinLB.sim_gets cc hn hcs honce hok hG hM f m 0 cc.gcd {}
    (Nat.zero_le _) rfl (Or.inr ⟨rfl, rfl, rfl⟩) with ⟨_, h4⟩ | ⟨idxs, s2, cc4, hm, h3, h4⟩
  · rw [h4] at p2
    cases p2
  · rw [h4] at p2
    simp only [Run.done.injEq, Prod.mk.injEq] at p2
    refine ⟨idxs, s2, cc1, hm, h3, ?_⟩
    rw [p1, p2.1]

/-- One round of the selection loop returns nil only when `maxWeight` is 0, and goes on
with the same `maxWeight`. -/
theorem WeightedRoundRobinLB.body_nil (cc : WeightedRoundRobinLB) :
    (∀ cc2, WeightedRoundRobinLB.get.body cc = .inl (.done (none, cc2)) → cc.maxWeight = 0) ∧
    (∀ cc1, WeightedRoundRobinLB.get.body cc = .inr cc1 → cc1.maxWeight = cc.maxWeight) := by
  unfold WeightedRoundRobinLB.get.body
  by_cases hn : cc.clients.length = 0
  · simp only [hn, if_true]
    constructor
    · intro cc2 h; cases h
    · intro cc1 h; cases h
  · simp only [hn, if_false]
    generalize Int.tmod (cc.i + 1) (cc.clients.length : Int) = i
    by_cases hnil : i = 0 ∧ (if i = 0 then (cc.cw + 65536 - cc.gcd) % 65536 else cc.cw) ≤ 0 ∧
        (if i = 0 ∧ (if i = 0 then (cc.cw + 65536 - cc.gcd) % 65536 else cc.cw) ≤ 0
          then cc.maxWeight else (if i = 0 then (cc.cw + 65536 - cc.gcd) % 65536 else cc.cw)) = 0
    · rw [if_pos hnil]
      constructor
      · intro _ _
        have h3 := hnil.2.2
        rw [if_pos ⟨hnil.1, hnil.2.1⟩] at h3
        exact h3
      · intro cc1 h; cases h
    · rw [if_neg hnil]
      generalize (if i = 0 ∧ (if i = 0 then (cc.cw + 65536 - cc.gcd) % 65536 else cc.cw) ≤ 0
          then cc.maxWeight else (if i = 0 then (cc.cw + 65536 - cc.gcd) % 65536 else cc.cw))
        = cw2
      by_cases hneg : i < 0
      · rw [if_pos hneg]
        constructor
        · intro cc2 h; cases h
        · intro cc1 h; cases h
      · rw [if_neg hneg]
        cases cc.clients[i.toNat]? with
        | none =>
          constructor
          · intro cc2 h; cases h
          · intro cc1 h; cases h
        | some c =>
          by_cases hge : c.node.Weight ≥ cw2
          · simp only [hge, if_true]
            cases cc.cs[i.toNat]? with
            | none =>
              constructor
              · intro cc2 h; cases h
              · intro cc1 h; cases h
            | some r =>
              constructor
              · intro cc2 h; cases h
              · intro cc1 h; cases h
          · simp only [hge, if_false]
            constructor
            · intro cc2 h; cases h
            · intro cc1 h
              cases h
              rfl

/-- The selection loop returns nil only when `maxWeight` is 0. -/
theorem WeightedRoundRobinLB.loop_nil (f : Nat) :
    ∀ (cc cc2 : WeightedRoundRobinLB),
      WeightedRoundRobinLB.get.loop f cc = Run.done (none, cc2) → cc.maxWeight = 0 := by
  induction f with
  | zero => intro cc cc2 h; cases h
  | succ f ih =>
    intro cc cc2 h
    rw [WeightedRoundRobinLB.loop_succ] at h
    obtain ⟨b1, b2⟩ := WeightedRoundRobinLB.body_nil cc
    cases hb : WeightedRoundRobinLB.get.body cc with
    | inl r =>
      rw [hb] at h
      simp only at h
      rw [h] at hb
      exact b1 cc2 hb
    | inr cc1 =>
      rw [hb] at h
      simp only at h
      rw [← b2 cc1 hb]
      exact ih cc1 cc2 h

/-- Get returns nil only when `maxWeight` is 0. -/
theorem WeightedRoundRobinLB.get_nil (f : Nat) (cc cc2 : WeightedRoundRobinLB)
    (h : WeightedRoundRobinLB.get f cc = Run.done (none, cc2)) : cc.maxWeight = 0 := by
  unfold WeightedRoundRobinLB.get at h
  by_cases honce : cc.once = true
  · simp only [honce, if_true, Run.ofOption, Run.bind] at h
    exact WeightedRoundRobinLB.loop_nil f cc cc2 h
  · simp only [honce, Bool.false_eq_true, if_false, WeightedRoundRobinLB.init] at h
    by_cases hn : cc.clients.length = 0
    · simp only [hn, if_true, Option.map_none', Run.ofOption, Run.bind] at h
      cases h
    · simp only [hn, if_false, Option.map_some', Run.ofOption, Run.bind] at h
      have := WeightedRoundRobinLB.loop_nil f _ cc2 h
      exact this

/-- The first `m` Get calls on the balancer freshly constructed from a static configuration
with positive weights return the endpoints at the indices the stepping algorithm of the
specification returns on these weights. -/
theorem freshWeighted_refines (config : Config) (heap : Nat) (hne : config.NodeList ≠ [])
    (hw : ∀ n ∈ config.NodeList, 0 < n.Weight ∧ n.Weight < 65536) (m : Nat) :
    ∃ F, ∀ f, F ≤ f → ∃ (idxs : List Nat) (s2 : SmoothWrr) (lb2 : WeightedRoundRobinLB),
      (∀ j ∈ idxs, j < config.NodeList.length) ∧
      SmoothWrr.selects (config.NodeList.map Node.Weight) f m {} = Run.done (idxs.map some, s2) ∧
      WeightedRoundRobinLB.gets f m (freshWeighted config heap)
        = Run.done (idxs.map (fun j => (freshWeighted config heap).cs[j]?), lb2) := by
  have hcl : (createClients config.NodeList config.Opts heap).1.length = config.NodeList.length :=
    (createClients_spec config.NodeList config.Opts heap).1
  have hnpos : 0 < config.NodeList.length := List.length_pos.mpr hne
  have hwts := readyWeighted_weights config heap
  have hok := freshWeighted_ok config hne hw
  obtain ⟨F, hF⟩ := WeightedRoundRobinLB.gets_refines (readyWeighted config heap)
    (by show 0 < (createClients config.NodeList config.Opts heap).1.length; omega)
    (by simp [readyWeighted, freshWeighted, initCs])
    rfl (by rw [hwts]; exact hok)
    (by rw [hwts]; rfl)
    (by rw [hwts]; show _ = ((getMaxWeight config.NodeList : Nat) : Int)
        rw [getMaxWeight_eq_foldr]; rfl) m
  refine ⟨F, ?_⟩
  intro f hf
  obtain ⟨idxs, s2, cc2, hm, h1, h2⟩ := hF f hf
  rw [hwts] at h1
  have hmoved : (readyWeighted config heap).moved (((0 : Nat) : Int) - 1) 0
      = readyWeighted config heap := rfl
  rw [hmoved] at h2
  have hm2 : ∀ j ∈ idxs, j < config.NodeList.length := by
    intro j hj
    rw [← hcl]
    exact hm j hj
  cases m with
  | zero =>
    have hnil : idxs = [] := by
      have := WeightedRoundRobinLB.gets_length f 0 _ _ h2
      simpa [WeightedRoundRobinLB.outsOf] using this
    refine ⟨idxs, s2, freshWeighted config heap, hm2, h1, ?_⟩
    rw [hnil]
    rfl
  | succ m =>
    refine ⟨idxs, s2, cc2, hm2, h1, ?_⟩
    rw [freshWeighted_gets config heap hne f m]
    exact h2

/-- The largest element of a non-empty list, computed by `foldr max`. -/
theorem foldr_max_spec (ws : List Nat) (hne : ws ≠ []) :
    ws.foldr max 0 ∈ ws ∧ ∀ w ∈ ws, w ≤ ws.foldr max 0 := by
  induction ws with
  | nil => exact absurd rfl hne
  | cons x rest ih =>
    rw [List.foldr_cons]
    by_cases hr : rest = []
    · subst hr
      simp
    · obtain ⟨i1, i2⟩ := ih hr
      constructor
      · by_cases hx : rest.foldr max 0 ≤ x
        · rw [Nat.max_eq_left hx]
          simp
        · rw [Nat.max_eq_right (by omega)]
          exact List.mem_cons_of_mem _ i1
      · intro w hw
        rcases List.mem_cons.mp hw with h | h
        · rw [h]
          exact Nat.le_max_left _ _
        · exact le_trans (i2 w h) (Nat.le_max_right _ _)

/-- A balancer whose `gcd` and `maxWeight` are those of its positive pool weights. -/
theorem WeightedRoundRobinLB.weightsOk_of_fields (cc : WeightedRoundRobinLB)
    (hne : cc.clients ≠ [])
    (hw : ∀ w ∈ cc.weights, 0 < w ∧ w < 65536)
    (hg : (cc.gcd : Int) = SmoothWrr.gcd cc.weights)
    (hm : (cc.maxWeight : Int) = SmoothWrr.maxWeight cc.weights) :
    WeightsOk cc.gcd cc.maxWeight cc.weights := by
  have hg2 : cc.gcd = cc.weights.foldr Nat.gcd 0 := by
    unfold SmoothWrr.gcd at hg
    exact_mod_cast hg
  have hm2 : cc.maxWeight = cc.weights.foldr max 0 := by
    unfold SmoothWrr.maxWeight at hm
    exact_mod_cast hm
  have hwne : cc.weights ≠ [] := by
    unfold WeightedRoundRobinLB.weights
    simpa using hne
  obtain ⟨m1, m2⟩ := foldr_max_spec cc.weights hwne
  rw [hg2, hm2]
  refine ⟨foldr_gcd_pos _ hwne (fun w h => (hw w h).1), (hw _ m1).2, m1, ?_⟩
  intro w h
  exact ⟨foldr_gcd_dvd _ w h, (hw w h).1, m2 w h⟩

/-- On a balancer whose `cs` is what `init` builds, the first Get through `once.Do`
continues as on the balancer with `once` done. -/
theorem WeightedRoundRobinLB.get_ready (cc : WeightedRoundRobinLB) (hne : cc.clients ≠ [])
    (hcs : cc.cs = initCs cc.clients cc.HealthCheck) (f : Nat) :
    WeightedRoundRobinLB.get f cc = WeightedRoundRobinLB.get f { cc with once := true } := by
  have hlen : cc.clients.length ≠ 0 := fun h => hne (List.length_eq_zero.mp h)
  by_cases honce : cc.once = true
  · have : ({ cc with once := true } : WeightedRoundRobinLB) = cc := by
      cases cc
      simp only at honce
      subst honce
      rfl
    rw [this]
  · have hinit : ({ cc with cs := initCs cc.clients cc.HealthCheck } : WeightedRoundRobinLB)
        = cc := by
      cases cc
      simp only at hcs
      subst hcs
      rfl
    simp only [WeightedRoundRobinLB.get, honce, Bool.false_eq_true, if_false, if_true,
      WeightedRoundRobinLB.init, hlen, Option.map, Run.ofOption, Run.bind]
    rw [← hcs]

/-- From the state a constructor leaves (`i = -1`, `cw = 0`, `cs` built by `init`) of any
balancer whose `gcd` and `maxWeight` are the greatest common divisor and the largest of
its positive pool weights, the first `m` Get calls of the code return the endpoints at
the indices the stepping algorithm of the specification returns. -/
theorem WeightedRoundRobinLB.fresh_refines (cc : WeightedRoundRobinLB)
    (hne : cc.clients ≠ []) (hcs : cc.cs = initCs cc.clients cc.HealthCheck)
    (hi : cc.i = -1) (hcw : cc.cw = 0)
    (hw : ∀ w ∈ cc.weights, 0 < w ∧ w < 65536)
    (hg : (cc.gcd : Int) = SmoothWrr.gcd cc.weights)
    (hm : (cc.maxWeight : Int) = SmoothWrr.maxWeight cc.weights) (m : Nat) :
    ∃ F, ∀ f, F ≤ f →
      ∃ (idxs : List (Option Nat)) (s2 : SmoothWrr) (cc2 : WeightedRoundRobinLB),
        SmoothWrr.selects cc.weights f m {} = Run.done (idxs, s2) ∧
        WeightedRoundRobinLB.gets f m cc = Run.done (cc.endpoints idxs, cc2) ∧
        ∀ o ∈ idxs, ∃ j, o = some j ∧ j < cc.clients.length := by
  have hok := WeightedRoundRobinLB.weightsOk_of_fields cc hne hw hg hm
  have hlen : 0 < cc.clients.length := List.length_pos.mpr hne
  obtain ⟨F, hF⟩ := WeightedRoundRobinLB.gets_refines { cc with once := true } hlen
    (by show cc.cs.length = cc.clients.length; rw [hcs]; simp [initCs]) rfl hok hg.symm hm.symm m
  refine ⟨F, ?_⟩
  intro f hf
  obtain ⟨idxs, s2, cc2, hmem, h1, h2⟩ := hF f hf
  have hmoved : WeightedRoundRobinLB.moved { cc with once := true } (((0 : Nat) : Int) - 1) 0
      = { cc with once := true } := by
    cases cc
    simp only at hi hcw
    subst hi
    subst hcw
    rfl
  rw [hmoved] at h2
  have hmem2 : ∀ o ∈ idxs.map some, ∃ j, o = some j ∧ j < cc.clients.length := by
    intro o ho
    obtain ⟨j, hj, hjo⟩ := List.mem_map.mp ho
    exact ⟨j, hjo.symm, hmem j hj⟩
  have hend : cc.endpoints (idxs.map some)
      = WeightedRoundRobinLB.outsOf { cc with once := true } idxs := by
    simp [WeightedRoundRobinLB.endpoints, WeightedRoundRobinLB.outsOf]
  cases m with
  | zero =>
    have hnil : idxs = [] := by
      have := WeightedRoundRobinLB.gets_length f 0 _ _ h2
      simpa [WeightedRoundRobinLB.outsOf] using this
    refine ⟨idxs.map some, s2, cc, h1, ?_, hmem2⟩
    rw [hnil]
    rfl
  | succ m =>
    refine ⟨idxs.map some, s2, cc2, h1, ?_, hmem2⟩
    rw [hend, ← h2]
    simp only [WeightedRoundRobinLB.gets, WeightedRoundRobinLB.get_ready cc hne hcs f]

/-- What every returning call of NewWeightedRoundRobinLB leaves: a non-empty pool list,
`cs` built by `init`, the selection state `i = -1`, `cw = 0`, and `gcd` and `maxWeight`
computed from the nodes the watcher returned. -/
theorem NewWeightedRoundRobinLB_done (config : Config) (input : WatchInput) (heap : Nat)
    (lb : WeightedRoundRobinLB) (h : NewWeightedRoundRobinLB config input heap = Run.done lb) :
    lb.clients ≠ [] ∧ lb.cs = initCs lb.clients lb.HealthCheck ∧ lb.i = -1 ∧ lb.cw = 0 ∧
    ∃ nodes w, (newWatcher config).watch config input = Run.done (nodes, w) ∧
      gcdx (nodes.map Node.Weight) = Run.done lb.gcd ∧ lb.maxWeight = getMaxWeight nodes := by
  unfold NewWeightedRoundRobinLB WeightedRoundRobinLB.fetchOnce at h
  simp only at h
  cases hwt : (newWatcher config).watch config input with
  | panic => rw [hwt] at h; simp [Run.bind] at h
  | pending => rw [hwt] at h; simp [Run.bind] at h
  | done r =>
    obtain ⟨nodes, w⟩ := r
    rw [hwt] at h
    simp only [Run.bind] at h
    cases hgx : gcdx (nodes.map Node.Weight) with
    | panic => rw [hgx] at h; simp at h
    | pending => rw [hgx] at h; simp at h
    | done g =>
      rw [hgx] at h
      simp only [WeightedRoundRobinLB.init, Run.ofOption] at h
      by_cases hlen : (updateClients (createClients config.NodeList config.Opts heap).1 nodes
          config.Opts (createClients config.NodeList config.Opts heap).2).clients.length = 0
      · simp only [hlen, if_true] at h
        cases h
      · simp only [hlen, if_false, Run.done.injEq] at h
        subst h
        refine ⟨?_, rfl, rfl, rfl, nodes, w, rfl, hgx, rfl⟩
        intro h0
        apply hlen
        simp only at h0
        rw [h0]
        rfl

/-! ## Weighted round robin: a constructed balancer whose pools are not the watched nodes -/

/-- A selection of the stepping algorithm that has returned returns the same with a larger
bound on the rounds. -/
theorem SmoothWrr.select_mono (ws : List Nat) (f : Nat) :
    ∀ (s : SmoothWrr) (r : Option Nat × SmoothWrr),
      SmoothWrr.select ws f s = Run.done r → ∀ e, SmoothWrr.select ws (f + e) s = Run.done r := by
  induction f with
  | zero => intro s r h; cases h
  | succ f ih =>
    intro s r h e
    have he : f + 1 + e = (f + e) + 1 := by omega
    rw [he, SmoothWrr.select_succ]
    rw [SmoothWrr.select_succ] at h
    cases hs : SmoothWrr.step ws s with
    | inl r0 => rw [hs] at h; exact h
    | inr s1 =>
      rw [hs] at h
      exact ih s1 r h e

theorem SmoothWrr.selects_mono (ws : List Nat) (f e n : Nat) :
    ∀ (s : SmoothWrr) (r : List (Option Nat) × SmoothWrr),
      SmoothWrr.selects ws f n s = Run.done r → SmoothWrr.selects ws (f + e) n s = Run.done r := by
  induction n with
  | zero => intro s r h; exact h
  | succ n ih =>
    intro s r h
    simp only [SmoothWrr.selects] at h ⊢
    cases h1 : SmoothWrr.select ws f s with
    | panic => rw [h1] at h; simp [Run.bind] at h
    | pending => rw [h1] at h; simp [Run.bind] at h
    | done r1 =>
      obtain ⟨o, s1⟩ := r1
      rw [h1] at h
      rw [SmoothWrr.select_mono ws f s _ h1 e]
      simp only [Run.bind] at h ⊢
      cases h2 : SmoothWrr.selects ws f n s1 with
      | panic => rw [h2] at h; simp at h
      | pending => rw [h2] at h; simp at h
      | done r2 =>
        rw [h2] at h
        rw [ih s1 r2 h2]
        exact h

/-- With one pool, `gcd = 0`, `maxWeight = 0` and `cw = 0`, a round of the selection loop
returns nil: the block `if cc.i == 0` resets `cw` to `maxWeight`, which is 0. -/
theorem WeightedRoundRobinLB.body_max_zero (cc : WeightedRoundRobinLB)
    (hn : cc.clients.length = 1) (hg : cc.gcd = 0) (hm : cc.maxWeight = 0) (hcw : cc.cw = 0) :
    WeightedRoundRobinLB.get.body cc = .inl (.done (none, { cc with i := 0, cw := 0 })) := by
  unfold WeightedRoundRobinLB.get.body
  have hi : Int.tmod (cc.i + 1) ((1 : Nat) : Int) = 0 := by
    show Int.tmod (cc.i + 1) 1 = 0
    exact Int.tmod_one _
  simp only [hn, hg, hm, hcw, hi]
  simp

/-- On a balancer with one pool whose stored `gcd` and `maxWeight` are 0, whose `cw` is 0
and whose `cs` is what `init` builds, every Get returns nil. -/
theorem WeightedRoundRobinLB.gets_max_zero (f : Nat) :
    ∀ (m : Nat) (cc : WeightedRoundRobinLB), cc.clients.length = 1 → cc.gcd = 0 →
      cc.maxWeight = 0 → cc.cw = 0 → cc.cs = initCs cc.clients cc.HealthCheck →
      ∃ cc2, WeightedRoundRobinLB.gets (f + 1) m cc = Run.done (List.replicate m none, cc2) := by
  intro m
  induction m with
  | zero => intro cc _ _ _ _ _; exact ⟨cc, rfl⟩
  | succ m ih =>
    intro cc hn hg hm hcw hcs
    have hne : cc.clients ≠ [] := by
      intro h0
      rw [h0] at hn
      cases hn
    have hget : WeightedRoundRobinLB.get (f + 1) cc
        = Run.done (none, { cc with once := true, i := 0, cw := 0 }) := by
      have hb := WeightedRoundRobinLB.body_max_zero { cc with once := true } hn hg hm hcw
      rw [WeightedRoundRobinLB.get_ready cc hne hcs (f + 1),
        WeightedRoundRobinLB.get_eq_loop _ _ rfl, WeightedRoundRobinLB.loop_succ, hb]
    obtain ⟨cc2, h2⟩ := ih { cc with once := true, i := 0, cw := 0 } hn hg hm rfl hcs
    refine ⟨cc2, ?_⟩
    simp only [WeightedRoundRobinLB.gets, hget, Run.bind, h2, List.replicate_succ]

/-- On the single weight 100 the stepping algorithm of the specification selects index 0
in every call. -/
theorem SmoothWrr.selects_single (f : Nat) :
    ∀ (m : Nat) (s : SmoothWrr), (s.cw = 0 ∨ s.cw = 100) →
      ∃ s2, SmoothWrr.selects [100] (f + 1) m s = Run.done (List.replicate m (some 0), s2) := by
  intro m
  induction m with
  | zero => intro s _; exact ⟨s, rfl⟩
  | succ m ih =>
    intro s hs
    have hstep : SmoothWrr.step [100] s = .inl (.done (some 0, { i := 0, cw := 100 })) := by
      have hi : (s.i + 1) % ((1 : Nat) : Int) = 0 := by
        show (s.i + 1) % 1 = 0
        exact Int.emod_one _
      unfold SmoothWrr.step
      simp only [List.length_singleton, hi]
      rcases hs with h | h <;> rw [h] <;> rfl
    obtain ⟨s2, h2⟩ := ih { i := 0, cw := 100 } (Or.inr rfl)
    refine ⟨s2, ?_⟩
    simp only [SmoothWrr.selects, SmoothWrr.select_succ, hstep, Run.bind, h2,
      List.replicate_succ]

/-- C22, the code on a freshly constructed balancer whose pools are not those of the
watched nodes: fetchOnce computes `gcd` and `maxWeight` from the nodes the watcher
returned, but keeps the pools of the fallback list whenever updateClients reports no
change. (1) For a validated Consul configuration with the fallback nodes A (weight 100)
and B (weight 50) and a first answer that lists A twice, the constructor returns a
balancer with pool weights 100, 50 and `gcd = maxWeight = 100`; its first six Get calls
return A, B, A, A, B, A, where the stepping algorithm of the specification on the pool
weights returns A, A, B, A, A, B. (2) For a validated DNS configuration of record type
`CNAME` with the fallback node A the constructor returns a balancer with pool weight 100
and `gcd = maxWeight = 0`, on which every Get returns nil, where the stepping algorithm
selects A in every call. (3) Whenever `gcd` and `maxWeight` of a constructed balancer
are the greatest common divisor and the largest of its positive pool weights, the Get
calls of the code, which steps a 16-bit unsigned `cw`, return the endpoints at exactly
the indices the stepping algorithm returns over unbounded integers; (4) this is so for
every static configuration with positive weights; (5) Get returns nil only when
`maxWeight` is 0. -/
theorem NewWeightedRoundRobinLB_gcd_not_of_pools :
    (exConsulPairConfig.Validate (fun _ => none) = some (exConsulPairConfig, none) ∧
     ∃ lb, NewWeightedRoundRobinLB exConsulPairConfig exConsulTwiceA 0 = Run.done lb ∧
      lb.weightState = ([100, 50], 100, 100) ∧ lb.selState = (-1, 0, false) ∧
      ∃ F, ∀ f, F ≤ f → ∃ lb2 s2,
        WeightedRoundRobinLB.gets f 6 lb
          = Run.done (lb.endpoints [some 0, some 1, some 0, some 0, some 1, some 0], lb2) ∧
        lbClient.names (lb.endpoints [some 0, some 1, some 0, some 0, some 1, some 0])
          = [some "10.0.0.1:80_w100", some "10.0.0.2:80_w50", some "10.0.0.1:80_w100",
             some "10.0.0.1:80_w100", some "10.0.0.2:80_w50", some "10.0.0.1:80_w100"] ∧
        SmoothWrr.selects lb.weights f 6 {}
          = Run.done ([some 0, some 0, some 1, some 0, some 0, some 1], s2) ∧
        lbClient.names (lb.endpoints [some 0, some 0, some 1, some 0, some 0, some 1])
          = [some "10.0.0.1:80_w100", some "10.0.0.1:80_w100", some "10.0.0.2:80_w50",
             some "10.0.0.1:80_w100", some "10.0.0.1:80_w100", some "10.0.0.2:80_w50"]) ∧
    (exCnameWeighted.Validate (fun _ => none) = some (exCnameWeighted, none) ∧
     ∀ input : WatchInput,
      ∃ lb, NewWeightedRoundRobinLB exCnameWeighted input 0 = Run.done lb ∧
        lb.weightState = ([100], 0, 0) ∧ lb.selState = (-1, 0, false) ∧
        ∀ m f, 1 ≤ f → ∃ lb2 s2,
          WeightedRoundRobinLB.gets f m lb = Run.done (List.replicate m none, lb2) ∧
          SmoothWrr.selects lb.weights f m {} = Run.done (List.replicate m (some 0), s2)) ∧
    (∀ (config : Config) (input : WatchInput) (heap : Nat) (lb : WeightedRoundRobinLB),
      NewWeightedRoundRobinLB config input heap = Run.done lb →
      (∀ w ∈ lb.weights, 0 < w ∧ w < 65536) →
      (lb.gcd : Int) = SmoothWrr.gcd lb.weights →
      (lb.maxWeight : Int) = SmoothWrr.maxWeight lb.weights →
      lb.i = -1 ∧ lb.cw = 0 ∧
      ∀ m, ∃ F, ∀ f, F ≤ f →
        ∃ (idxs : List (Option Nat)) (s2 : SmoothWrr) (lb2 : WeightedRoundRobinLB),
          SmoothWrr.selects lb.weights f m {} = Run.done (idxs, s2) ∧
          WeightedRoundRobinLB.gets f m lb = Run.done (lb.endpoints idxs, lb2) ∧
          ∀ o ∈ idxs, ∃ j, o = some j ∧ j < lb.clients.length) ∧
    (∀ (config : Config) (input : WatchInput) (heap : Nat),
      config.Typ = TypeStatic → config.NodeList ≠ [] →
      (∀ n ∈ config.NodeList, 0 < n.Weight ∧ n.Weight < 65536) →
      ∃ lb, NewWeightedRoundRobinLB config input heap = Run.done lb ∧
        lb.i = -1 ∧ lb.cw = 0 ∧
        lb.weights = config.NodeList.map Node.Weight ∧
        (lb.gcd : Int) = SmoothWrr.gcd (config.NodeList.map Node.Weight) ∧
        (lb.maxWeight : Int) = SmoothWrr.maxWeight (config.NodeList.map Node.Weight) ∧
        ∀ m, ∃ F, ∀ f, F ≤ f →
          ∃ (idxs : List (Option Nat)) (s2 : SmoothWrr) (lb2 : WeightedRoundRobinLB),
            SmoothWrr.selects (config.NodeList.map Node.Weight) f m {} = Run.done (idxs, s2) ∧
            WeightedRoundRobinLB.gets f m lb = Run.done (lb.endpoints idxs, lb2) ∧
            ∀ o ∈ idxs, ∃ j, o = some j ∧ j < config.NodeList.length) ∧
    ∀ (f : Nat) (cc cc2 : WeightedRoundRobinLB),
      WeightedRoundRobinLB.get f cc = Run.done (none, cc2) → cc.maxWeight = 0 := by
  refine ⟨⟨by decide, ?_⟩, ⟨by decide, ?_⟩, ?_, ?_,
    fun f cc cc2 h => WeightedRoundRobinLB.get_nil f cc cc2 h⟩
  · have h1 : (NewWeightedRoundRobinLB exConsulPairConfig exConsulTwiceA 0).value?.map
        (fun lb => (lb.weightState, lb.selState)) = some (([100, 50], 100, 100), (-1, 0, false)) := by
      decide
    have h2 : (NewWeightedRoundRobinLB exConsulPairConfig exConsulTwiceA 0).value?.map
        (fun lb => lbClient.names (lb.endpoints [some 0, some 1, some 0, some 0, some 1, some 0]))
        = some [some "10.0.0.1:80_w100", some "10.0.0.2:80_w50", some "10.0.0.1:80_w100",
            some "10.0.0.1:80_w100", some "10.0.0.2:80_w50", some "10.0.0.1:80_w100"] := by
      decide
    have h3 : (NewWeightedRoundRobinLB exConsulPairConfig exConsulTwiceA 0).value?.map
        (fun lb => lbClient.names (lb.endpoints [some 0, some 0, some 1, some 0, some 0, some 1]))
        = some [some "10.0.0.1:80_w100", some "10.0.0.1:80_w100", some "10.0.0.2:80_w50",
            some "10.0.0.1:80_w100", some "10.0.0.1:80_w100", some "10.0.0.2:80_w50"] := by
      decide
    have hp : passes 100 100 [100, 50] 2621 0 = [0, 1, 0, 0, 1, 0, 1] ∧
        weightAfter 100 100 2621 0 = 44 := by
      set_option maxRecDepth 100000 in decide
    cases hnew : NewWeightedRoundRobinLB exConsulPairConfig exConsulTwiceA 0 with
    | panic => rw [hnew] at h1; cases h1
    | pending => rw [hnew] at h1; cases h1
    | done lb =>
      rw [hnew] at h1 h2 h3
      simp only [Run.value?, Option.map_some', Option.some.injEq, Prod.mk.injEq] at h1 h2 h3
      obtain ⟨hws, hsel⟩ := h1
      obtain ⟨hne, hcs, hi, hcw, _⟩ :=
        NewWeightedRoundRobinLB_done exConsulPairConfig exConsulTwiceA 0 lb hnew
      have hw : lb.weights = [100, 50] := congrArg Prod.fst hws
      have hg : lb.gcd = 100 := congrArg (fun p => p.2.1) hws
      have hm : lb.maxWeight = 100 := congrArg (fun p => p.2.2) hws
      have hlen : 0 < lb.clients.length := List.length_pos.mpr hne
      have hmoved : WeightedRoundRobinLB.moved { lb with once := true } (((0 : Nat) : Int) - 1) 0
          = { lb with once := true } := by
        cases lb
        simp only at hi hcw
        subst hi
        subst hcw
        rfl
      have hrd : ∀ t c, passes (WeightedRoundRobinLB.gcd { lb with once := true })
            (WeightedRoundRobinLB.maxWeight { lb with once := true })
            (WeightedRoundRobinLB.weights { lb with once := true }) t c
          = passes 100 100 [100, 50] t c := by
        intro t c
        show passes lb.gcd lb.maxWeight lb.weights t c = _
        rw [hg, hm, hw]
      have hwa : ∀ t c, weightAfter (WeightedRoundRobinLB.gcd { lb with once := true })
            (WeightedRoundRobinLB.maxWeight { lb with once := true }) t c
          = weightAfter 100 100 t c := by
        intro t c
        show weightAfter lb.gcd lb.maxWeight t c = _
        rw [hg, hm]
      obtain ⟨last, _, ⟨F, hF⟩, _⟩ := WeightedRoundRobinLB.gets_passes { lb with once := true }
        hlen (by show 0 < lb.maxWeight; omega)
        (by show lb.cs.length = lb.clients.length; rw [hcs]; simp [initCs]) rfl 2620 0 0
        (Or.inl rfl) (by
          rw [hwa, hp.2]
          show hitsFrom 44 lb.weights 0 ≠ []
          rw [hw]
          decide)
      rw [hrd, hwa, hp.1, hp.2, hmoved] at hF
      have hspec : SmoothWrr.selects [100, 50] 2 6 {}
          = Run.done ([some 0, some 0, some 1, some 0, some 0, some 1],
              { i := 1, cw := 50 }) := rfl
      refine ⟨lb, rfl, hws, hsel, F + 2, ?_⟩
      intro f hf
      have h7 := hF f (by omega)
      have hready : WeightedRoundRobinLB.gets f (6 + 1) lb
          = WeightedRoundRobinLB.gets f (6 + 1) { lb with once := true } := by
        simp only [WeightedRoundRobinLB.gets, WeightedRoundRobinLB.get_ready lb hne hcs f]
      obtain ⟨lb2, h6⟩ := WeightedRoundRobinLB.gets_prefix f 6 1 lb _ (hready.trans h7)
      refine ⟨lb2, { i := 1, cw := 50 }, ?_, h2, ?_, h3⟩
      · rw [h6]
        simp [WeightedRoundRobinLB.endpoints, WeightedRoundRobinLB.outsOf]
      · rw [hw]
        obtain ⟨e, rfl⟩ : ∃ e, f = 2 + e := ⟨f - 2, by omega⟩
        exact SmoothWrr.selects_mono [100, 50] 2 e 6 _ _ hspec
  · intro input
    have hwatch : (newWatcher exCnameWeighted).watch exCnameWeighted input
        = Run.done ([], newWatcher exCnameWeighted) := rfl
    have hnew : NewWeightedRoundRobinLB exCnameWeighted input 0
        = Run.done
            { clients := (createClients exCnameWeighted.NodeList exCnameWeighted.Opts 0).1
              config := exCnameWeighted
              cs := initCs (createClients exCnameWeighted.NodeList exCnameWeighted.Opts 0).1 none
              watcher := newWatcher exCnameWeighted
              i := -1
              heap := (createClients exCnameWeighted.NodeList exCnameWeighted.Opts 0).2 } := by
      unfold NewWeightedRoundRobinLB WeightedRoundRobinLB.fetchOnce
      simp only [hwatch, Run.bind]
      rfl
    refine ⟨_, hnew, by decide, by decide, ?_⟩
    intro m f hf
    obtain ⟨e, rfl⟩ : ∃ e, f = e + 1 := ⟨f - 1, by omega⟩
    obtain ⟨lb2, h1⟩ := WeightedRoundRobinLB.gets_max_zero e m
      { clients := (createClients exCnameWeighted.NodeList exCnameWeighted.Opts 0).1
        config := exCnameWeighted
        cs := initCs (createClients exCnameWeighted.NodeList exCnameWeighted.Opts 0).1 none
        watcher := newWatcher exCnameWeighted
        i := -1
        heap := (createClients exCnameWeighted.NodeList exCnameWeighted.Opts 0).2 }
      (by decide) rfl rfl rfl rfl
    obtain ⟨s2, h2⟩ := SmoothWrr.selects_single e m {} (Or.inl rfl)
    exact ⟨lb2, s2, h1, h2⟩
  · intro config input heap lb hnew hw hg hm
    obtain ⟨hne, hcs, hi, hcw, _⟩ := NewWeightedRoundRobinLB_done config input heap lb hnew
    exact ⟨hi, hcw, fun m => WeightedRoundRobinLB.fresh_refines lb hne hcs hi hcw hw hg hm m⟩
  · intro config input heap hstatic hne hw
    refine ⟨freshWeighted config heap,
      NewWeightedRoundRobinLB_static config input heap hstatic hne (fun n hn => (hw n hn).1),
      rfl, rfl, readyWeighted_weights config heap, rfl, ?_, ?_⟩
    · show ((getMaxWeight config.NodeList : Nat) : Int) = _
      rw [getMaxWeight_eq_foldr]
      rfl
    · intro m
      obtain ⟨F, hF⟩ := freshWeighted_refines config heap hne hw m
      refine ⟨F, ?_⟩
      intro f hf
      obtain ⟨idxs, s2, lb2, hm, h1, h2⟩ := hF f hf
      refine ⟨idxs.map some, s2, lb2, h1, ?_, ?_⟩
      · rw [h2]
        simp [WeightedRoundRobinLB.endpoints]
      · intro o ho
        obtain ⟨j, hj, hjo⟩ := List.mem_map.mp ho
        exact ⟨j, hjo.symm, hm j hj⟩

/-- Witness of C22: the static configuration over A, B, C with weights 4, 2, 1, and the
balancer constructed from it. -/
theorem NewWeightedRoundRobinLB_gcd_not_of_pools_witness :
    (∃ lb, NewWeightedRoundRobinLB exWeightedConfig {} 0 = Run.done lb ∧
      lb.i = -1 ∧ lb.cw = 0 ∧
      lb.weights = exWeightedConfig.NodeList.map Node.Weight ∧
      (lb.gcd : Int) = SmoothWrr.gcd (exWeightedConfig.NodeList.map Node.Weight) ∧
      (lb.maxWeight : Int) = SmoothWrr.maxWeight (exWeightedConfig.NodeList.map Node.Weight) ∧
      ∀ m, ∃ F, ∀ f, F ≤ f →
        ∃ (idxs : List (Option Nat)) (s2 : SmoothWrr) (lb2 : WeightedRoundRobinLB),
          SmoothWrr.selects (exWeightedConfig.NodeList.map Node.Weight) f m {}
            = Run.done (idxs, s2) ∧
          WeightedRoundRobinLB.gets f m lb = Run.done (lb.endpoints idxs, lb2) ∧
          ∀ o ∈ idxs, ∃ j, o = some j ∧ j < exWeightedConfig.NodeList.length) ∧
    ((freshWeighted exWeightedConfig 0).i = -1 ∧ (freshWeighted exWeightedConfig 0).cw = 0 ∧
      ∀ m, ∃ F, ∀ f, F ≤ f →
        ∃ (idxs : List (Option Nat)) (s2 : SmoothWrr) (lb2 : WeightedRoundRobinLB),
          SmoothWrr.selects (freshWeighted exWeightedConfig 0).weights f m {}
            = Run.done (idxs, s2) ∧
          WeightedRoundRobinLB.gets f m (freshWeighted exWeightedConfig 0)
            = Run.done ((freshWeighted exWeightedConfig 0).endpoints idxs, lb2) ∧
          ∀ o ∈ idxs, ∃ j, o = some j ∧ j < (freshWeighted exWeightedConfig 0).clients.length) :=
  ⟨NewWeightedRoundRobinLB_gcd_not_of_pools.2.2.2.1 exWeightedConfig {} 0 rfl (by decide)
     (by decide),
   NewWeightedRoundRobinLB_gcd_not_of_pools.2.2.1 exWeightedConfig {} 0
     (freshWeighted exWeightedConfig 0)
     (NewWeightedRoundRobinLB_static exWeightedConfig {} 0 rfl (by decide) (by decide))
     (by decide) (by decide) (by decide)⟩

/-! ## Validated static configurations and the weighted strategy -/

/-- The port and weight of a node built by newNode are `uint16` values. -/
theorem newNode_uint16 (info : String) (n : Node) (e : error)
    (h : newNode info = (some n, e)) : n.Port < 65536 ∧ n.Weight < 65536 := by
  unfold newNode at h
  cases hr : nodeInfoReg info with
  | none => rw [hr] at h; simp at h
  | some g =>
    obtain ⟨ip, port, weight⟩ := g
    rw [hr] at h
    simp only [Prod.mk.injEq, Option.some.injEq] at h
    rw [← h.1]
    exact ⟨Nat.mod_lt _ (by decide), Nat.mod_lt _ (by decide)⟩

/-- The tail of Validate keeps the type. -/
theorem validateTail_Typ (c : Config) : (c.validateTail).1.Typ = c.Typ := by
  unfold Config.validateTail Config.validatorStruct
  by_cases h : c.LBStrategy = 0
  · rw [if_pos h]
  · rw [if_neg h]

/-- What a successful Validate of a static config leaves: the type as it was, and a
non-empty node list whose nodes have an IP, a port and a weight. -/
theorem Validate_static_nodes (c c2 : Config) (resolv : String → Option (List String × String))
    (hT : toLower c.Typ = TypeStatic) (hU : ∀ n ∈ c.NodeList, n.Weight < 65536)
    (hV : c.Validate resolv = some (c2, none)) :
    c2.Typ = c.Typ ∧ c2.NodeList ≠ [] ∧
    ∀ n ∈ c2.NodeList, n.IP ≠ "" ∧ n.Port ≠ 0 ∧ 0 < n.Weight ∧ n.Weight < 65536 := by
  have f1 := (convertIPList_fields c).1
  rcases hc : c.convertIPList with ⟨c1, _ | e⟩
  · rw [hc] at f1
    simp only at f1
    by_cases hN : c1.NodeList = []
    · obtain ⟨_, e, h⟩ := Validate_static_empty c resolv hT (by rw [hc]; exact hN)
      rw [h] at hV
      simp at hV
    · have hstep := Validate_static_step c c1 resolv hT hc hN
      rw [hV] at hstep
      rcases hv : validateNodes c1.NodeList with ⟨nodes, _ | e⟩
      · rw [hv] at hstep
        simp only [Option.some.injEq] at hstep
        have h1 := congrArg (fun r => r.1.NodeList) hstep
        have h2 := congrArg (fun r => r.1.Typ) hstep
        simp only [validateTail_NodeList, validateTail_Typ] at h1 h2
        obtain ⟨v1, v2⟩ := validateNodes_ok c1.NodeList nodes hv
        have hu1 : ∀ n ∈ c1.NodeList, n.Weight < 65536 := by
          by_cases hcN : c.NodeList = []
          · by_cases hcI : c.IPList = []
            · rw [(convertIPList_spec c).1 (Or.inl hcI)] at hc
              simp only [Prod.mk.injEq] at hc
              rw [← hc.1]
              exact hU
            · rcases (convertIPList_spec c).2 ⟨hcI, hcN⟩ with ⟨l, h3, h4, _⟩ | ⟨err, h3, _⟩
              · rw [h3] at hc
                simp only [Prod.mk.injEq] at hc
                rw [← hc.1]
                intro n hn
                have : some n ∈ l.map some := List.mem_map_of_mem _ hn
                rw [h4] at this
                obtain ⟨e, _, hne⟩ := List.mem_map.mp this
                exact (newNode_uint16 e n (newNode e).2 (by rw [← hne])).2
              · rw [h3] at hc
                simp at hc
          · rw [(convertIPList_spec c).1 (Or.inr hcN)] at hc
            simp only [Prod.mk.injEq] at hc
            rw [← hc.1]
            exact hU
        refine ⟨by rw [h2, f1], ?_, ?_⟩
        · rw [h1, v1]
          simpa using hN
        · intro n hn
          rw [h1, v1] at hn
          obtain ⟨n0, hn0, rfl⟩ := List.mem_map.mp hn
          obtain ⟨i1, i2⟩ := v2 n0 hn0
          refine ⟨i1, i2, ?_, ?_⟩
          · show 0 < defaultUint n0.Weight 100
            unfold defaultUint
            split <;> omega
          · show defaultUint n0.Weight 100 < 65536
            have := hu1 n0 hn0
            unfold defaultUint
            split <;> omega
      · rw [hv] at hstep
        simp at hstep
  · have : c.Validate resolv = some (c1, some e) := by
      unfold Config.Validate
      rw [hc]
    rw [this] at hV
    simp at hV

theorem watcher_watch_fallback (w : watcher) (config : Config) (input : WatchInput)
    (h1 : config.Typ ≠ TypeDNS) (h2 : config.Typ ≠ TypeConsul) :
    w.watch config input = Run.done (w.nodes, { w with config := config }) := by
  unfold watcher.watch
  simp only [h1, h2, if_false]

/-- The balancer NewWeightedRoundRobinLB builds from a configuration that is watched
neither by DNS nor by Consul, with positive weights. -/
theorem NewWeightedRoundRobinLB_fallback (config : Config) (input : WatchInput) (heap : Nat)
    (h1 : config.Typ ≠ TypeDNS) (h2 : config.Typ ≠ TypeConsul) (hne : config.NodeList ≠ [])
    (hpos : ∀ n ∈ config.NodeList, 0 < n.Weight) :
    NewWeightedRoundRobinLB config input heap = Run.done (freshWeighted config heap) := by
  have hlen : (createClients config.NodeList config.Opts heap).1.length ≠ 0 := by
    rw [(createClients_spec config.NodeList config.Opts heap).1]
    exact fun h => hne (List.length_eq_zero.mp h)
  have hg := gcdx_spec (config.NodeList.map Node.Weight) (by
    intro w hw
    obtain ⟨n, hn, hnw⟩ := List.mem_map.mp hw
    rw [← hnw]
    exact hpos n hn)
  simp only [NewWeightedRoundRobinLB, WeightedRoundRobinLB.fetchOnce,
    watcher_watch_fallback _ config input h1 h2, Run.bind, newWatcher,
    updateClients_createClients, hg, WeightedRoundRobinLB.init, hlen, if_false, Run.ofOption,
    freshWeighted]

/-- A static type is neither the DNS nor the Consul type. -/
theorem static_Typ_not_watched (s : String) (h : toLower s = TypeStatic) :
    s ≠ TypeDNS ∧ s ≠ TypeConsul := by
  constructor
  · intro e; subst e; revert h; decide
  · intro e; subst e; revert h; decide

/-- C25: after Validate has returned nil on a static config (whose weights are `uint16`
values), every node of `NodeList` has a non-empty IP, a non-zero Port and a non-zero
Weight; gcdx on the weights returns (it does not divide by zero) a positive value,
getMaxWeight is positive, and on the WeightedRoundRobinLB constructed from the validated
config every Get returns, for a sufficient bound on the rounds of its loop, and no Get
that returns returns nil. -/
theorem Validate_static_weighted_never_nil (c c2 : Config)
    (resolv : String → Option (List String × String)) (input : WatchInput) (heap : Nat)
    (hT : toLower c.Typ = TypeStatic) (hU : ∀ n ∈ c.NodeList, n.Weight < 65536)
    (hV : c.Validate resolv = some (c2, none)) :
    (∀ n ∈ c2.NodeList, n.IP ≠ "" ∧ n.Port ≠ 0 ∧ n.Weight ≠ 0) ∧
    (∃ g, gcdx (c2.NodeList.map Node.Weight) = Run.done g ∧ 0 < g) ∧
    0 < getMaxWeight c2.NodeList ∧
    ∃ lb, NewWeightedRoundRobinLB c2 input heap = Run.done lb ∧
      (∀ m, ∃ F, ∀ f, F ≤ f → ∃ outs lb2,
        WeightedRoundRobinLB.gets f m lb = Run.done (outs, lb2) ∧ ∀ o ∈ outs, o ≠ none) ∧
      ∀ f m outs lb2, WeightedRoundRobinLB.gets f m lb = Run.done (outs, lb2) →
        ∀ o ∈ outs, o ≠ none := by
  obtain ⟨hTyp, hne, hnodes⟩ := Validate_static_nodes c c2 resolv hT hU hV
  have hw : ∀ n ∈ c2.NodeList, 0 < n.Weight ∧ n.Weight < 65536 :=
    fun n hn => ⟨(hnodes n hn).2.2.1, (hnodes n hn).2.2.2⟩
  have hposw : ∀ w ∈ c2.NodeList.map Node.Weight, 0 < w := by
    intro w hw2
    obtain ⟨n, hn, hnw⟩ := List.mem_map.mp hw2
    rw [← hnw]
    exact (hw n hn).1
  obtain ⟨t1, t2⟩ := static_Typ_not_watched c2.Typ (by rw [hTyp]; exact hT)
  have htotal : ∀ m, ∃ F, ∀ f, F ≤ f → ∃ outs lb2,
      WeightedRoundRobinLB.gets f m (freshWeighted c2 heap) = Run.done (outs, lb2) ∧
      ∀ o ∈ outs, o ≠ none := by
    intro m
    obtain ⟨F, hF⟩ := freshWeighted_refines c2 heap hne hw m
    refine ⟨F, ?_⟩
    intro f hf
    obtain ⟨idxs, _, lb2, hm, _, h2⟩ := hF f hf
    refine ⟨_, lb2, h2, ?_⟩
    intro o ho
    obtain ⟨j, hj, hjo⟩ := List.mem_map.mp ho
    obtain ⟨r, hr, _⟩ := freshWeighted_cs c2 heap j (hm j hj)
    rw [← hjo, hr]
    simp
  refine ⟨fun n hn => ⟨(hnodes n hn).1, (hnodes n hn).2.1, by have := (hw n hn).1; omega⟩,
    ⟨_, gcdx_spec _ hposw, foldr_gcd_pos _ (by simpa using hne) hposw⟩, ?_,
    freshWeighted c2 heap,
    NewWeightedRoundRobinLB_fallback c2 input heap t1 t2 hne (fun n hn => (hw n hn).1),
    htotal, ?_⟩
  · obtain ⟨hm1, _⟩ := getMaxWeight_spec c2.NodeList hne (fun n hn => (hw n hn).1)
    obtain ⟨n, hn, hnw⟩ := List.mem_map.mp hm1
    rw [← hnw]
    exact (hw n hn).1
  · intro f m outs lb2 h
    obtain ⟨F, hF⟩ := htotal m
    obtain ⟨outs2, lb3, h2, h3⟩ := hF (f + F) (by omega)
    have := WeightedRoundRobinLB.gets_mono f F m _ _ h
    rw [this] at h2
    simp only [Run.done.injEq, Prod.mk.injEq] at h2
    rw [h2.1]
    exact h3

/-- Witness of C25: the config of httplb_test.go, validated. -/
theorem Validate_static_weighted_never_nil_witness :
    (∀ n ∈ exTestValidated.NodeList, n.IP ≠ "" ∧ n.Port ≠ 0 ∧ n.Weight ≠ 0) ∧
    (∃ g, gcdx (exTestValidated.NodeList.map Node.Weight) = Run.done g ∧ 0 < g) ∧
    0 < getMaxWeight exTestValidated.NodeList ∧
    ∃ lb, NewWeightedRoundRobinLB exTestValidated {} 0 = Run.done lb ∧
      (∀ m, ∃ F, ∀ f, F ≤ f → ∃ outs lb2,
        WeightedRoundRobinLB.gets f m lb = Run.done (outs, lb2) ∧ ∀ o ∈ outs, o ≠ none) ∧
      ∀ f m outs lb2, WeightedRoundRobinLB.gets f m lb = Run.done (outs, lb2) →
        ∀ o ∈ outs, o ≠ none :=
  Validate_static_weighted_never_nil exTestConfig exTestValidated (fun _ => none) {} 0
    (by decide) (by decide) (by decide)

end httplb
